import Mathlib

/-!
# fast-utf8-multi-replace: a shallow embedding of `src/replace.cpp`

Byte strings (`std::string`) are lists of natural numbers, one per byte.
Buffer offsets (`uint64_t`) are natural numbers; the two places where the
source subtracts them (`src_len - current_position` and
`str.size() - current_pos`) wrap modulo `2^64` as in C++.  The `uint8_t`
counters of `ReplaceCharByChar` and `LeftmostBlockSize` are reduced modulo
`2^8` at every update.

A `memcpy` that writes past `dest.size()`, or a read past the terminating
NUL of a `std::string`, is undefined behaviour in C++; the embedding reports
it as `Fault.outOfBounds`.  Loops are run on a fuel counter, and a loop that
is still running when its fuel is spent reports `Fault.fuel`.
-/

namespace utf8mr

/-- A byte string: the contents of a `std::string`, one number per byte. -/
abbrev Bytes := List Nat

/-- Ways in which a run can fail to produce a result. -/
inductive Fault where
  | outOfBounds
  | fuel
  deriving DecidableEq, Repr

/-- Modelled from the spec: `StringDictionary` is declared in `replace.hpp`,
which is not among the sources.  The spec describes it as a mapping from a
byte-sequence key to a replacement byte string with unique keys; it is
embedded as an association list in insertion order. -/
abbrev StringDictionary := List (Bytes × Bytes)

/-- Lookup `search_table.find(seek)`: the value stored under `seek`, if any. -/
def StringDictionary.find (search_table : StringDictionary) (seek : Bytes) : Option Bytes :=
  List.lookup seek search_table

/-- Insertion `search_table.insert(std::make_pair(k, v))`: a key that is
already present keeps its value. -/
def StringDictionary.insert (search_table : StringDictionary) (k v : Bytes) : StringDictionary :=
  match search_table.find k with
  | some _ => search_table
  | none => search_table ++ [(k, v)]

/-- The keys stored in a dictionary. -/
def StringDictionary.keys (search_table : StringDictionary) : List Bytes :=
  search_table.map Prod.fst

/-- Subtraction of two `uint64_t` values (both below `2^64`), wrapping. -/
def sub64 (a b : Nat) : Nat :=
  if b ≤ a then a - b else a + 2 ^ 64 - b

/-- The loop of `LeftmostBlockSize`: `size` runs upward while `size <= 4`
and bit 7 of `chr << size` (truncated to 8 bits) is set. -/
def LeftmostBlockSize.loop (chr : Nat) : Nat → Nat → Nat
  | 0, size => size
  | fuel + 1, size =>
    if size ≤ 4 then
      let shifted_char := (chr * 2 ^ size) % 256
      let leftmost_bit := shifted_char &&& 0x80
      if leftmost_bit = 0 then size
      else LeftmostBlockSize.loop chr fuel ((size + 1) % 256)
    else size

/-- Source `LeftmostBlockSize`: `size` starts at 2 and the loop body runs at
most three times (for `size` = 2, 3, 4). -/
def LeftmostBlockSize (chr : Nat) : Nat :=
  LeftmostBlockSize.loop chr 3 2

/-- Whitespace as `operator>>` on a `std::string` sees it (the C locale):
space, `\t`, `\n`, `\v`, `\f`, `\r`. -/
def isSpace (c : Nat) : Bool :=
  c = 32 || (9 ≤ c && c ≤ 13)

/-- Splitting of a line into whitespace-separated fields, as
`std::istream_iterator<std::string>` does: `cur` is the field being read (in
reverse). -/
def fieldsAux : Bytes → Bytes → List Bytes
  | [], cur => if cur = [] then [] else [cur.reverse]
  | c :: rest, cur =>
    if isSpace c then
      if cur = [] then fieldsAux rest [] else cur.reverse :: fieldsAux rest []
    else fieldsAux rest (c :: cur)

/-- The fields of one line of the dictionary file. -/
def fields (line : Bytes) : List Bytes :=
  fieldsAux line []

/-- The body of the `while (std::getline(...))` loop of `CreateDictionary`,
for one line.  `pair[0]` on a line without any field reads outside the
vector. -/
def CreateDictionary.step (acc : StringDictionary × Bool) (line : Bytes) :
    Except Fault (StringDictionary × Bool) :=
  match fields line with
  | [] => .error .outOfBounds
  | [k] => .ok (acc.1.insert k [], if k.length = 1 then true else acc.2)
  | k :: v :: _ => .ok (acc.1.insert k v, if k.length = 1 then true else acc.2)

/-- The loop of `CreateDictionary` over the lines that remain to be read. -/
def CreateDictionary.loop : List Bytes → StringDictionary × Bool →
    Except Fault (StringDictionary × Bool)
  | [], acc => .ok acc
  | line :: rest, acc =>
    match CreateDictionary.step acc line with
    | .error e => .error e
    | .ok acc1 => CreateDictionary.loop rest acc1

/-- Source `CreateDictionary`, on the lines of the dictionary file: it
returns the table and `search_ascii`. -/
def CreateDictionary (lines : List Bytes) : Except Fault (StringDictionary × Bool) :=
  CreateDictionary.loop lines ([], false)

/-- An 8-bit pattern read as a signed char (`epi8`). -/
def toSigned8 (x : Nat) : Int :=
  if x % 256 < 128 then (x % 256 : Nat) else ((x % 256 : Nat) : Int) - 256

/-- One lane of `GetStartPoint`: add `0x80`, compare (signed) against the
three thresholds, blend, mask with `0x7`. -/
def GetStartPointByte (b : Nat) : Nat :=
  let chunk_signed := toSigned8 ((b + 0x80) % 256)
  let state := 0x0 ||| 0x80
  let w_2_bytes := decide (toSigned8 (0xc2 - 1 - 0x80) < chunk_signed)
  let state := if w_2_bytes then 0x2 ||| 0xc2 else state
  let w_3_bytes := decide (toSigned8 (0xe0 - 1 - 0x80) < chunk_signed)
  let state := if w_3_bytes then 0x3 ||| 0xe0 else state
  let w_4_bytes := decide (toSigned8 (0xf0 - 1 - 0x80) < chunk_signed)
  let state := if w_4_bytes then 0x4 ||| 0xf0 else state
  state &&& 0x7

/-- Source `GetStartPoint`: the 16 lanes of the vector, lane by lane. -/
def GetStartPoint (chunk : Bytes) : List Nat :=
  chunk.map GetStartPointByte

/-- Intrinsic `_mm_movemask_epi8`: bit `i` of the result is the top bit of
byte `i`. -/
def movemask_epi8 : Bytes → Nat
  | [] => 0
  | b :: rest => (b / 128) % 2 + 2 * movemask_epi8 rest

/-- Method `std::string::resize(n, '\0')`. -/
def resize (str : Bytes) (n : Nat) : Bytes :=
  str.take n ++ List.replicate (n - str.length) 0

/-- Reading `n` bytes at `c_str() + off`: the string is followed by one NUL
byte, and nothing after that may be read. -/
def readBytes (str : Bytes) (off n : Nat) : Except Fault Bytes :=
  if off + n ≤ str.length + 1 then .ok (((str ++ [0]).drop off).take n)
  else .error .outOfBounds

/-- Call `memcpy(dest.data() + pos, data, data.size())`: it must stay below
`dest.size()`. -/
def memcpy (dest : Bytes) (pos : Nat) (data : Bytes) : Except Fault Bytes :=
  if pos + data.length ≤ dest.length then
    .ok (dest.take pos ++ data ++ dest.drop (pos + data.length))
  else .error .outOfBounds

/-- Source `ReallocateIfNotEnough`. -/
def ReallocateIfNotEnough (str : Bytes) (current_pos len_required : Nat) : Bytes :=
  if sub64 str.length current_pos < len_required then
    resize str (current_pos + len_required)
  else str

/-- The loop of `ReplaceCharByChar`; the three cursors are `uint8_t`.  It
returns `dst_cursor_position` and `dest`. -/
def ReplaceCharByChar.loop (src : Bytes) (src_len : Nat) (search_table : StringDictionary) :
    Nat → Nat → Nat → Nat → Bytes → Except Fault (Nat × Bytes)
  | 0, current_position, _, dst_cursor_position, dest =>
    if current_position < src_len then .error .fuel else .ok (dst_cursor_position, dest)
  | fuel + 1, current_position, src_cursor_position, dst_cursor_position, dest =>
    if current_position < src_len then
      if src.getD current_position 0 &&& 0x80 = 0 then
        match readBytes src src_cursor_position 1 with
        | .error e => .error e
        | .ok data =>
          match memcpy dest dst_cursor_position data with
          | .error e => .error e
          | .ok dest1 =>
            ReplaceCharByChar.loop src src_len search_table fuel
              ((current_position + 1) % 256) ((src_cursor_position + 1) % 256)
              ((dst_cursor_position + 1) % 256) dest1
      else
        let codepoint_len := LeftmostBlockSize (src.getD current_position 0)
        match readBytes src current_position codepoint_len with
        | .error e => .error e
        | .ok seek =>
          match search_table.find seek with
          | some result =>
            match memcpy dest dst_cursor_position result with
            | .error e => .error e
            | .ok dest1 =>
              ReplaceCharByChar.loop src src_len search_table fuel
                ((current_position + codepoint_len) % 256)
                ((src_cursor_position + codepoint_len) % 256)
                ((dst_cursor_position + result.length) % 256) dest1
          | none =>
            match readBytes src src_cursor_position codepoint_len with
            | .error e => .error e
            | .ok data =>
              match memcpy dest dst_cursor_position data with
              | .error e => .error e
              | .ok dest1 =>
                ReplaceCharByChar.loop src src_len search_table fuel
                  ((current_position + codepoint_len) % 256)
                  ((src_cursor_position + codepoint_len) % 256)
                  ((dst_cursor_position + codepoint_len) % 256) dest1
    else .ok (dst_cursor_position, dest)

/-- Source `ReplaceCharByChar`.  `src_len` is `src.size()` stored in a
`uint8_t`; `current_position` takes at most 256 values, so a run that ends
makes at most 256 iterations. -/
def ReplaceCharByChar (src : Bytes) (search_table : StringDictionary) : Except Fault Bytes :=
  let src_len := src.length % 256
  let dest := List.replicate (src_len * 4) 0
  match ReplaceCharByChar.loop src src_len search_table 256 0 0 0 dest with
  | .error e => .error e
  | .ok (dst_cursor_position, dest1) => .ok (resize dest1 dst_cursor_position)

/-- The cursors and the destination buffer of `Replace`. -/
structure Cursors where
  src_cursor_position : Nat
  dst_cursor_position : Nat
  unwritten_bytes : Nat
  dest : Bytes
  deriving DecidableEq, Repr

/-- The copy of the skipped bytes:
`memcpy(dest.data() + dst_cursor_position, c_src + src_cursor_position, unwritten_bytes)`
followed by the advance of both cursors. -/
def copySkipped (src : Bytes) (st : Cursors) : Except Fault Cursors :=
  match readBytes src st.src_cursor_position st.unwritten_bytes with
  | .error e => .error e
  | .ok data =>
    match memcpy st.dest st.dst_cursor_position data with
    | .error e => .error e
    | .ok dest1 =>
      .ok { src_cursor_position := st.src_cursor_position + st.unwritten_bytes,
            dst_cursor_position := st.dst_cursor_position + st.unwritten_bytes,
            unwritten_bytes := st.unwritten_bytes,
            dest := dest1 }

/-- The inner loop of `Replace` over one window (`position_in_chunk < 16`).
It returns the final `position_in_chunk` and the cursors. -/
def Replace.window (src : Bytes) (src_len : Nat) (search_table : StringDictionary)
    (current_position : Nat) (start_points : List Nat) :
    Nat → Nat → Cursors → Except Fault (Nat × Cursors)
  | 0, position_in_chunk, st =>
    if position_in_chunk < 16 then .error .fuel else .ok (position_in_chunk, st)
  | fuel + 1, position_in_chunk, st =>
    if position_in_chunk < 16 then
      let codepoint_len := start_points.getD position_in_chunk 0
      if codepoint_len ≠ 0 then
        match readBytes src (current_position + position_in_chunk) codepoint_len with
        | .error e => .error e
        | .ok seek =>
          match search_table.find seek with
          | some result =>
            let len_required := sub64 (st.unwritten_bytes + src_len) st.src_cursor_position
            let dest1 := ReallocateIfNotEnough st.dest st.dst_cursor_position len_required
            let flushed :=
              if st.unwritten_bytes ≠ 0 then copySkipped src { st with dest := dest1 }
              else .ok st
            match flushed with
            | .error e => .error e
            | .ok st1 =>
              match memcpy st1.dest st1.dst_cursor_position result with
              | .error e => .error e
              | .ok dest2 =>
                Replace.window src src_len search_table current_position start_points fuel
                  (position_in_chunk + codepoint_len)
                  { src_cursor_position := st1.src_cursor_position + codepoint_len,
                    dst_cursor_position := st1.dst_cursor_position + result.length,
                    unwritten_bytes := 0,
                    dest := dest2 }
          | none =>
            Replace.window src src_len search_table current_position start_points fuel
              (position_in_chunk + codepoint_len)
              { st with unwritten_bytes := st.unwritten_bytes + codepoint_len }
      else
        Replace.window src src_len search_table current_position start_points fuel
          (position_in_chunk + 1) { st with unwritten_bytes := st.unwritten_bytes + 1 }
    else .ok (position_in_chunk, st)

/-- The outer loop of `Replace` (`src_len - current_position >= 16`).  It
returns the final `current_position` and the cursors. -/
def Replace.loop (src : Bytes) (src_len : Nat) (search_table : StringDictionary)
    (search_ascii : Bool) : Nat → Nat → Cursors → Except Fault (Nat × Cursors)
  | 0, current_position, st =>
    if 16 ≤ sub64 src_len current_position then
      match readBytes src current_position 16 with
      | .error e => .error e
      | .ok _ => .error .fuel
    else .ok (current_position, st)
  | fuel + 1, current_position, st =>
    if 16 ≤ sub64 src_len current_position then
      match readBytes src current_position 16 with
      | .error e => .error e
      | .ok chunk =>
        if movemask_epi8 chunk = 0 ∧ search_ascii = false then
          Replace.loop src src_len search_table search_ascii fuel (current_position + 16)
            { st with unwritten_bytes := st.unwritten_bytes + 16 }
        else
          match Replace.window src src_len search_table current_position
              (GetStartPoint chunk) 16 0 st with
          | .error e => .error e
          | .ok (position_in_chunk, st1) =>
            Replace.loop src src_len search_table search_ascii fuel
              (current_position + position_in_chunk) st1
    else .ok (current_position, st)

/-- Method `src.substr(pos, count)`: it throws when `pos > src.size()`. -/
def substr (src : Bytes) (pos count : Nat) : Except Fault Bytes :=
  if pos ≤ src.length then .ok ((src.drop pos).take count) else .error .outOfBounds

/-- Source `Replace`.  Every iteration of the outer loop reads 16 bytes and
moves `current_position` forward by at least 16, so `src.size() + 1`
iterations are never all used. -/
def Replace (src : Bytes) (src_len : Nat) (search_table : StringDictionary)
    (search_ascii : Bool) : Except Fault Bytes :=
  let dest := List.replicate (src_len * 2) 0
  match Replace.loop src src_len search_table search_ascii (src.length + 1) 0
      { src_cursor_position := 0, dst_cursor_position := 0, unwritten_bytes := 0,
        dest := dest } with
  | .error e => .error e
  | .ok (current_position, st) =>
    let flushed :=
      if st.unwritten_bytes ≠ 0 then
        (copySkipped src st).map fun st1 => { st1 with unwritten_bytes := 0 }
      else .ok st
    match flushed with
    | .error e => .error e
    | .ok st1 =>
      let dest1 := resize st1.dest st1.dst_cursor_position
      if current_position < src_len then
        match substr src current_position (src_len - current_position) with
        | .error e => .error e
        | .ok tail_part =>
          match ReplaceCharByChar tail_part search_table with
          | .error e => .error e
          | .ok last_processed_part => .ok (dest1 ++ last_processed_part)
      else .ok dest1

/-! ## Vocabulary of the specification -/

/-- A continuation byte `10xxxxxx`. -/
def isContinuation (b : Nat) : Bool :=
  0x80 ≤ b && b ≤ 0xBF

/-- The well-formed UTF-8 encodings of one codepoint (Unicode Standard,
table 3-7, "Well-Formed UTF-8 Byte Sequences"). -/
def isCodepoint : Bytes → Bool
  | [b0] => decide (b0 < 0x80)
  | [b0, b1] => 0xC2 ≤ b0 && b0 ≤ 0xDF && isContinuation b1
  | [b0, b1, b2] =>
    ((b0 == 0xE0 && 0xA0 ≤ b1 && b1 ≤ 0xBF) ||
     (0xE1 ≤ b0 && b0 ≤ 0xEC && isContinuation b1) ||
     (b0 == 0xED && 0x80 ≤ b1 && b1 ≤ 0x9F) ||
     (0xEE ≤ b0 && b0 ≤ 0xEF && isContinuation b1)) && isContinuation b2
  | [b0, b1, b2, b3] =>
    ((b0 == 0xF0 && 0x90 ≤ b1 && b1 ≤ 0xBF) ||
     (0xF1 ≤ b0 && b0 ≤ 0xF3 && isContinuation b1) ||
     (b0 == 0xF4 && 0x80 ≤ b1 && b1 ≤ 0x8F)) && isContinuation b2 && isContinuation b3
  | _ => false

/-- A text given by its codepoints `u1, ..., un`, each well-formed; the
byte string is `us.flatten`. -/
def WellFormed (us : List Bytes) : Prop :=
  ∀ u ∈ us, isCodepoint u = true

/-- The governing rule as the spec states it: a codepoint that is a key is
replaced by its value, any other codepoint is copied. -/
def specRule (d : StringDictionary) (u : Bytes) : Bytes :=
  match d.find u with
  | some v => v
  | none => u

/-- The rule the code applies: as `specRule`, but a one-byte (ASCII)
codepoint is always copied. -/
def codeRule (d : StringDictionary) (u : Bytes) : Bytes :=
  if u.length = 1 then u else specRule d u

/-- The text `f(u1) ++ ... ++ f(un)`. -/
def mapText (f : Bytes → Bytes) (us : List Bytes) : Bytes :=
  (us.map f).flatten

/-- Every value of the dictionary is at most twice as long as its key. -/
def ValuesFit (d : StringDictionary) : Prop :=
  ∀ k v, d.find k = some v → v.length ≤ 2 * k.length

/-- What the code writes for each codepoint of the text is at most twice as
long as the codepoint. -/
def Fits (d : StringDictionary) (us : List Bytes) : Prop :=
  ∀ u ∈ us, (codeRule d u).length ≤ 2 * u.length

/-- Concatenation of the outputs of `Replace` over a list of chunks, in
order; a chunk whose run fails makes the whole fail. -/
def replaceChunks (search_table : StringDictionary) (search_ascii : Bool) :
    List Bytes → Except Fault Bytes
  | [] => .ok []
  | c :: cs =>
    match Replace c c.length search_table search_ascii with
    | .error e => .error e
    | .ok out =>
      match replaceChunks search_table search_ascii cs with
      | .error e => .error e
      | .ok outs => .ok (out ++ outs)

/-- The loop invariant of `Replace` once the codepoints `done` have been
processed: the cursors add up to the bytes processed, the bytes written
followed by the pending ones are the expected output, and twice the source
that is not yet copied still fits in the destination. -/
structure ReplaceInv (src : Bytes) (d : StringDictionary) (done : List Bytes)
    (st : Cursors) : Prop where
  pos : st.src_cursor_position + st.unwritten_bytes = done.flatten.length
  out : st.dest.take st.dst_cursor_position ++
      (src.drop st.src_cursor_position).take st.unwritten_bytes = mapText (codeRule d) done
  cap : st.dst_cursor_position + 2 * (src.length - st.src_cursor_position) ≤ st.dest.length

/-- The number of consecutive 1-bits of an 8-bit value, counted from bit
`n - 1` downwards. -/
def leadingOnesFrom : Nat → Nat → Nat
  | 0, _ => 0
  | n + 1, b => if (b / 2 ^ n) % 2 = 1 then 1 + leadingOnesFrom n b else 0

/-- The count of leading 1-bits of a byte. -/
def leadingOnes (b : Nat) : Nat :=
  leadingOnesFrom 8 b

/-! ## The dispatcher -/

/-- Ways in which the dispatcher can fail to return its tasks. -/
inductive DispatchFault where
  | divisionByZero
  | fuel
  deriving DecidableEq, Repr

/-- The input file stream: the bytes not yet read and the state bits the
loop of `ProcessByWorkers` tests. -/
structure IStream where
  rest : Bytes
  eofbit : Bool
  failbit : Bool
  deriving DecidableEq, Repr

/-- Call `input_file.read(chunk.data(), n)` followed by
`chunk.resize(input_file.gcount())`: the bytes extracted and the stream
afterwards.  A stream that is not good extracts nothing and sets `failbit`;
a stream that holds fewer than `n` bytes gives what it holds and sets
`eofbit` and `failbit`; a read of `n` bytes that are all there sets
nothing, also when `n` is 0. -/
def IStream.read (s : IStream) (n : Nat) : Bytes × IStream :=
  if s.eofbit || s.failbit then ([], { s with failbit := true })
  else if n ≤ s.rest.length then (s.rest.take n, { s with rest := s.rest.drop n })
  else (s.rest, { rest := [], eofbit := true, failbit := true })

/-- The loop `while (!input_file.eof() && !input_file.fail())` of
`ProcessByWorkers`; `workers` holds the chunk moved into each task launched
so far, in order. -/
def ProcessByWorkers.loop (kChunkSize : Nat) : Nat → IStream → List Bytes →
    Except DispatchFault (List Bytes)
  | 0, s, workers =>
    if !s.eofbit && !s.failbit then .error .fuel else .ok workers
  | fuel + 1, s, workers =>
    if !s.eofbit && !s.failbit then
      ProcessByWorkers.loop kChunkSize fuel (s.read kChunkSize).2
        (workers ++ [(s.read kChunkSize).1])
    else .ok workers

/-- The chunks `ProcessByWorkers` carves from a readable file with contents
`input` when `std::thread::hardware_concurrency()` is `p`, one per task
launched, in the order of the returned vector.  `GetFileLength` is the
length of the file; the division by `p = 0` is undefined. -/
def ProcessByWorkers.chunks (input : Bytes) (p : Nat) : Except DispatchFault (List Bytes) :=
  if p = 0 then .error .divisionByZero
  else
    let kChunkSize := input.length / p
    ProcessByWorkers.loop kChunkSize (input.length + 1)
      { rest := input, eofbit := false, failbit := false } []

/-- Source `ProcessByWorkers`: the value of each returned future, which is
`Replace` on the chunk moved into the task. -/
def ProcessByWorkers (input : Bytes) (p : Nat) (search_table : StringDictionary)
    (search_ascii : Bool) : Except DispatchFault (List (Except Fault Bytes)) :=
  (ProcessByWorkers.chunks input p).map
    (List.map fun data => Replace data data.length search_table search_ascii)

/-! ## The run of `Replace` with a count of the resizes -/

/-- The inner loop of `Replace` as `Replace.window`, with one more value
carried along: the number of calls of `ReallocateIfNotEnough` so far whose
test `str.size() - current_pos < len_required` held, that is, which
resized the buffer. -/
def Replace.windowCounted (src : Bytes) (src_len : Nat) (search_table : StringDictionary)
    (current_position : Nat) (start_points : List Nat) :
    Nat → Nat → Cursors → Nat → Except Fault (Nat × Cursors × Nat)
  | 0, position_in_chunk, st, resizes =>
    if position_in_chunk < 16 then .error .fuel else .ok (position_in_chunk, st, resizes)
  | fuel + 1, position_in_chunk, st, resizes =>
    if position_in_chunk < 16 then
      let codepoint_len := start_points.getD position_in_chunk 0
      if codepoint_len ≠ 0 then
        match readBytes src (current_position + position_in_chunk) codepoint_len with
        | .error e => .error e
        | .ok seek =>
          match search_table.find seek with
          | some result =>
            let len_required := sub64 (st.unwritten_bytes + src_len) st.src_cursor_position
            let dest1 := ReallocateIfNotEnough st.dest st.dst_cursor_position len_required
            let resizes1 :=
              if st.unwritten_bytes ≠ 0 ∧
                  sub64 st.dest.length st.dst_cursor_position < len_required then resizes + 1
              else resizes
            let flushed :=
              if st.unwritten_bytes ≠ 0 then copySkipped src { st with dest := dest1 }
              else .ok st
            match flushed with
            | .error e => .error e
            | .ok st1 =>
              match memcpy st1.dest st1.dst_cursor_position result with
              | .error e => .error e
              | .ok dest2 =>
                Replace.windowCounted src src_len search_table current_position start_points
                  fuel (position_in_chunk + codepoint_len)
                  { src_cursor_position := st1.src_cursor_position + codepoint_len,
                    dst_cursor_position := st1.dst_cursor_position + result.length,
                    unwritten_bytes := 0,
                    dest := dest2 } resizes1
          | none =>
            Replace.windowCounted src src_len search_table current_position start_points fuel
              (position_in_chunk + codepoint_len)
              { st with unwritten_bytes := st.unwritten_bytes + codepoint_len } resizes
      else
        Replace.windowCounted src src_len search_table current_position start_points fuel
          (position_in_chunk + 1) { st with unwritten_bytes := st.unwritten_bytes + 1 } resizes
    else .ok (position_in_chunk, st, resizes)

/-- The outer loop of `Replace` as `Replace.loop`, with the count of the
resizes carried along. -/
def Replace.loopCounted (src : Bytes) (src_len : Nat) (search_table : StringDictionary)
    (search_ascii : Bool) : Nat → Nat → Cursors → Nat → Except Fault (Nat × Cursors × Nat)
  | 0, current_position, st, resizes =>
    if 16 ≤ sub64 src_len current_position then
      match readBytes src current_position 16 with
      | .error e => .error e
      | .ok _ => .error .fuel
    else .ok (current_position, st, resizes)
  | fuel + 1, current_position, st, resizes =>
    if 16 ≤ sub64 src_len current_position then
      match readBytes src current_position 16 with
      | .error e => .error e
      | .ok chunk =>
        if movemask_epi8 chunk = 0 ∧ search_ascii = false then
          Replace.loopCounted src src_len search_table search_ascii fuel (current_position + 16)
            { st with unwritten_bytes := st.unwritten_bytes + 16 } resizes
        else
          match Replace.windowCounted src src_len search_table current_position
              (GetStartPoint chunk) 16 0 st resizes with
          | .error e => .error e
          | .ok (position_in_chunk, st1, resizes1) =>
            Replace.loopCounted src src_len search_table search_ascii fuel
              (current_position + position_in_chunk) st1 resizes1
    else .ok (current_position, st, resizes)

/-- No key of the dictionary is a single ASCII byte. -/
def NoAsciiKey (d : StringDictionary) : Prop :=
  ∀ b, b < 0x80 → d.find [b] = none

/-- No value of the dictionary is longer than its key. -/
def ValuesShort (d : StringDictionary) : Prop :=
  ∀ k v, d.find k = some v → v.length ≤ k.length

/-! ## The windows of a run of `Replace` -/

/-- The states in which the test `src_len - current_position >= 16` of the
outer loop of `Replace` is evaluated, in order: the start of every
iteration, and the state in which the loop is left.  The list ends early
when an iteration faults. -/
def Replace.heads (src : Bytes) (src_len : Nat) (search_table : StringDictionary)
    (search_ascii : Bool) : Nat → Nat → Cursors → List (Nat × Cursors)
  | 0, current_position, st => [(current_position, st)]
  | fuel + 1, current_position, st =>
    (current_position, st) ::
      (if 16 ≤ sub64 src_len current_position then
        match readBytes src current_position 16 with
        | .error _ => []
        | .ok chunk =>
          if movemask_epi8 chunk = 0 ∧ search_ascii = false then
            Replace.heads src src_len search_table search_ascii fuel (current_position + 16)
              { st with unwritten_bytes := st.unwritten_bytes + 16 }
          else
            match Replace.window src src_len search_table current_position
                (GetStartPoint chunk) 16 0 st with
            | .error _ => []
            | .ok (position_in_chunk, st1) =>
              Replace.heads src src_len search_table search_ascii fuel
                (current_position + position_in_chunk) st1
      else [])

/-- The offset `cp` is a codepoint boundary of the text `us`. -/
def Boundary (us : List Bytes) (cp : Nat) : Prop :=
  ∃ done rest, us = done ++ rest ∧ cp = done.flatten.length

/-- The window at the boundary `cp` is followed by the window at `cp1`: the
last codepoint `u` that starts inside the window at `cp`, at offset
`q < 16`, ends at or after the end of the window, and `cp1` is the offset
right after `u`, which is `cp + q + L` for `L` the length of `u`.  When `u`
has more than one byte, its class in the window is `L` and the `L` bytes
read at its offset as the lookup key are `u`. -/
def NextWindow (us : List Bytes) (cp cp1 : Nat) : Prop :=
  ∃ done mid u rest, us = done ++ mid ++ u :: rest ∧ cp = done.flatten.length ∧
    mid.flatten.length < 16 ∧ 16 ≤ mid.flatten.length + u.length ∧
    cp1 = cp + mid.flatten.length + u.length ∧
    (2 ≤ u.length →
      (GetStartPoint ((us.flatten.drop cp).take 16)).getD mid.flatten.length 0 = u.length ∧
      readBytes us.flatten (cp + mid.flatten.length) u.length = .ok u)

/-! ## The lookups of a run of `Replace` -/

/-- The inner loop of `Replace` as `Replace.window`, together with its
lookups: for every `search_table.find(seek)` the loop makes, in order, the
value of `position_in_chunk` and the string `seek` that was built from
`codepoint_len` bytes of the source.  The lookups made so far are kept when
the loop faults. -/
def Replace.windowLogged (src : Bytes) (src_len : Nat) (search_table : StringDictionary)
    (current_position : Nat) (start_points : List Nat) :
    Nat → Nat → Cursors → List (Nat × Bytes) × Except Fault (Nat × Cursors)
  | 0, position_in_chunk, st =>
    ([], if position_in_chunk < 16 then .error .fuel else .ok (position_in_chunk, st))
  | fuel + 1, position_in_chunk, st =>
    if position_in_chunk < 16 then
      let codepoint_len := start_points.getD position_in_chunk 0
      if codepoint_len ≠ 0 then
        match readBytes src (current_position + position_in_chunk) codepoint_len with
        | .error e => ([], .error e)
        | .ok seek =>
          match search_table.find seek with
          | some result =>
            let len_required := sub64 (st.unwritten_bytes + src_len) st.src_cursor_position
            let dest1 := ReallocateIfNotEnough st.dest st.dst_cursor_position len_required
            let flushed :=
              if st.unwritten_bytes ≠ 0 then copySkipped src { st with dest := dest1 }
              else .ok st
            match flushed with
            | .error e => ([(position_in_chunk, seek)], .error e)
            | .ok st1 =>
              match memcpy st1.dest st1.dst_cursor_position result with
              | .error e => ([(position_in_chunk, seek)], .error e)
              | .ok dest2 =>
                let r := Replace.windowLogged src src_len search_table current_position
                  start_points fuel (position_in_chunk + codepoint_len)
                  { src_cursor_position := st1.src_cursor_position + codepoint_len,
                    dst_cursor_position := st1.dst_cursor_position + result.length,
                    unwritten_bytes := 0,
                    dest := dest2 }
                ((position_in_chunk, seek) :: r.1, r.2)
          | none =>
            let r := Replace.windowLogged src src_len search_table current_position
              start_points fuel (position_in_chunk + codepoint_len)
              { st with unwritten_bytes := st.unwritten_bytes + codepoint_len }
            ((position_in_chunk, seek) :: r.1, r.2)
      else
        Replace.windowLogged src src_len search_table current_position start_points fuel
          (position_in_chunk + 1) { st with unwritten_bytes := st.unwritten_bytes + 1 }
    else ([], .ok (position_in_chunk, st))

/-- The lookups of the iteration of the outer loop of `Replace` that starts
in the state `st` at `current_position`: none when the loop is left or the
window is skipped, else those of the inner loop over the window. -/
def Replace.keysRead (src : Bytes) (src_len : Nat) (search_table : StringDictionary)
    (search_ascii : Bool) (current_position : Nat) (st : Cursors) : List (Nat × Bytes) :=
  if 16 ≤ sub64 src_len current_position then
    match readBytes src current_position 16 with
    | .error _ => []
    | .ok chunk =>
      if movemask_epi8 chunk = 0 ∧ search_ascii = false then []
      else
        (Replace.windowLogged src src_len search_table current_position
          (GetStartPoint chunk) 16 0 st).1
  else []

/-- The codepoints of more than one byte among `us`, each with its offset,
when the first codepoint of `us` is at offset `q`. -/
def keysOf : Nat → List Bytes → List (Nat × Bytes)
  | _, [] => []
  | q, u :: us => (if u.length = 1 then [] else [(q, u)]) ++ keysOf (q + u.length) us

/-- The window at the boundary `cp` is followed by the window at `cp1`, and
`keys` are the lookups made in between: the codepoints that start inside
the window at `cp` are `mid` and then `u`, which begins at offset `q < 16`
and ends at or after the end of the window; `cp1` is the offset right after
`u`, which is `cp + q + L` for `L` the length of `u`; and the lookups are
those of the codepoints of more than one byte among `mid` and `u`, each
once, in order, at its offset and with all its bytes as the key. -/
def WindowRun (us : List Bytes) (cp cp1 : Nat) (keys : List (Nat × Bytes)) : Prop :=
  ∃ done mid u rest, us = done ++ mid ++ u :: rest ∧ cp = done.flatten.length ∧
    mid.flatten.length < 16 ∧ 16 ≤ mid.flatten.length + u.length ∧
    cp1 = cp + mid.flatten.length + u.length ∧
    keys = keysOf 0 (mid ++ [u])

/-! ## Bytes and their classes -/

set_option maxRecDepth 100000

theorem land_0x80_zero : ∀ b < 256, (b &&& 0x80 = 0 ↔ b < 128) := by decide

theorem GetStartPointByte_table : ∀ b < 256,
    GetStartPointByte b =
      if b < 0xC2 then 0 else if b < 0xE0 then 2 else if b < 0xF0 then 3 else 4 := by decide

theorem LeftmostBlockSize_table : ∀ b < 256, 0xC0 ≤ b →
    LeftmostBlockSize b =
      if b < 0xE0 then 2 else if b < 0xF0 then 3 else if b < 0xF8 then 4 else 5 := by decide

theorem GetStartPointByte_mod (b : Nat) : GetStartPointByte b = GetStartPointByte (b % 256) := by
  unfold GetStartPointByte
  have : (b % 256 + 0x80) % 256 = (b + 0x80) % 256 := by omega
  rw [this]

theorem GetStartPointByte_ascii (b : Nat) (h : (b / 128) % 2 = 0) : GetStartPointByte b = 0 := by
  rw [GetStartPointByte_mod, GetStartPointByte_table _ (Nat.mod_lt _ (by decide))]
  have : b % 256 < 0xC2 := by omega
  simp [this]

/-! ## Buffers -/

theorem readBytes_mid (pre u post : Bytes) :
    readBytes (pre ++ u ++ post) pre.length u.length = .ok u := by
  unfold readBytes
  have h : pre.length + u.length ≤ (pre ++ u ++ post).length + 1 := by
    simp only [List.length_append]; omega
  rw [if_pos h]
  have : pre ++ u ++ post ++ [0] = pre ++ (u ++ (post ++ [0])) := by simp
  rw [this, List.drop_left, List.take_left]

theorem readBytes_at (src pre u post : Bytes) (n m : Nat) (hs : src = pre ++ u ++ post)
    (hn : n = pre.length) (hm : m = u.length) : readBytes src n m = .ok u := by
  subst hs hn hm; exact readBytes_mid pre u post

theorem readBytes_length {src : Bytes} {off n : Nat} {chunk : Bytes}
    (h : readBytes src off n = .ok chunk) : chunk.length = n := by
  unfold readBytes at h
  split at h
  · injection h with h
    subst h
    simp only [List.length_take, List.length_drop, List.length_append, List.length_singleton]
    omega
  · cases h

theorem readBytes_inside (src : Bytes) (off n : Nat) (h : off + n ≤ src.length) :
    readBytes src off n = .ok ((src.drop off).take n) := by
  unfold readBytes
  rw [if_pos (by omega)]
  congr 1
  rw [List.drop_append_of_le_length (by omega), List.take_append_of_le_length]
  simp only [List.length_drop]; omega

theorem memcpy_ok (dest : Bytes) (pos : Nat) (data : Bytes) (h : pos + data.length ≤ dest.length) :
    ∃ dest1, memcpy dest pos data = .ok dest1 ∧ dest1.length = dest.length ∧
      dest1.take (pos + data.length) = dest.take pos ++ data := by
  refine ⟨dest.take pos ++ data ++ dest.drop (pos + data.length), ?_, ?_, ?_⟩
  · unfold memcpy; rw [if_pos h]
  · simp only [List.length_append, List.length_take, List.length_drop]; omega
  · have hl : (dest.take pos ++ data).length = pos + data.length := by
      simp only [List.length_append, List.length_take]; omega
    rw [← hl, List.take_left]

theorem resize_take (str : Bytes) (n : Nat) (h : n ≤ str.length) : resize str n = str.take n := by
  unfold resize
  have : n - str.length = 0 := by omega
  rw [this]; simp

theorem getD_mid (pre : Bytes) (b : Nat) (post : Bytes) :
    (pre ++ b :: post).getD pre.length 0 = b := by
  induction pre with
  | nil => rfl
  | cons a pre ih => simpa using ih

/-! ## Codepoints -/

theorem isContinuation_bounds {b : Nat} (h : isContinuation b = true) : 0x80 ≤ b ∧ b ≤ 0xBF := by
  simpa [isContinuation] using h

/-- The shape of a well-formed codepoint, as far as the code looks at it:
a single byte below `0x80`, or a lead byte from `0xC2` to `0xF4` whose class
is the length of the codepoint. -/
theorem isCodepoint_shape {u : Bytes} (h : isCodepoint u = true) :
    ∃ b tl, u = b :: tl ∧
      ((tl = [] ∧ b < 0x80) ∨
       (0xC2 ≤ b ∧ b ≤ 0xF4 ∧ 2 ≤ u.length ∧ u.length ≤ 4 ∧
         GetStartPointByte b = u.length ∧ LeftmostBlockSize b = u.length)) := by
  match u, h with
  | [b0], h =>
    refine ⟨b0, [], rfl, Or.inl ⟨rfl, ?_⟩⟩
    simpa [isCodepoint] using h
  | [b0, b1], h =>
    refine ⟨b0, [b1], rfl, Or.inr ?_⟩
    simp only [isCodepoint, Bool.and_eq_true, decide_eq_true_eq] at h
    obtain ⟨⟨h1, h2⟩, -⟩ := h
    have hb : b0 < 256 := by omega
    rw [GetStartPointByte_table b0 hb, LeftmostBlockSize_table b0 hb (by omega)]
    have e1 : ¬ b0 < 0xC2 := by omega
    have e2 : b0 < 0xE0 := by omega
    simp [e1, e2]; omega
  | [b0, b1, b2], h =>
    refine ⟨b0, [b1, b2], rfl, Or.inr ?_⟩
    simp only [isCodepoint, Bool.and_eq_true, Bool.or_eq_true, decide_eq_true_eq,
      beq_iff_eq] at h
    have hr : 0xE0 ≤ b0 ∧ b0 ≤ 0xEF := by omega
    have hb : b0 < 256 := by omega
    rw [GetStartPointByte_table b0 hb, LeftmostBlockSize_table b0 hb (by omega)]
    have e1 : ¬ b0 < 0xC2 := by omega
    have e2 : ¬ b0 < 0xE0 := by omega
    have e3 : b0 < 0xF0 := by omega
    simp [e1, e2, e3]; omega
  | [b0, b1, b2, b3], h =>
    refine ⟨b0, [b1, b2, b3], rfl, Or.inr ?_⟩
    simp only [isCodepoint, Bool.and_eq_true, Bool.or_eq_true, decide_eq_true_eq,
      beq_iff_eq] at h
    have hr : 0xF0 ≤ b0 ∧ b0 ≤ 0xF4 := by omega
    have hb : b0 < 256 := by omega
    rw [GetStartPointByte_table b0 hb, LeftmostBlockSize_table b0 hb (by omega)]
    have e1 : ¬ b0 < 0xC2 := by omega
    have e2 : ¬ b0 < 0xE0 := by omega
    have e3 : ¬ b0 < 0xF0 := by omega
    have e4 : b0 < 0xF8 := by omega
    simp [e1, e2, e3, e4]; omega
  | [], h => simp [isCodepoint] at h
  | _ :: _ :: _ :: _ :: _ :: _, h => simp [isCodepoint] at h

theorem isCodepoint_length_pos {u : Bytes} (h : isCodepoint u = true) : 1 ≤ u.length := by
  obtain ⟨b, tl, rfl, -⟩ := isCodepoint_shape h
  simp

theorem mapText_nil (f : Bytes → Bytes) : mapText f [] = [] := rfl

theorem mapText_cons (f : Bytes → Bytes) (u : Bytes) (us : List Bytes) :
    mapText f (u :: us) = f u ++ mapText f us := by
  simp [mapText]

theorem mapText_append (f : Bytes → Bytes) (us vs : List Bytes) :
    mapText f (us ++ vs) = mapText f us ++ mapText f vs := by
  simp [mapText]

/-! ## The scalar replacer -/

theorem codeRule_single (d : StringDictionary) (b : Nat) : codeRule d [b] = [b] := by
  simp [codeRule]

theorem codeRule_hit (d : StringDictionary) (u v : Bytes) (hu : 2 ≤ u.length)
    (h : d.find u = some v) : codeRule d u = v := by
  have : u.length ≠ 1 := by omega
  simp [codeRule, specRule, this, h]

theorem codeRule_miss (d : StringDictionary) (u : Bytes) (h : d.find u = none) :
    codeRule d u = u := by
  simp [codeRule, specRule, h]

/-- One iteration of the loop of `ReplaceCharByChar` on a well-formed
codepoint `u`: it writes `codeRule d u` and moves past `u`. -/
theorem ReplaceCharByChar_step (d : StringDictionary) (src pre u post : Bytes)
    (n fuel : Nat) (dest : Bytes) (hu : isCodepoint u = true) (hs : src = pre ++ u ++ post)
    (hlen : src.length ≤ 255) (hn : n + (codeRule d u).length ≤ 255)
    (hd : n + (codeRule d u).length ≤ dest.length) :
    ∃ dest1, memcpy dest n (codeRule d u) = .ok dest1 ∧
      ReplaceCharByChar.loop src src.length d (fuel + 1) pre.length pre.length n dest =
        ReplaceCharByChar.loop src src.length d fuel (pre.length + u.length)
          (pre.length + u.length) (n + (codeRule d u).length) dest1 := by
  obtain ⟨dest1, hm, hl, ht⟩ := memcpy_ok dest n (codeRule d u) hd
  refine ⟨dest1, hm, ?_⟩
  have hsl : src.length = pre.length + u.length + post.length := by
    rw [hs]; simp only [List.length_append]
  have hupos := isCodepoint_length_pos hu
  have hcur : pre.length < src.length := by omega
  have hmod1 : (pre.length + u.length) % 256 = pre.length + u.length :=
    Nat.mod_eq_of_lt (by omega)
  have hmod2 : (n + (codeRule d u).length) % 256 = n + (codeRule d u).length :=
    Nat.mod_eq_of_lt (by omega)
  obtain ⟨b, tl, rfl, hshape⟩ := isCodepoint_shape hu
  have hget : src.getD pre.length 0 = b := by
    rw [hs]; simp only [List.cons_append, List.append_assoc]; exact getD_mid pre b _
  have hread : readBytes src pre.length (b :: tl).length = .ok (b :: tl) :=
    readBytes_at src pre (b :: tl) post _ _ hs rfl rfl
  rw [ReplaceCharByChar.loop]
  rcases hshape with ⟨rfl, hb⟩ | ⟨hb1, hb2, hl2, hl4, -, hlbs⟩
  · have hbit : b &&& 0x80 = 0 := (land_0x80_zero b (by omega)).2 hb
    rw [codeRule_single] at hm hmod2
    have hread1 : readBytes src pre.length 1 = .ok [b] := hread
    simp only [hcur, if_true, hget, hbit, hread1, hm]
    rw [codeRule_single]
    simp only [List.length_singleton] at hmod1 hmod2 ⊢
    rw [hmod1, hmod2]
  · have hbit : ¬ (b &&& 0x80 = 0) := by
      rw [land_0x80_zero b (by omega)]; omega
    simp only [hcur, if_true, hget, hbit, if_false, hlbs, hread]
    cases hf : d.find (b :: tl) with
    | some v =>
      rw [codeRule_hit d _ v hl2 hf] at hm hmod2 ⊢
      simp only [hm, hmod1, hmod2]
    | none =>
      rw [codeRule_miss d _ hf] at hm hmod2 ⊢
      simp only [hread, hm, hmod1, hmod2]

/-- The loop of `ReplaceCharByChar` over well-formed codepoints `rest`
writes `mapText (codeRule d) rest` after the `n` bytes already written,
provided the output fits the `uint8_t` cursor and the buffer. -/
theorem ReplaceCharByChar_loop_spec (d : StringDictionary) (src : Bytes)
    (hlen : src.length ≤ 255) :
    ∀ (rest : List Bytes) (pre : Bytes) (n : Nat) (dest : Bytes) (fuel : Nat),
      WellFormed rest → src = pre ++ rest.flatten →
      n + (mapText (codeRule d) rest).length ≤ 255 →
      n + (mapText (codeRule d) rest).length ≤ dest.length →
      rest.flatten.length ≤ fuel →
      ∃ dest1, ReplaceCharByChar.loop src src.length d fuel pre.length pre.length n dest
          = .ok (n + (mapText (codeRule d) rest).length, dest1) ∧
        dest1.length = dest.length ∧
        dest1.take (n + (mapText (codeRule d) rest).length)
          = dest.take n ++ mapText (codeRule d) rest := by
  intro rest
  induction rest with
  | nil =>
    intro pre n dest fuel _ hs _ _ _
    have hp : pre.length = src.length := by rw [hs]; simp
    refine ⟨dest, ?_, rfl, ?_⟩
    · cases fuel <;> simp [ReplaceCharByChar.loop, hp, mapText_nil]
    · simp [mapText_nil]
  | cons u rest ih =>
    intro pre n dest fuel hwf hs hn hd hfuel
    have hu : isCodepoint u = true := hwf u (List.mem_cons_self _ _)
    have hwf1 : WellFormed rest := fun w hw => hwf w (List.mem_cons_of_mem _ hw)
    have hupos := isCodepoint_length_pos hu
    rw [mapText_cons, List.length_append] at hn hd
    rw [List.flatten_cons, List.length_append] at hfuel
    obtain ⟨fuel, rfl⟩ : ∃ f, fuel = f + 1 := ⟨fuel - 1, by omega⟩
    have hs1 : src = pre ++ u ++ rest.flatten := by rw [hs]; simp
    obtain ⟨dest1, hm, hstep⟩ := ReplaceCharByChar_step d src pre u rest.flatten n fuel dest hu hs1
      hlen (by omega) (by omega)
    obtain ⟨dest1b, hm1, hl1, ht1⟩ := memcpy_ok dest n (codeRule d u) (by omega)
    rw [hm] at hm1
    injection hm1 with hm1
    subst hm1
    obtain ⟨dest2, hloop, hl2, ht2⟩ := ih (pre ++ u) (n + (codeRule d u).length) dest1 fuel hwf1
      hs1 (by omega) (by omega) (by omega)
    refine ⟨dest2, ?_, by omega, ?_⟩
    · rw [hstep, ← List.length_append, hloop, mapText_cons, List.length_append, Nat.add_assoc]
    · rw [mapText_cons, List.length_append, ← Nat.add_assoc, ht2, ht1, List.append_assoc]

/-- Source `ReplaceCharByChar` on a well-formed buffer of at most 255 bytes
returns the replaced text when that text has at most 255 bytes and at most
four times the length of the buffer. -/
theorem ReplaceCharByChar_spec (d : StringDictionary) (us : List Bytes) (hwf : WellFormed us)
    (hlen : us.flatten.length ≤ 255)
    (hout : (mapText (codeRule d) us).length ≤ 255)
    (hcap : (mapText (codeRule d) us).length ≤ 4 * us.flatten.length) :
    ReplaceCharByChar us.flatten d = .ok (mapText (codeRule d) us) := by
  unfold ReplaceCharByChar
  have hmod : us.flatten.length % 256 = us.flatten.length := Nat.mod_eq_of_lt (by omega)
  obtain ⟨dest1, hloop, hl, ht⟩ := ReplaceCharByChar_loop_spec d us.flatten hlen us [] 0
    (List.replicate (us.flatten.length * 4) 0) 256 hwf (by simp) (by omega)
    (by simp only [List.length_replicate]; omega) (by omega)
  simp only [hmod]
  simp only [List.length_nil] at hloop
  rw [hloop]
  simp only
  rw [resize_take _ _ (by rw [hl]; simp only [List.length_replicate]; omega)]
  simpa using ht

/-! ## The window loop of `Replace` -/

theorem take_extend (src pre u post : Bytes) (sc unw : Nat) (hs : src = pre ++ u ++ post)
    (hp : sc + unw = pre.length) :
    (src.drop sc).take (unw + u.length) = (src.drop sc).take unw ++ u := by
  rw [List.take_add, List.drop_drop, hp, hs, List.append_assoc, List.drop_left, List.take_left]

theorem movemask_zero_start_points (chunk : Bytes) (h : movemask_epi8 chunk = 0) (i : Nat) :
    (GetStartPoint chunk).getD i 0 = 0 := by
  induction chunk generalizing i with
  | nil => simp [GetStartPoint]
  | cons b rest ih =>
    simp only [movemask_epi8] at h
    have hb : (b / 128) % 2 = 0 := by omega
    have hr : movemask_epi8 rest = 0 := by omega
    cases i with
    | zero => simpa [GetStartPoint] using GetStartPointByte_ascii b hb
    | succ i => simpa [GetStartPoint] using ih hr i

/-- On a window whose start points are all 0 the inner loop only counts the
bytes as unwritten. -/
theorem window_all_zero (src : Bytes) (src_len : Nat) (d : StringDictionary) (cp : Nat)
    (sp : List Nat) (hsp : ∀ i, sp.getD i 0 = 0) :
    ∀ (k fuel pic : Nat) (st : Cursors), pic + k = 16 → k ≤ fuel →
      Replace.window src src_len d cp sp fuel pic st =
        .ok (16, { st with unwritten_bytes := st.unwritten_bytes + k }) := by
  intro k
  induction k with
  | zero =>
    intro fuel pic st hp _
    have : pic = 16 := by omega
    subst this
    cases fuel <;> simp [Replace.window]
  | succ k ih =>
    intro fuel pic st hp hf
    obtain ⟨fuel, rfl⟩ : ∃ f, fuel = f + 1 := ⟨fuel - 1, by omega⟩
    have hlt : pic < 16 := by omega
    rw [Replace.window]
    simp only [hlt, if_true, hsp pic, ne_eq, not_true_eq_false, if_false]
    rw [ih fuel (pic + 1) _ (by omega) (by omega)]
    simp only [Nat.add_assoc, Nat.add_comm 1 k]

/-- The flush on a hit: the pending bytes are copied, and under the
invariant `ReallocateIfNotEnough` leaves the buffer as it is. -/
theorem flush_on_hit (src : Bytes) (d : StringDictionary) (done : List Bytes) (st : Cursors)
    (post : Bytes) (hs : src = done.flatten ++ post) (hinv : ReplaceInv src d done st) :
    ∃ st1,
      (if st.unwritten_bytes ≠ 0 then
        copySkipped src
          { st with
            dest := ReallocateIfNotEnough st.dest st.dst_cursor_position
                      (sub64 (st.unwritten_bytes + src.length) st.src_cursor_position) }
       else Except.ok st) = .ok st1 ∧
      st1.src_cursor_position = st.src_cursor_position + st.unwritten_bytes ∧
      st1.dst_cursor_position = st.dst_cursor_position + st.unwritten_bytes ∧
      st1.dest.length = st.dest.length ∧
      st1.dest.take st1.dst_cursor_position = mapText (codeRule d) done := by
  obtain ⟨hpos, hout, hcap⟩ := hinv
  have hsl : src.length = done.flatten.length + post.length := by rw [hs, List.length_append]
  by_cases hz : st.unwritten_bytes = 0
  · refine ⟨st, by simp [hz], by omega, by omega, rfl, ?_⟩
    rw [hz] at hout
    simpa using hout
  · have hreq : sub64 (st.unwritten_bytes + src.length) st.src_cursor_position =
        st.unwritten_bytes + src.length - st.src_cursor_position := by
      unfold sub64; rw [if_pos (by omega)]
    have hsame : ReallocateIfNotEnough st.dest st.dst_cursor_position
        (sub64 (st.unwritten_bytes + src.length) st.src_cursor_position) = st.dest := by
      unfold ReallocateIfNotEnough
      rw [hreq]
      have : sub64 st.dest.length st.dst_cursor_position =
          st.dest.length - st.dst_cursor_position := by
        unfold sub64; rw [if_pos (by omega)]
      rw [this, if_neg (by omega)]
    have hread := readBytes_inside src st.src_cursor_position st.unwritten_bytes (by omega)
    have hdl : ((src.drop st.src_cursor_position).take st.unwritten_bytes).length =
        st.unwritten_bytes := by
      simp only [List.length_take, List.length_drop]; omega
    obtain ⟨dest1, hm, hl, ht⟩ := memcpy_ok st.dest st.dst_cursor_position
      ((src.drop st.src_cursor_position).take st.unwritten_bytes) (by rw [hdl]; omega)
    rw [hdl] at ht
    refine ⟨{ src_cursor_position := st.src_cursor_position + st.unwritten_bytes,
              dst_cursor_position := st.dst_cursor_position + st.unwritten_bytes,
              unwritten_bytes := st.unwritten_bytes, dest := dest1 }, ?_, rfl, rfl, hl, ?_⟩
    · rw [if_pos hz, hsame]
      simp only [copySkipped, hread, hm]
    · simp only [ht, hout]

/-- One iteration of the inner loop of `Replace` at the start of a
well-formed codepoint `u`: the loop moves past `u` and the invariant holds
with `u` added to the processed codepoints. -/
theorem window_step (src : Bytes) (d : StringDictionary) (cp : Nat) (sp : List Nat)
    (done : List Bytes) (u post : Bytes) (fuel pic : Nat) (st : Cursors)
    (hs : src = done.flatten ++ u ++ post) (hu : isCodepoint u = true)
    (hfit : (codeRule d u).length ≤ 2 * u.length)
    (hpos : cp + pic = done.flatten.length) (hpic : pic < 16)
    (hsp : sp.getD pic 0 = GetStartPointByte (src.getD (cp + pic) 0))
    (hinv : ReplaceInv src d done st) :
    ∃ st1, Replace.window src src.length d cp sp (fuel + 1) pic st =
        Replace.window src src.length d cp sp fuel (pic + u.length) st1 ∧
      ReplaceInv src d (done ++ [u]) st1 := by
  have hsl : src.length = done.flatten.length + u.length + post.length := by
    rw [hs]; simp only [List.length_append]
  have hdone : (done ++ [u]).flatten.length = done.flatten.length + u.length := by
    simp
  have hmt : mapText (codeRule d) (done ++ [u]) = mapText (codeRule d) done ++ codeRule d u := by
    rw [mapText_append, mapText_cons, mapText_nil, List.append_nil]
  obtain ⟨hp, hout, hcap⟩ := hinv
  have hext := take_extend src done.flatten u post st.src_cursor_position st.unwritten_bytes hs hp
  obtain ⟨b, tl, rfl, hshape⟩ := isCodepoint_shape hu
  have hget : src.getD (cp + pic) 0 = b := by
    rw [hs, hpos]; simp only [List.cons_append, List.append_assoc]; exact getD_mid _ b _
  have hread : readBytes src (cp + pic) (b :: tl).length = .ok (b :: tl) :=
    readBytes_at src done.flatten (b :: tl) post _ _ hs hpos rfl
  rw [hget] at hsp
  rw [Replace.window]
  rcases hshape with ⟨rfl, hb⟩ | ⟨hb1, hb2, hl2, hl4, hgsp, -⟩
  · have hcls : GetStartPointByte b = 0 := by
      rw [GetStartPointByte_table b (by omega), if_pos (by omega)]
    rw [hcls] at hsp
    refine ⟨{ st with unwritten_bytes := st.unwritten_bytes + 1 }, ?_, ?_, ?_, ?_⟩
    · simp only [hpic, if_true, hsp, ne_eq, not_true_eq_false, if_false, List.length_singleton]
    · simp only [hdone, List.length_singleton]; omega
    · simp only [hmt, codeRule_single]
      rw [← hout, List.append_assoc]
      congr 1
    · exact hcap
  · rw [hgsp] at hsp
    have hne : (b :: tl).length ≠ 0 := by omega
    simp only [hpic, if_true, hsp, hne, ne_eq, not_false_eq_true, hread]
    cases hf : d.find (b :: tl) with
    | none =>
      refine ⟨{ st with unwritten_bytes := st.unwritten_bytes + (b :: tl).length }, rfl, ?_, ?_, ?_⟩
      · simp only [hdone]; omega
      · simp only [hmt, codeRule_miss d _ hf]
        rw [← hout, List.append_assoc]
        congr 1
      · exact hcap
    | some v =>
      rw [codeRule_hit d _ v hl2 hf] at hfit hmt
      obtain ⟨st1, hfl, hsc1, hdc1, hdl1, hdt1⟩ := flush_on_hit src d done st ((b :: tl) ++ post)
        (by rw [hs, List.append_assoc]) ⟨hp, hout, hcap⟩
      obtain ⟨dest2, hm, hl, ht⟩ := memcpy_ok st1.dest st1.dst_cursor_position v (by omega)
      refine ⟨{ src_cursor_position := st1.src_cursor_position + (b :: tl).length,
                dst_cursor_position := st1.dst_cursor_position + v.length,
                unwritten_bytes := 0, dest := dest2 }, ?_, ?_, ?_, ?_⟩
      · simp only [ne_eq] at hfl
        simp only [hfl, hm]
      · simp only [hdone]; omega
      · simp only [hmt, ht, hdt1, List.take_zero, List.append_nil]
      · simp only [hl, hdl1, hsc1, hdc1]; omega

/-- The inner loop of `Replace`, started at a codepoint boundary inside a
window that lies within the source, ends at a codepoint boundary at or
after the end of the window, with the invariant kept. -/
theorem window_spec (src : Bytes) (d : StringDictionary) (cp : Nat) (sp : List Nat)
    (hcp : cp + 16 ≤ src.length)
    (hsp : ∀ i, i < 16 → sp.getD i 0 = GetStartPointByte (src.getD (cp + i) 0)) :
    ∀ (fuel pic : Nat) (st : Cursors) (done rest : List Bytes),
      src = done.flatten ++ rest.flatten → WellFormed rest → Fits d rest →
      cp + pic = done.flatten.length → ReplaceInv src d done st → 16 ≤ fuel + pic →
      ∃ pic1 st1 mid rest1, rest = mid ++ rest1 ∧
        Replace.window src src.length d cp sp fuel pic st = .ok (pic1, st1) ∧
        cp + pic1 = (done ++ mid).flatten.length ∧ 16 ≤ pic1 ∧
        ReplaceInv src d (done ++ mid) st1 := by
  intro fuel
  induction fuel with
  | zero =>
    intro pic st done rest _ _ _ hpos hinv hf
    refine ⟨pic, st, [], rest, rfl, ?_, by simpa using hpos, by omega, by simpa using hinv⟩
    have : ¬ pic < 16 := by omega
    simp [Replace.window, this]
  | succ fuel ih =>
    intro pic st done rest hs hwf hfit hpos hinv hf
    by_cases hpic : pic < 16
    · have hsl : src.length = done.flatten.length + rest.flatten.length := by
        rw [hs, List.length_append]
      match rest, hs, hwf, hfit, hsl with
      | [], _, _, _, hsl =>
        simp only [List.flatten_nil, List.length_nil] at hsl; omega
      | u :: rest1, hs, hwf, hfit, _ =>
        have hu : isCodepoint u = true := hwf u (List.mem_cons_self _ _)
        have hwf1 : WellFormed rest1 := fun w hw => hwf w (List.mem_cons_of_mem _ hw)
        have hfit1 : Fits d rest1 := fun w hw => hfit w (List.mem_cons_of_mem _ hw)
        have hs1 : src = done.flatten ++ u ++ rest1.flatten := by
          rw [hs]; simp
        obtain ⟨st1, hstep, hinv1⟩ := window_step src d cp sp done u rest1.flatten fuel pic st
          hs1 hu (hfit u (List.mem_cons_self _ _)) hpos hpic (hsp pic hpic) hinv
        have hupos := isCodepoint_length_pos hu
        obtain ⟨pic2, st2, mid, rest2, hrest, hw, hpos2, hge, hinv2⟩ :=
          ih (pic + u.length) st1 (done ++ [u]) rest1 (by rw [hs]; simp) hwf1 hfit1
            (by rw [List.flatten_append, List.length_append]
                simp only [List.flatten_cons, List.flatten_nil, List.append_nil]; omega)
            hinv1 (by omega)
        refine ⟨pic2, st2, u :: mid, rest2, by rw [hrest]; rfl, by rw [hstep, hw], ?_, hge, ?_⟩
        · simpa using hpos2
        · simpa using hinv2
    · refine ⟨pic, st, [], rest, rfl, ?_, by simpa using hpos, by omega, by simpa using hinv⟩
      simp [Replace.window, hpic]

/-! ## The outer loop of `Replace` -/

theorem sub64_of_le (a b : Nat) (h : b ≤ a) : sub64 a b = a - b := by
  unfold sub64; rw [if_pos h]

theorem start_points_window (src : Bytes) (cp i : Nat) (hi : i < 16) :
    (GetStartPoint ((src.drop cp).take 16)).getD i 0 =
      GetStartPointByte (src.getD (cp + i) 0) := by
  have h0 : (0 : Nat) = GetStartPointByte 0 := by decide
  unfold GetStartPoint
  conv_lhs => rw [h0]
  rw [List.getD_map]
  congr 1
  simp only [List.getD_eq_getElem?_getD, List.getElem?_take, hi, if_true, List.getElem?_drop]

/-- With `search_ascii` set the skip of an all-ASCII window is not taken,
and the scan of such a window has the same effect as the skip: the flag
does not change what the outer loop computes. -/
theorem loop_flag (src : Bytes) (src_len : Nat) (d : StringDictionary) :
    ∀ (fuel cp : Nat) (st : Cursors),
      Replace.loop src src_len d false fuel cp st = Replace.loop src src_len d true fuel cp st := by
  intro fuel
  induction fuel with
  | zero => intro cp st; simp only [Replace.loop]
  | succ fuel ih =>
    intro cp st
    rw [Replace.loop, Replace.loop]
    by_cases hc : 16 ≤ sub64 src_len cp
    · simp only [hc, if_true]
      cases hr : readBytes src cp 16 with
      | error e => rfl
      | ok chunk =>
        simp only
        by_cases hm : movemask_epi8 chunk = 0
        · have hw := window_all_zero src src_len d cp (GetStartPoint chunk)
            (movemask_zero_start_points chunk hm) 16 16 0 st (by omega) (by omega)
          simp only [hm, true_and, if_true, hw, Bool.true_eq_false, and_false, if_false, ih]
        · simp only [hm, false_and, if_false, ih]
    · simp only [hc, if_false]

/-- The outer loop of `Replace` on a well-formed source, started at a
codepoint boundary: it ends at a codepoint boundary less than 16 bytes
before the end of the source, with the invariant kept. -/
theorem loop_spec (src : Bytes) (d : StringDictionary) :
    ∀ (fuel cp : Nat) (st : Cursors) (done rest : List Bytes),
      src = done.flatten ++ rest.flatten → WellFormed rest → Fits d rest →
      cp = done.flatten.length → ReplaceInv src d done st →
      rest.flatten.length ≤ 16 * fuel + 15 →
      ∃ cp1 st1 mid rest1, rest = mid ++ rest1 ∧
        Replace.loop src src.length d true fuel cp st = .ok (cp1, st1) ∧
        cp1 = (done ++ mid).flatten.length ∧ rest1.flatten.length < 16 ∧
        ReplaceInv src d (done ++ mid) st1 := by
  intro fuel
  induction fuel with
  | zero =>
    intro cp st done rest hs _ _ hcp hinv hf
    have hsl : src.length = done.flatten.length + rest.flatten.length := by
      rw [hs, List.length_append]
    refine ⟨cp, st, [], rest, rfl, ?_, by simpa using hcp, by omega, by simpa using hinv⟩
    rw [Replace.loop, sub64_of_le _ _ (by omega), if_neg (by omega)]
  | succ fuel ih =>
    intro cp st done rest hs hwf hfit hcp hinv hf
    have hsl : src.length = done.flatten.length + rest.flatten.length := by
      rw [hs, List.length_append]
    by_cases hc : 16 ≤ rest.flatten.length
    · have hread := readBytes_inside src cp 16 (by omega)
      obtain ⟨pic1, st1, mid, rest1, hrest, hw, hpos1, hge, hinv1⟩ :=
        window_spec src d cp (GetStartPoint ((src.drop cp).take 16)) (by omega)
          (fun i hi => start_points_window src cp i hi) 16 0 st done rest hs hwf hfit
          (by omega) hinv (by omega)
      have hwf1 : WellFormed rest1 := fun w hw1 => hwf w (by rw [hrest]; exact List.mem_append_right _ hw1)
      have hfit1 : Fits d rest1 := fun w hw1 => hfit w (by rw [hrest]; exact List.mem_append_right _ hw1)
      have hlen1 : rest.flatten.length = mid.flatten.length + rest1.flatten.length := by
        rw [hrest, List.flatten_append, List.length_append]
      have hdm : (done ++ mid).flatten.length = done.flatten.length + mid.flatten.length := by
        rw [List.flatten_append, List.length_append]
      obtain ⟨cp2, st2, mid2, rest2, hrest2, hl2, hcp2, hlt2, hinv2⟩ :=
        ih (cp + pic1) st1 (done ++ mid) rest1
          (by rw [hs, hrest]; simp only [List.flatten_append, List.append_assoc])
          hwf1 hfit1 hpos1 hinv1 (by omega)
      refine ⟨cp2, st2, mid ++ mid2, rest2, by rw [hrest, hrest2, List.append_assoc], ?_,
        by rw [hcp2, List.append_assoc], hlt2, by rw [← List.append_assoc]; exact hinv2⟩
      rw [Replace.loop, sub64_of_le _ _ (by omega), if_pos (by omega), hread]
      simp only [Bool.true_eq_false, and_false, if_false, hw, hl2]
    · refine ⟨cp, st, [], rest, rfl, ?_, by simpa using hcp, by omega, by simpa using hinv⟩
      rw [Replace.loop, sub64_of_le _ _ (by omega), if_neg (by omega)]

theorem mapText_length_le (d : StringDictionary) (us : List Bytes) (h : Fits d us) :
    (mapText (codeRule d) us).length ≤ 2 * us.flatten.length := by
  induction us with
  | nil => simp [mapText_nil]
  | cons u us ih =>
    have h1 := h u (List.mem_cons_self _ _)
    have h2 := ih (fun w hw => h w (List.mem_cons_of_mem _ hw))
    rw [mapText_cons, List.length_append, List.flatten_cons, List.length_append]
    omega

/-- Source `Replace` on a well-formed text returns the text with every
codepoint rewritten by `codeRule`, for either value of the flag, provided
what is written for a codepoint is at most twice as long as the codepoint. -/
theorem Replace_spec (d : StringDictionary) (us : List Bytes) (flag : Bool)
    (hwf : WellFormed us) (hfit : Fits d us) :
    Replace us.flatten us.flatten.length d flag = .ok (mapText (codeRule d) us) := by
  have hinv0 : ReplaceInv us.flatten d []
      { src_cursor_position := 0, dst_cursor_position := 0, unwritten_bytes := 0,
        dest := List.replicate (us.flatten.length * 2) 0 } :=
    ⟨rfl, by simp [mapText_nil], by simp only [List.length_replicate]; omega⟩
  obtain ⟨cp1, st1, mid, rest1, hrest, hloop, hcp1, hlt, ⟨hp, hout, hcap⟩⟩ :=
    loop_spec us.flatten d (us.flatten.length + 1) 0 _ [] us (by simp) hwf hfit rfl hinv0
      (by omega)
  have hloop1 : Replace.loop us.flatten us.flatten.length d flag (us.flatten.length + 1) 0
      { src_cursor_position := 0, dst_cursor_position := 0, unwritten_bytes := 0,
        dest := List.replicate (us.flatten.length * 2) 0 } = .ok (cp1, st1) := by
    cases flag
    · rw [loop_flag]; exact hloop
    · exact hloop
  simp only [List.nil_append] at hcp1 hp hout hcap
  have hwf1 : WellFormed rest1 := fun w hw1 => hwf w (by rw [hrest]; exact List.mem_append_right _ hw1)
  have hfit1 : Fits d rest1 := fun w hw1 => hfit w (by rw [hrest]; exact List.mem_append_right _ hw1)
  have hsl : us.flatten.length = mid.flatten.length + rest1.flatten.length := by
    rw [hrest, List.flatten_append, List.length_append]
  have hsrc : us.flatten = mid.flatten ++ rest1.flatten := by
    rw [hrest, List.flatten_append]
  -- the final flush
  have hflush : ∃ st2, (if st1.unwritten_bytes ≠ 0 then
        (copySkipped us.flatten st1).map fun st => { st with unwritten_bytes := 0 }
      else Except.ok st1) = .ok st2 ∧
      resize st2.dest st2.dst_cursor_position = mapText (codeRule d) mid := by
    by_cases hz : st1.unwritten_bytes = 0
    · refine ⟨st1, by simp [hz], ?_⟩
      rw [hz] at hout
      rw [resize_take _ _ (by omega)]
      simpa using hout
    · have hread := readBytes_inside us.flatten st1.src_cursor_position st1.unwritten_bytes
        (by omega)
      have hdl : ((us.flatten.drop st1.src_cursor_position).take st1.unwritten_bytes).length =
          st1.unwritten_bytes := by
        simp only [List.length_take, List.length_drop]; omega
      obtain ⟨dest2, hm, hl, ht⟩ := memcpy_ok st1.dest st1.dst_cursor_position
        ((us.flatten.drop st1.src_cursor_position).take st1.unwritten_bytes)
        (by rw [hdl]; omega)
      rw [hdl] at ht
      refine ⟨{ src_cursor_position := st1.src_cursor_position + st1.unwritten_bytes,
                dst_cursor_position := st1.dst_cursor_position + st1.unwritten_bytes,
                unwritten_bytes := 0, dest := dest2 }, ?_, ?_⟩
      · rw [if_pos hz]
        simp only [copySkipped, hread, hm, Except.map]
      · simp only
        rw [resize_take _ _ (by omega), ht, hout]
  obtain ⟨st2, hfl, hres⟩ := hflush
  have hmt : mapText (codeRule d) us = mapText (codeRule d) mid ++ mapText (codeRule d) rest1 := by
    rw [hrest, mapText_append]
  have htail := mapText_length_le d rest1 hfit1
  unfold Replace
  simp only [hloop1, hfl, hres]
  by_cases hc : cp1 < us.flatten.length
  · have hsub : substr us.flatten cp1 (us.flatten.length - cp1) = .ok rest1.flatten := by
      unfold substr
      rw [if_pos (by omega)]
      congr 1
      rw [hsrc, hcp1, List.drop_left]
      exact List.take_of_length_le (by rw [List.length_append]; omega)
    have hscalar := ReplaceCharByChar_spec d rest1 hwf1 (by omega) (by omega) (by omega)
    simp only [hc, if_true, hsub, hscalar, hmt]
  · have : (mapText (codeRule d) rest1).length = 0 := by omega
    have hnil : mapText (codeRule d) rest1 = [] := List.length_eq_zero.mp this
    simp only [hc, if_false, hmt, hnil, List.append_nil]

/-! ## Consequences used by the claims -/

theorem Fits_of_ValuesFit (d : StringDictionary) (us : List Bytes) (h : ValuesFit d) :
    Fits d us := by
  intro u _
  unfold codeRule specRule
  split
  · omega
  · cases hf : d.find u with
    | none => simp only; omega
    | some v => exact h u v hf

theorem find_cons (k v seek : Bytes) (t : StringDictionary) :
    StringDictionary.find ((k, v) :: t) seek = if seek = k then some v else t.find seek := by
  unfold StringDictionary.find
  rw [List.lookup_cons]
  by_cases h : seek = k
  · simp [h]
  · have : (seek == k) = false := by simpa using h
    simp [this, h]

/-- A check of `ValuesFit` entry by entry. -/
theorem ValuesFit_of_entries (d : StringDictionary)
    (h : ∀ p ∈ d, p.2.length ≤ 2 * p.1.length) : ValuesFit d := by
  induction d with
  | nil => intro k v hf; simp [StringDictionary.find] at hf
  | cons p t ih =>
    intro k v hf
    obtain ⟨k0, v0⟩ := p
    rw [find_cons] at hf
    by_cases hk : k = k0
    · rw [if_pos hk] at hf
      injection hf with hf
      subst hf; subst hk
      exact h (k, v0) (List.mem_cons_self _ _)
    · rw [if_neg hk] at hf
      exact ih (fun q hq => h q (List.mem_cons_of_mem _ hq)) k v hf

theorem WellFormed_ascii (s : Bytes) (h : ∀ b ∈ s, b < 0x80) :
    WellFormed (s.map fun b => [b]) := by
  intro u hu
  obtain ⟨b, hb, rfl⟩ := List.mem_map.mp hu
  simpa [isCodepoint] using h b hb

theorem flatten_singletons (s : Bytes) : (s.map fun b => [b]).flatten = s := by
  induction s with
  | nil => rfl
  | cons b s ih => simp [ih]

theorem mapText_singletons (d : StringDictionary) (s : Bytes) :
    mapText (codeRule d) (s.map fun b => [b]) = s := by
  induction s with
  | nil => rfl
  | cons b s ih =>
    rw [List.map_cons, mapText_cons, ih, codeRule_single]; rfl

theorem Fits_singletons (d : StringDictionary) (s : Bytes) : Fits d (s.map fun b => [b]) := by
  intro u hu
  obtain ⟨b, -, rfl⟩ := List.mem_map.mp hu
  rw [codeRule_single]; simp

theorem WellFormed_append {us vs : List Bytes} (h : WellFormed (us ++ vs)) :
    WellFormed us ∧ WellFormed vs :=
  ⟨fun u hu => h u (List.mem_append_left _ hu), fun u hu => h u (List.mem_append_right _ hu)⟩

theorem Fits_append {d : StringDictionary} {us vs : List Bytes} (h : Fits d (us ++ vs)) :
    Fits d us ∧ Fits d vs :=
  ⟨fun u hu => h u (List.mem_append_left _ hu), fun u hu => h u (List.mem_append_right _ hu)⟩

/-- Chunks cut at codepoint boundaries: the concatenated outputs of
`Replace` are the replaced text of the whole input. -/
theorem replaceChunks_spec (d : StringDictionary) (flag : Bool) (css : List (List Bytes))
    (hwf : WellFormed css.flatten) (hfit : Fits d css.flatten) :
    replaceChunks d flag (css.map List.flatten) = .ok (mapText (codeRule d) css.flatten) := by
  induction css with
  | nil => rfl
  | cons c cs ih =>
    rw [List.flatten_cons] at hwf hfit
    obtain ⟨hwf1, hwf2⟩ := WellFormed_append hwf
    obtain ⟨hfit1, hfit2⟩ := Fits_append hfit
    rw [List.map_cons, replaceChunks, Replace_spec d c flag hwf1 hfit1, ih hwf2 hfit2,
      List.flatten_cons, mapText_append]

theorem codeRule_empty (u : Bytes) : codeRule [] u = u := by
  unfold codeRule specRule
  split
  · rfl
  · simp [StringDictionary.find]

theorem mapText_id (us : List Bytes) : mapText (codeRule []) us = us.flatten := by
  induction us with
  | nil => rfl
  | cons u us ih => rw [mapText_cons, ih, codeRule_empty, List.flatten_cons]

/-! ## The dictionary loader -/

theorem find_some_mem_keys (t : StringDictionary) (k v : Bytes) (h : t.find k = some v) :
    k ∈ t.keys := by
  induction t with
  | nil => simp [StringDictionary.find] at h
  | cons p t ih =>
    obtain ⟨k0, v0⟩ := p
    rw [find_cons] at h
    by_cases hk : k = k0
    · subst hk; simp [StringDictionary.keys]
    · rw [if_neg hk] at h
      have := ih h
      simp only [StringDictionary.keys, List.map_cons, List.mem_cons] at this ⊢
      exact Or.inr this

theorem find_none_of_not_mem (t : StringDictionary) (k : Bytes) (h : k ∉ t.keys) :
    t.find k = none := by
  cases hf : t.find k with
  | none => rfl
  | some v => exact absurd (find_some_mem_keys t k v hf) h

theorem mem_keys_insert (t : StringDictionary) (k v x : Bytes) :
    x ∈ (t.insert k v).keys ↔ x = k ∨ x ∈ t.keys := by
  unfold StringDictionary.insert
  cases hf : t.find k with
  | some w =>
    simp only
    constructor
    · exact Or.inr
    · rintro (rfl | h)
      · exact find_some_mem_keys t x w hf
      · exact h
  | none =>
    simp only [StringDictionary.keys, List.map_append, List.mem_append, List.map_cons,
      List.map_nil, List.mem_singleton]
    tauto

/-- On a line with at least one field the loop body inserts the first field
as the key and the second field, or the empty string, as the value. -/
theorem step_ok (acc : StringDictionary × Bool) (line : Bytes) (h : fields line ≠ []) :
    CreateDictionary.step acc line =
      .ok (acc.1.insert ((fields line).headD []) ((fields line).getD 1 []),
        if ((fields line).headD []).length = 1 then true else acc.2) := by
  unfold CreateDictionary.step
  match hf : fields line with
  | [] => exact absurd hf h
  | [k] => rfl
  | k :: v :: _ => rfl

theorem CreateDictionary_loop_flag :
    ∀ (lines : List Bytes) (acc : StringDictionary × Bool),
      (∀ l ∈ lines, fields l ≠ []) →
      (acc.2 = true ↔ ∃ k ∈ acc.1.keys, k.length = 1) →
      ∃ d flag, CreateDictionary.loop lines acc = .ok (d, flag) ∧
        (flag = true ↔ ∃ k ∈ d.keys, k.length = 1) := by
  intro lines
  induction lines with
  | nil => intro acc _ hacc; exact ⟨acc.1, acc.2, rfl, hacc⟩
  | cons l rest ih =>
    intro acc hl hacc
    rw [CreateDictionary.loop, step_ok acc l (hl l (List.mem_cons_self _ _))]
    apply ih _ (fun l1 h1 => hl l1 (List.mem_cons_of_mem _ h1))
    simp only
    constructor
    · intro h
      by_cases h1 : ((fields l).headD []).length = 1
      · exact ⟨_, (mem_keys_insert _ _ _ _).2 (Or.inl rfl), h1⟩
      · rw [if_neg h1] at h
        obtain ⟨k, hk, hk1⟩ := hacc.1 h
        exact ⟨k, (mem_keys_insert _ _ _ _).2 (Or.inr hk), hk1⟩
    · rintro ⟨k, hk, hk1⟩
      rcases (mem_keys_insert _ _ _ _).1 hk with rfl | hk
      · rw [if_pos hk1]
      · by_cases h1 : ((fields l).headD []).length = 1
        · rw [if_pos h1]
        · rw [if_neg h1]; exact hacc.2 ⟨k, hk, hk1⟩

theorem CreateDictionary_loop_table :
    ∀ (lines : List Bytes) (acc : StringDictionary × Bool),
      (∀ l ∈ lines, fields l ≠ []) →
      (acc.1.keys ++ lines.map fun l => (fields l).headD []).Nodup →
      ∃ flag, CreateDictionary.loop lines acc =
        .ok (acc.1 ++ lines.map fun l => ((fields l).headD [], (fields l).getD 1 []), flag) := by
  intro lines
  induction lines with
  | nil => intro acc _ _; exact ⟨acc.2, by simp [CreateDictionary.loop]⟩
  | cons l rest ih =>
    intro acc hl hnd
    have hnot : (fields l).headD [] ∉ acc.1.keys := by
      intro hmem
      have := List.disjoint_of_nodup_append hnd hmem
      exact this (by simp)
    have hins : acc.1.insert ((fields l).headD []) ((fields l).getD 1 []) =
        acc.1 ++ [((fields l).headD [], (fields l).getD 1 [])] := by
      unfold StringDictionary.insert
      rw [find_none_of_not_mem _ _ hnot]
    rw [CreateDictionary.loop, step_ok acc l (hl l (List.mem_cons_self _ _))]
    simp only
    obtain ⟨flag, hflag⟩ := ih (acc.1.insert ((fields l).headD []) ((fields l).getD 1 []),
      if ((fields l).headD []).length = 1 then true else acc.2)
      (fun l1 h1 => hl l1 (List.mem_cons_of_mem _ h1))
      (by
        rw [hins]
        simpa [StringDictionary.keys, List.append_assoc] using hnd)
    refine ⟨flag, ?_⟩
    rw [hflag, hins]
    simp

theorem find_of_mem_nodup (t : StringDictionary) (k v : Bytes) (hnd : t.keys.Nodup)
    (h : (k, v) ∈ t) : t.find k = some v := by
  induction t with
  | nil => simp at h
  | cons p t ih =>
    obtain ⟨k0, v0⟩ := p
    rw [find_cons]
    simp only [StringDictionary.keys, List.map_cons, List.nodup_cons] at hnd
    rcases List.mem_cons.mp h with heq | hmem
    · injection heq with h1 h2
      rw [if_pos h1, h2]
    · have hk : k ≠ k0 := by
        rintro rfl
        exact hnd.1 (List.mem_map.mpr ⟨(k, v), hmem, rfl⟩)
      rw [if_neg hk]
      exact ih hnd.2 hmem

/-! ## The fuel of the loops is never spent by `Replace` -/

theorem readBytes_error {src : Bytes} {off n : Nat} {e : Fault}
    (h : readBytes src off n = .error e) : e = .outOfBounds := by
  unfold readBytes at h
  split at h
  · cases h
  · injection h with h; exact h.symm

theorem memcpy_error {dest : Bytes} {pos : Nat} {data : Bytes} {e : Fault}
    (h : memcpy dest pos data = .error e) : e = .outOfBounds := by
  unfold memcpy at h
  split at h
  · cases h
  · injection h with h; exact h.symm

theorem copySkipped_error {src : Bytes} {st : Cursors} {e : Fault}
    (h : copySkipped src st = .error e) : e = .outOfBounds := by
  unfold copySkipped at h
  split at h
  · next e1 h1 => injection h with h; subst h; exact readBytes_error h1
  · split at h
    · next e1 h1 => injection h with h; subst h; exact memcpy_error h1
    · cases h

theorem window_error (src : Bytes) (src_len : Nat) (d : StringDictionary) (cp : Nat)
    (sp : List Nat) :
    ∀ (fuel pic : Nat) (st : Cursors) (e : Fault), 16 ≤ fuel + pic →
      Replace.window src src_len d cp sp fuel pic st = .error e → e = .outOfBounds := by
  intro fuel
  induction fuel with
  | zero =>
    intro pic st e hf h
    rw [Replace.window, if_neg (by omega)] at h
    cases h
  | succ fuel ih =>
    intro pic st e hf h
    rw [Replace.window] at h
    split at h
    · simp only at h
      split at h
      · next hne =>
        split at h
        · next e1 h1 => injection h with h; subst h; exact readBytes_error h1
        · split at h
          · split at h
            · next e1 h1 =>
              injection h with h; subst h
              split at h1
              · exact copySkipped_error h1
              · cases h1
            · split at h
              · next e1 h1 => injection h with h; subst h; exact memcpy_error h1
              · exact ih _ _ e (by omega) h
          · exact ih _ _ e (by omega) h
      · exact ih _ _ e (by omega) h
    · cases h

theorem window_ok_ge (src : Bytes) (src_len : Nat) (d : StringDictionary) (cp : Nat)
    (sp : List Nat) :
    ∀ (fuel pic : Nat) (st : Cursors) (pic1 : Nat) (st1 : Cursors),
      Replace.window src src_len d cp sp fuel pic st = .ok (pic1, st1) → 16 ≤ pic1 := by
  intro fuel
  induction fuel with
  | zero =>
    intro pic st pic1 st1 h
    rw [Replace.window] at h
    split at h
    · cases h
    · injection h with h
      injection h with h1 h2
      omega
  | succ fuel ih =>
    intro pic st pic1 st1 h
    rw [Replace.window] at h
    split at h
    · simp only at h
      split at h
      · split at h
        · cases h
        · split at h
          · split at h
            · cases h
            · split at h
              · cases h
              · exact ih _ _ _ _ h
          · exact ih _ _ _ _ h
      · exact ih _ _ _ _ h
    · injection h with h
      injection h with h1 h2
      omega

theorem loop_error (src : Bytes) (src_len : Nat) (d : StringDictionary) (flag : Bool) :
    ∀ (fuel cp : Nat) (st : Cursors) (e : Fault), fuel ≤ src.length + 1 →
      16 * (src.length + 1 - fuel) ≤ cp →
      Replace.loop src src_len d flag fuel cp st = .error e → e = .outOfBounds := by
  intro fuel
  induction fuel with
  | zero =>
    intro cp st e _ hcp h
    rw [Replace.loop] at h
    split at h
    · split at h
      · next e1 h1 => injection h with h; subst h; exact readBytes_error h1
      · next chunk h1 =>
        unfold readBytes at h1
        rw [if_neg (by omega)] at h1
        cases h1
    · cases h
  | succ fuel ih =>
    intro cp st e hfl hcp h
    rw [Replace.loop] at h
    split at h
    · split at h
      · next e1 h1 => injection h with h; subst h; exact readBytes_error h1
      · split at h
        · exact ih _ _ e (by omega) (by omega) h
        · split at h
          · next e1 h1 =>
            injection h with h; subst h
            exact window_error src src_len d cp _ 16 0 st _ (by omega) h1
          · next pic1 st1 h1 =>
            have := window_ok_ge src src_len d cp _ 16 0 st pic1 st1 h1
            exact ih _ _ e (by omega) (by omega) h
    · cases h

theorem loop_ok_exit (src : Bytes) (src_len : Nat) (d : StringDictionary) (flag : Bool) :
    ∀ (fuel cp : Nat) (st : Cursors) (cp1 : Nat) (st1 : Cursors),
      Replace.loop src src_len d flag fuel cp st = .ok (cp1, st1) →
      ¬ 16 ≤ sub64 src_len cp1 := by
  intro fuel
  induction fuel with
  | zero =>
    intro cp st cp1 st1 h
    rw [Replace.loop] at h
    split at h
    · split at h <;> cases h
    · next hc =>
      injection h with h
      injection h with h1 h2
      rw [← h1]; exact hc
  | succ fuel ih =>
    intro cp st cp1 st1 h
    rw [Replace.loop] at h
    split at h
    · split at h
      · cases h
      · split at h
        · exact ih _ _ _ _ h
        · split at h
          · cases h
          · exact ih _ _ _ _ h
    · next hc =>
      injection h with h
      injection h with h1 h2
      rw [← h1]; exact hc

theorem LeftmostBlockSize_loop_bounds (chr : Nat) :
    ∀ (fuel size : Nat), 2 ≤ size → size + fuel ≤ 5 →
      2 ≤ LeftmostBlockSize.loop chr fuel size ∧ LeftmostBlockSize.loop chr fuel size ≤ 5 := by
  intro fuel
  induction fuel with
  | zero => intro size h1 h2; simp only [LeftmostBlockSize.loop]; omega
  | succ fuel ih =>
    intro size h1 h2
    rw [LeftmostBlockSize.loop]
    split
    · simp only
      split
      · omega
      · have hm : (size + 1) % 256 = size + 1 := Nat.mod_eq_of_lt (by omega)
        rw [hm]
        exact ih (size + 1) (by omega) (by omega)
    · omega

theorem LeftmostBlockSize_bounds (chr : Nat) :
    2 ≤ LeftmostBlockSize chr ∧ LeftmostBlockSize chr ≤ 5 :=
  LeftmostBlockSize_loop_bounds chr 3 2 (by omega) (by omega)

theorem scalar_loop_error (src : Bytes) (src_len : Nat) (d : StringDictionary)
    (hlen : src_len ≤ 250) :
    ∀ (fuel cur sc dc : Nat) (dest : Bytes) (e : Fault), src_len ≤ cur + fuel →
      ReplaceCharByChar.loop src src_len d fuel cur sc dc dest = .error e →
      e = .outOfBounds := by
  intro fuel
  induction fuel with
  | zero =>
    intro cur sc dc dest e hf h
    rw [ReplaceCharByChar.loop, if_neg (by omega)] at h
    cases h
  | succ fuel ih =>
    intro cur sc dc dest e hf h
    rw [ReplaceCharByChar.loop] at h
    have hb := LeftmostBlockSize_bounds (src.getD cur 0)
    split at h
    · next hcur =>
      have hm1 : (cur + 1) % 256 = cur + 1 := Nat.mod_eq_of_lt (by omega)
      have hm2 : (cur + LeftmostBlockSize (src.getD cur 0)) % 256 =
          cur + LeftmostBlockSize (src.getD cur 0) := Nat.mod_eq_of_lt (by omega)
      split at h
      · split at h
        · next e1 h1 => injection h with h; subst h; exact readBytes_error h1
        · split at h
          · next e1 h1 => injection h with h; subst h; exact memcpy_error h1
          · rw [hm1] at h
            exact ih _ _ _ _ e (by omega) h
      · simp only at h
        split at h
        · next e1 h1 => injection h with h; subst h; exact readBytes_error h1
        · split at h
          · split at h
            · next e1 h1 => injection h with h; subst h; exact memcpy_error h1
            · rw [hm2] at h
              exact ih _ _ _ _ e (by omega) h
          · split at h
            · next e1 h1 => injection h with h; subst h; exact readBytes_error h1
            · split at h
              · next e1 h1 => injection h with h; subst h; exact memcpy_error h1
              · rw [hm2] at h
                exact ih _ _ _ _ e (by omega) h
    · cases h

theorem scalar_error_short (src : Bytes) (d : StringDictionary) (hlen : src.length ≤ 250)
    (e : Fault) (h : ReplaceCharByChar src d = .error e) : e = .outOfBounds := by
  unfold ReplaceCharByChar at h
  have hmod : src.length % 256 = src.length := Nat.mod_eq_of_lt (by omega)
  simp only [hmod] at h
  split at h
  · next e1 h1 =>
    injection h with h; subst h
    exact scalar_loop_error src src.length d hlen 256 0 0 0 _ _ (by omega) h1
  · cases h

/-- Source `Replace` never spends the fuel of its loops: a run that does
not return a result has read or written out of bounds. -/
theorem Replace_error (src : Bytes) (src_len : Nat) (d : StringDictionary) (flag : Bool)
    (e : Fault) (h : Replace src src_len d flag = .error e) : e = .outOfBounds := by
  unfold Replace at h
  simp only at h
  split at h
  · next e1 h1 =>
    injection h with h; subst h
    exact loop_error src src_len d flag _ 0 _ _ (by omega) (by omega) h1
  · next cp1 st1 h1 =>
    have hexit := loop_ok_exit src src_len d flag _ _ _ _ _ h1
    split at h
    · next e1 h2 =>
      injection h with h; subst h
      split at h2
      · cases h3 : copySkipped src st1 with
        | error e2 =>
          rw [h3] at h2
          simp only [Except.map] at h2
          injection h2 with h2; subst h2
          exact copySkipped_error h3
        | ok st2 =>
          rw [h3] at h2
          simp only [Except.map] at h2
          cases h2
      · cases h2
    · split at h
      · next hlt =>
        rw [sub64_of_le _ _ (by omega)] at hexit
        split at h
        · next e1 h2 =>
          injection h with h; subst h
          unfold substr at h2
          split at h2
          · cases h2
          · injection h2 with h2; exact h2.symm
        · next tail_part h2 =>
          have htl : tail_part.length ≤ 250 := by
            unfold substr at h2
            split at h2
            · injection h2 with h2
              subst h2
              simp only [List.length_take, List.length_drop]
              omega
            · cases h2
          split at h
          · next e1 h3 =>
            injection h with h; subst h
            exact scalar_error_short tail_part d htl _ h3
          · cases h
      · cases h

/-! ## The claims -/

/-- C2, as stated, fails: 256 bytes `a` as one chunk and the empty
dictionary.  `Replace` returns the 256 bytes; `ReplaceCharByChar` keeps the
length in a `uint8_t`, sees length 0 and returns the empty string. -/
theorem C2_scalar_truncates_length :
    WellFormed (List.replicate 256 [97]) ∧
    replaceChunks [] false [(List.replicate 256 [97]).flatten] = .ok (List.replicate 256 97) ∧
    ReplaceCharByChar (List.replicate 256 [97]).flatten [] = .ok [] ∧
    replaceChunks [] false [(List.replicate 256 [97]).flatten] ≠
      ReplaceCharByChar (List.replicate 256 [97]).flatten [] := by
  have h1 : replaceChunks [] false [(List.replicate 256 [97]).flatten] =
      .ok (List.replicate 256 97) := rfl
  have h2 : ReplaceCharByChar (List.replicate 256 [97]).flatten [] = .ok [] := rfl
  refine ⟨?_, h1, h2, ?_⟩
  · intro u hu
    rw [List.eq_of_mem_replicate hu]; rfl
  · rw [h1, h2]
    intro h
    injection h with h
    exact absurd (congrArg List.length h) (by decide)

/-- C2, amended: for every well-formed UTF-8 input of at most 255 bytes,
every split of it into chunks at codepoint boundaries, and every dictionary
whose values are at most twice as long as their keys and for which the
replaced text has at most 255 bytes, the concatenated outputs of `Replace`
on the chunks and the output of `ReplaceCharByChar` on the whole input are
the same text. -/
theorem C2_chunks_agree_with_scalar (d : StringDictionary) (flag : Bool)
    (css : List (List Bytes)) (hwf : WellFormed css.flatten) (hd : ValuesFit d)
    (hlen : css.flatten.flatten.length ≤ 255)
    (hout : (mapText (codeRule d) css.flatten).length ≤ 255) :
    replaceChunks d flag (css.map List.flatten) = .ok (mapText (codeRule d) css.flatten) ∧
    ReplaceCharByChar css.flatten.flatten d = .ok (mapText (codeRule d) css.flatten) := by
  have hfit := Fits_of_ValuesFit d css.flatten hd
  refine ⟨replaceChunks_spec d flag css hwf hfit, ?_⟩
  have := mapText_length_le d css.flatten hfit
  exact ReplaceCharByChar_spec d css.flatten hwf hlen hout (by omega)

/-- C2, amended, at the input `aébéc` cut as `aé | béc` with `é` mapped to
`e`. -/
theorem C2_chunks_agree_with_scalar_witness :
    WellFormed [[[97], [0xC3, 0xA9]], [[98], [0xC3, 0xA9], [99]]].flatten ∧
    ValuesFit [([0xC3, 0xA9], [101])] ∧
    [[[97], [0xC3, 0xA9]], [[98], [0xC3, 0xA9], [99]]].flatten.flatten.length ≤ 255 ∧
    (mapText (codeRule [([0xC3, 0xA9], [101])])
      [[[97], [0xC3, 0xA9]], [[98], [0xC3, 0xA9], [99]]].flatten).length ≤ 255 ∧
    (replaceChunks [([0xC3, 0xA9], [101])] false
        ([[[97], [0xC3, 0xA9]], [[98], [0xC3, 0xA9], [99]]].map List.flatten) =
      .ok (mapText (codeRule [([0xC3, 0xA9], [101])])
        [[[97], [0xC3, 0xA9]], [[98], [0xC3, 0xA9], [99]]].flatten) ∧
    ReplaceCharByChar [[[97], [0xC3, 0xA9]], [[98], [0xC3, 0xA9], [99]]].flatten.flatten
        [([0xC3, 0xA9], [101])] =
      .ok (mapText (codeRule [([0xC3, 0xA9], [101])])
        [[[97], [0xC3, 0xA9]], [[98], [0xC3, 0xA9], [99]]].flatten)) :=
  ⟨by unfold WellFormed; decide, ValuesFit_of_entries _ (by decide), by decide, by decide,
    C2_chunks_agree_with_scalar _ false _ (by unfold WellFormed; decide)
      (ValuesFit_of_entries _ (by decide)) (by decide) (by decide)⟩

/-- C3 at a failing input: `é` mapped to nine bytes `a`, the input `é`
followed by thirty `a`.  On the whole input `Replace` returns thirty-nine
`a`; on the chunks `é` and the thirty `a` the first run writes nine bytes
into the eight-byte buffer of the scalar tail. -/
theorem C3_chunked_run_overflows :
    WellFormed ([[0xC3, 0xA9]] ++ List.replicate 30 [97]) ∧
    Replace ([[0xC3, 0xA9]] ++ List.replicate 30 [97]).flatten 32
      [([0xC3, 0xA9], List.replicate 9 97)] false = .ok (List.replicate 39 97) ∧
    replaceChunks [([0xC3, 0xA9], List.replicate 9 97)] false
      [[[0xC3, 0xA9]].flatten, (List.replicate 30 [97]).flatten] = .error .outOfBounds := by
  refine ⟨by unfold WellFormed; decide, rfl, rfl⟩

theorem mapText_congr (f g : Bytes → Bytes) (us : List Bytes) (h : ∀ u ∈ us, f u = g u) :
    mapText f us = mapText g us := by
  unfold mapText
  rw [List.map_congr_left h]

/-- C5, as stated, fails on input that is not well-formed: for the single
lead byte `0xC3` and the empty dictionary the scalar tail takes the
terminating NUL for the second byte of the codepoint and copies both. -/
theorem C5_truncated_codepoint_not_identity :
    Replace [0xC3] 1 [] false = .ok [0xC3, 0] ∧ Replace [0xC3] 1 [] false ≠ .ok [0xC3] := by
  refine ⟨rfl, ?_⟩
  intro h
  have h1 : Replace [0xC3] 1 [] false = .ok [0xC3, 0] := rfl
  rw [h1] at h
  injection h with h
  exact absurd h (by decide)

/-- C5, amended: with a dictionary of zero rows `Replace` is the identity
on every well-formed UTF-8 input, of any length. -/
theorem C5_empty_dictionary_identity (us : List Bytes) (hwf : WellFormed us) :
    Replace us.flatten us.flatten.length [] false = .ok us.flatten := by
  have hfit : Fits [] us := fun u _ => by rw [codeRule_empty]; omega
  rw [Replace_spec [] us false hwf hfit, mapText_id]

/-- C5, amended, at thirteen `a`, the four-byte codepoint U+1F600 across
the end of the first window, and three `b`. -/
theorem C5_empty_dictionary_identity_witness :
    WellFormed (List.replicate 13 [97] ++ [[0xF0, 0x9F, 0x98, 0x80]] ++ List.replicate 3 [98]) ∧
    Replace (List.replicate 13 [97] ++ [[0xF0, 0x9F, 0x98, 0x80]] ++
        List.replicate 3 [98]).flatten
      (List.replicate 13 [97] ++ [[0xF0, 0x9F, 0x98, 0x80]] ++
        List.replicate 3 [98]).flatten.length [] false =
      .ok (List.replicate 13 [97] ++ [[0xF0, 0x9F, 0x98, 0x80]] ++
        List.replicate 3 [98]).flatten :=
  ⟨by unfold WellFormed; decide,
    C5_empty_dictionary_identity _ (by unfold WellFormed; decide)⟩

/-- C6: for every input made of ASCII bytes only and every dictionary,
`Replace` with `search_ascii = false` and `Replace` with
`search_ascii = true` both return, and return the same bytes. -/
theorem C6_flag_irrelevant_on_ascii (s : Bytes) (d : StringDictionary)
    (h : ∀ b ∈ s, b < 0x80) :
    ∃ out, Replace s s.length d false = .ok out ∧ Replace s s.length d true = .ok out := by
  refine ⟨s, ?_, ?_⟩
  · have := Replace_spec d (s.map fun b => [b]) false (WellFormed_ascii s h) (Fits_singletons d s)
    rwa [flatten_singletons, mapText_singletons] at this
  · have := Replace_spec d (s.map fun b => [b]) true (WellFormed_ascii s h) (Fits_singletons d s)
    rwa [flatten_singletons, mapText_singletons] at this

/-- C6 at twenty bytes `x` with a dictionary that has the key `x`. -/
theorem C6_flag_irrelevant_on_ascii_witness :
    (∀ b ∈ List.replicate 20 120, b < 0x80) ∧
    ∃ out, Replace (List.replicate 20 120) (List.replicate 20 120).length
        [([120], [121, 121, 121])] false = .ok out ∧
      Replace (List.replicate 20 120) (List.replicate 20 120).length
        [([120], [121, 121, 121])] true = .ok out :=
  ⟨by decide, C6_flag_irrelevant_on_ascii _ _ (by decide)⟩

/-- C7, as stated, fails: thirty-two `é` (64 bytes) with `é` mapped to
eight bytes `a`.  The replaced text has 256 bytes; `dst_cursor_position` is
a `uint8_t`, is back at 0 after the last write, and the result is cut to
length 0. -/
theorem C7_output_cursor_wraps :
    WellFormed (List.replicate 32 [0xC3, 0xA9]) ∧
    (List.replicate 32 [0xC3, 0xA9]).flatten.length ≤ 255 ∧
    mapText (codeRule [([0xC3, 0xA9], List.replicate 8 97)]) (List.replicate 32 [0xC3, 0xA9]) =
      List.replicate 256 97 ∧
    ReplaceCharByChar (List.replicate 32 [0xC3, 0xA9]).flatten
      [([0xC3, 0xA9], List.replicate 8 97)] = .ok [] ∧
    ReplaceCharByChar (List.replicate 32 [0xC3, 0xA9]).flatten
      [([0xC3, 0xA9], List.replicate 8 97)] ≠
      .ok (mapText (codeRule [([0xC3, 0xA9], List.replicate 8 97)])
        (List.replicate 32 [0xC3, 0xA9])) := by
  have h1 : ReplaceCharByChar (List.replicate 32 [0xC3, 0xA9]).flatten
      [([0xC3, 0xA9], List.replicate 8 97)] = .ok [] := rfl
  have h2 : mapText (codeRule [([0xC3, 0xA9], List.replicate 8 97)])
      (List.replicate 32 [0xC3, 0xA9]) = List.replicate 256 97 := by decide
  refine ⟨?_, by decide, h2, h1, ?_⟩
  · intro u hu
    rw [List.eq_of_mem_replicate hu]; rfl
  · rw [h1, h2]
    intro h
    injection h with h
    exact absurd (congrArg List.length h) (by decide)

/-- C7, amended: for every well-formed UTF-8 buffer of at most 255 bytes
and every dictionary for which the replaced text has at most 255 bytes and
at most four times the length of the buffer, `ReplaceCharByChar` returns
the concatenation, codepoint by codepoint and in order, of: the byte itself
for an ASCII byte, the dictionary value for a non-ASCII codepoint that is a
key, and the codepoint's own bytes for one that is not. -/
theorem C7_scalar_maps_codepoints (d : StringDictionary) (us : List Bytes)
    (hwf : WellFormed us) (hlen : us.flatten.length ≤ 255)
    (hout : (mapText (codeRule d) us).length ≤ 255)
    (hcap : (mapText (codeRule d) us).length ≤ 4 * us.flatten.length) :
    ReplaceCharByChar us.flatten d =
      .ok (mapText (fun u =>
        if u.length = 1 then u
        else match d.find u with
          | some v => v
          | none => u) us) := by
  rw [ReplaceCharByChar_spec d us hwf hlen hout hcap]
  rfl

/-- C7, amended, at the input `aébüc` with `é` mapped to eight bytes and
`ü` not a key. -/
theorem C7_scalar_maps_codepoints_witness :
    WellFormed [[97], [0xC3, 0xA9], [98], [0xC3, 0xBC], [99]] ∧
    [[97], [0xC3, 0xA9], [98], [0xC3, 0xBC], [99]].flatten.length ≤ 255 ∧
    ReplaceCharByChar [[97], [0xC3, 0xA9], [98], [0xC3, 0xBC], [99]].flatten
      [([0xC3, 0xA9], List.replicate 8 101)] =
      .ok ([97] ++ List.replicate 8 101 ++ [98, 0xC3, 0xBC, 99]) :=
  ⟨by unfold WellFormed; decide, by decide,
    C7_scalar_maps_codepoints [([0xC3, 0xA9], List.replicate 8 101)]
      [[97], [0xC3, 0xA9], [98], [0xC3, 0xBC], [99]] (by unfold WellFormed; decide)
      (by decide) (by decide) (by decide)⟩

/-- C8 at failing inputs, one for each copy that no capacity check covers.
The append of a replacement value: eight `é` (one window) with `é` mapped to
five bytes; `unwritten_bytes` stays 0, `ReallocateIfNotEnough` is never
called, and the seventh value is copied to positions 30 to 34 of the 32-byte
buffer.  The final flush: eight `é` mapped to eight bytes each, then sixteen
`a`; the loop ends with `dst_cursor_position` 64 in a 64-byte buffer and 16
bytes pending.  The scalar tail: one `é` mapped to nine bytes, copied into
the 8-byte buffer of `ReplaceCharByChar`. -/
theorem C8_copy_past_buffer_end :
    WellFormed (List.replicate 8 [0xC3, 0xA9] ++ List.replicate 16 [97]) ∧
    Replace (List.replicate 8 [0xC3, 0xA9]).flatten 16
      [([0xC3, 0xA9], List.replicate 5 97)] false = .error .outOfBounds ∧
    (Replace.loop (List.replicate 8 [0xC3, 0xA9] ++ List.replicate 16 [97]).flatten 32
        [([0xC3, 0xA9], List.replicate 8 97)] false 33 0
        { src_cursor_position := 0, dst_cursor_position := 0, unwritten_bytes := 0,
          dest := List.replicate 64 0 }).map
      (fun r => (r.1, r.2.src_cursor_position, r.2.dst_cursor_position, r.2.unwritten_bytes,
        r.2.dest.length)) = .ok (32, 16, 64, 16, 64) ∧
    Replace (List.replicate 8 [0xC3, 0xA9] ++ List.replicate 16 [97]).flatten 32
      [([0xC3, 0xA9], List.replicate 8 97)] false = .error .outOfBounds ∧
    Replace [0xC3, 0xA9] 2 [([0xC3, 0xA9], List.replicate 9 97)] false = .error .outOfBounds :=
  ⟨by unfold WellFormed; decide, rfl, rfl, rfl, rfl⟩

/-- C9: for every sequence of dictionary rows, each with at least one
field, `CreateDictionary` returns a table and a flag, and the flag is true
exactly when some key of the table is one byte long. -/
theorem C9_flag_iff_one_byte_key (lines : List Bytes) (h : ∀ l ∈ lines, fields l ≠ []) :
    ∃ d flag, CreateDictionary lines = .ok (d, flag) ∧
      (flag = true ↔ ∃ k ∈ d.keys, k.length = 1) :=
  CreateDictionary_loop_flag lines ([], false) h (by simp [StringDictionary.keys])

/-- C9 at the rows `é<TAB>e` and `x`. -/
theorem C9_flag_iff_one_byte_key_witness :
    (∀ l ∈ [[0xC3, 0xA9, 9, 101], [120]], fields l ≠ []) ∧
    ∃ d flag, CreateDictionary [[0xC3, 0xA9, 9, 101], [120]] = .ok (d, flag) ∧
      (flag = true ↔ ∃ k ∈ d.keys, k.length = 1) :=
  ⟨by decide, C9_flag_iff_one_byte_key _ (by decide)⟩

/-- C10: for every sequence of dictionary rows with pairwise distinct first
fields, `CreateDictionary` returns a table that maps the first field of
each row to its second field, and to the empty string when the row has one
field only; every key of the table is the first field of some row. -/
theorem C10_rows_become_entries (lines : List Bytes) (h : ∀ l ∈ lines, fields l ≠ [])
    (hnd : (lines.map fun l => (fields l).headD []).Nodup) :
    ∃ d flag, CreateDictionary lines = .ok (d, flag) ∧
      (∀ l ∈ lines, ∀ k, fields l = [k] → d.find k = some []) ∧
      (∀ l ∈ lines, ∀ k v rest, fields l = k :: v :: rest → d.find k = some v) ∧
      (∀ k ∈ d.keys, ∃ l ∈ lines, (fields l).head? = some k) := by
  obtain ⟨flag, hflag⟩ := CreateDictionary_loop_table lines ([], false) h (by simpa using hnd)
  simp only [List.nil_append] at hflag
  have hkeys : StringDictionary.keys
      (lines.map fun l => ((fields l).headD [], (fields l).getD 1 [])) =
      lines.map fun l => (fields l).headD [] := by
    simp [StringDictionary.keys]
  have hfind : ∀ l ∈ lines, StringDictionary.find
      (lines.map fun l => ((fields l).headD [], (fields l).getD 1 []))
      ((fields l).headD []) = some ((fields l).getD 1 []) := by
    intro l hl
    apply find_of_mem_nodup _ _ _ (by rw [hkeys]; exact hnd)
    exact List.mem_map.mpr ⟨l, hl, rfl⟩
  refine ⟨_, flag, hflag, ?_, ?_, ?_⟩
  · intro l hl k hk
    have := hfind l hl
    rw [hk] at this
    exact this
  · intro l hl k v rest hk
    have := hfind l hl
    rw [hk] at this
    exact this
  · intro k hk
    rw [hkeys] at hk
    obtain ⟨l, hl, rfl⟩ := List.mem_map.mp hk
    refine ⟨l, hl, ?_⟩
    cases hf : fields l with
    | nil => exact absurd hf (h l hl)
    | cons a t => rfl

/-- C10 at the rows `é<TAB>e`, `x` and ` ab  cd<TAB>e`. -/
theorem C10_rows_become_entries_witness :
    (∀ l ∈ [[0xC3, 0xA9, 9, 101], [120], [32, 97, 98, 32, 32, 99, 100, 9, 101]],
      fields l ≠ []) ∧
    ([[0xC3, 0xA9, 9, 101], [120], [32, 97, 98, 32, 32, 99, 100, 9, 101]].map
      fun l => (fields l).headD []).Nodup ∧
    ∃ d flag, CreateDictionary
        [[0xC3, 0xA9, 9, 101], [120], [32, 97, 98, 32, 32, 99, 100, 9, 101]] = .ok (d, flag) ∧
      (∀ l ∈ [[0xC3, 0xA9, 9, 101], [120], [32, 97, 98, 32, 32, 99, 100, 9, 101]],
        ∀ k, fields l = [k] → d.find k = some []) ∧
      (∀ l ∈ [[0xC3, 0xA9, 9, 101], [120], [32, 97, 98, 32, 32, 99, 100, 9, 101]],
        ∀ k v rest, fields l = k :: v :: rest → d.find k = some v) ∧
      (∀ k ∈ d.keys, ∃ l ∈ [[0xC3, 0xA9, 9, 101], [120],
        [32, 97, 98, 32, 32, 99, 100, 9, 101]], (fields l).head? = some k) :=
  ⟨by decide, by decide, C10_rows_become_entries _ (by decide) (by decide)⟩

/-! ## Byte classes, vectorized and scalar -/

theorem GetStartPoint_getD (chunk : Bytes) (i : Nat) :
    (GetStartPoint chunk).getD i 0 = GetStartPointByte (chunk.getD i 0) := by
  have h0 : (0 : Nat) = GetStartPointByte 0 := by decide
  unfold GetStartPoint
  conv_lhs => rw [h0]
  rw [List.getD_map]

theorem leadingOnes_table : ∀ b < 256,
    leadingOnes b =
      if b < 0x80 then 0 else if b < 0xC0 then 1 else if b < 0xE0 then 2
      else if b < 0xF0 then 3 else if b < 0xF8 then 4 else if b < 0xFC then 5
      else if b < 0xFE then 6 else if b < 0xFF then 7 else 8 := by decide

theorem signed_compare_table : ∀ b < 256,
    (toSigned8 (0xc2 - 1 - 0x80) < toSigned8 ((b + 0x80) % 256) ↔ 0xC2 ≤ b) ∧
    (toSigned8 (0xe0 - 1 - 0x80) < toSigned8 ((b + 0x80) % 256) ↔ 0xE0 ≤ b) ∧
    (toSigned8 (0xf0 - 1 - 0x80) < toSigned8 ((b + 0x80) % 256) ↔ 0xF0 ≤ b) := by decide

/-! ## The chunks of the dispatcher -/

/-- With a chunk size of at least 1 the reading loop ends: it launches one
task for every full chunk and one more for what is left, which is shorter
than a chunk and may be empty. -/
theorem ProcessByWorkers_loop_spec (k : Nat) (hk : 1 ≤ k) :
    ∀ (fuel : Nat) (r : Bytes) (workers : List Bytes), r.length < fuel →
      ∃ cs last,
        ProcessByWorkers.loop k fuel { rest := r, eofbit := false, failbit := false } workers =
          .ok (workers ++ cs ++ [last]) ∧
        cs.flatten ++ last = r ∧ (∀ c ∈ cs, c.length = k) ∧ last.length < k ∧
        cs.length = r.length / k := by
  intro fuel
  induction fuel with
  | zero => intro r workers h; omega
  | succ fuel ih =>
    intro r workers hfuel
    rw [ProcessByWorkers.loop]
    by_cases hfull : k ≤ r.length
    · have hread : IStream.read { rest := r, eofbit := false, failbit := false } k =
          (r.take k, { rest := r.drop k, eofbit := false, failbit := false }) := by
        simp [IStream.read, hfull]
      obtain ⟨cs, last, hloop, hcat, hlen, hlast, hcount⟩ :=
        ih (r.drop k) (workers ++ [r.take k]) (by simp only [List.length_drop]; omega)
      refine ⟨r.take k :: cs, last, ?_, ?_, ?_, hlast, ?_⟩
      · simp only [hread, Bool.not_false, Bool.and_self, if_true, hloop]
        simp
      · rw [List.flatten_cons, List.append_assoc, hcat, List.take_append_drop]
      · intro c hc
        rcases List.mem_cons.mp hc with rfl | hc
        · simp only [List.length_take]; omega
        · exact hlen c hc
      · rw [List.length_cons, hcount, List.length_drop, Nat.div_eq_sub_div (by omega) hfull]
    · have hread : IStream.read { rest := r, eofbit := false, failbit := false } k =
          (r, { rest := [], eofbit := true, failbit := true }) := by
        simp [IStream.read, hfull]
      refine ⟨[], r, ?_, by simp, by simp, by omega, ?_⟩
      · simp only [hread, Bool.not_false, Bool.and_self, if_true]
        cases fuel <;> simp [ProcessByWorkers.loop]
      · rw [List.length_nil, Nat.div_eq_of_lt (by omega)]

/-- A read of 0 bytes leaves a good stream good, so with chunk size 0 the
reading loop is still running after any number of iterations. -/
theorem ProcessByWorkers_loop_zero :
    ∀ (fuel : Nat) (r : Bytes) (workers : List Bytes),
      ProcessByWorkers.loop 0 fuel { rest := r, eofbit := false, failbit := false } workers =
        .error .fuel := by
  intro fuel
  induction fuel with
  | zero => intro r workers; simp [ProcessByWorkers.loop]
  | succ fuel ih =>
    intro r workers
    have hread : IStream.read { rest := r, eofbit := false, failbit := false } 0 =
        ([], { rest := r, eofbit := false, failbit := false }) := by
      simp [IStream.read]
    rw [ProcessByWorkers.loop]
    simp only [hread, Bool.not_false, Bool.and_self, if_true, ih]

/-- The number of tasks for `1 <= p <= L`: one per full chunk of
`L / p` bytes and one more, which is more than `p`. -/
theorem ProcessByWorkers_chunks_count (input : Bytes) (p : Nat) (hp : 1 ≤ p)
    (hL : p ≤ input.length) :
    ∃ cs, ProcessByWorkers.chunks input p = .ok cs ∧
      cs.length = input.length / (input.length / p) + 1 ∧ p < cs.length := by
  have hk : 1 ≤ input.length / p := (Nat.le_div_iff_mul_le (by omega)).2 (by omega)
  obtain ⟨cs, last, hloop, -, -, -, hcount⟩ :=
    ProcessByWorkers_loop_spec (input.length / p) hk (input.length + 1) input [] (by omega)
  refine ⟨cs ++ [last], ?_, ?_, ?_⟩
  · unfold ProcessByWorkers.chunks
    rw [if_neg (by omega)]
    simpa using hloop
  · simp [hcount]
  · have h1 : p ≤ input.length / (input.length / p) := by
      rw [Nat.le_div_iff_mul_le (by omega)]
      rw [Nat.mul_comm]
      exact Nat.div_mul_le_self _ _
    simp only [List.length_append, List.length_singleton, hcount]
    omega

/-! ## The claims on byte classes and on the dispatcher -/

/-- C11, as stated, fails: in a window of sixteen bytes `a` the byte at
position 0 has its top bit 0 and starts a 1-byte codepoint; the claim
expects class 1, `GetStartPoint` stores 0. -/
theorem C11_ascii_start_has_class_zero :
    (List.replicate 16 97).length = 16 ∧
    (List.replicate 16 97).getD 0 0 / 128 % 2 = 0 ∧
    isCodepoint [(List.replicate 16 97).getD 0 0] = true ∧
    (GetStartPoint (List.replicate 16 97)).getD 0 0 = 0 ∧
    (GetStartPoint (List.replicate 16 97)).getD 0 0 ≠ 1 := by
  decide

/-- C11, amended: for every 16-byte window and every position `i` in it,
`GetStartPoint` yields 0 when byte `i` is below `0xC2` (a byte whose top bit
is 0, a continuation byte, or `0xC0`, `0xC1`), the count of leading 1-bits
(2, 3 or 4) when it is a lead byte from `0xC2` to `0xF7`, and 4 when it is
`0xF8` or more. -/
theorem C11_start_point_classes (chunk : Bytes) (i : Nat) (hlen : chunk.length = 16)
    (hi : i < 16) (hb : chunk[i] < 256) :
    (chunk[i] < 0xC2 → (GetStartPoint chunk).getD i 0 = 0) ∧
    (0xC2 ≤ chunk[i] → chunk[i] < 0xF8 →
      (GetStartPoint chunk).getD i 0 = leadingOnes chunk[i] ∧
      2 ≤ (GetStartPoint chunk).getD i 0 ∧ (GetStartPoint chunk).getD i 0 ≤ 4) ∧
    (0xF8 ≤ chunk[i] → (GetStartPoint chunk).getD i 0 = 4) := by
  rw [GetStartPoint_getD, List.getD_eq_getElem chunk 0 (by omega),
    GetStartPointByte_table _ hb, leadingOnes_table _ hb]
  refine ⟨fun h => by rw [if_pos h], fun h1 h2 => ?_, fun h => ?_⟩
  · split_ifs <;> omega
  · split_ifs <;> omega

/-- C11, amended, at the window `abcdefghijklm` followed by the lead byte
`0xF0` and two continuation bytes, position 13. -/
theorem C11_start_point_classes_witness :
    [97, 98, 99, 100, 101, 102, 103, 104, 105, 106, 107, 108, 109, 0xF0, 0x9F, 0x98].length
      = 16 ∧ 13 < 16 ∧
    (GetStartPoint
      [97, 98, 99, 100, 101, 102, 103, 104, 105, 106, 107, 108, 109, 0xF0, 0x9F, 0x98]).getD
      13 0 = 4 :=
  ⟨by decide, by decide,
    ((C11_start_point_classes
      [97, 98, 99, 100, 101, 102, 103, 104, 105, 106, 107, 108, 109, 0xF0, 0x9F, 0x98] 13
      (by decide) (by decide) (by decide)).2.1 (by decide) (by decide)).1.trans (by decide)⟩

/-- C12: for every input of length `L` and parallelism `p` with
`1 <= p <= L`, `ProcessByWorkers` returns its chunks; concatenated in order
they are the input, every chunk but the last has `L / p` bytes and the last
has at most `L / p` bytes. -/
theorem C12_chunks_partition_input (input : Bytes) (p : Nat) (hp : 1 ≤ p)
    (hL : p ≤ input.length) :
    ∃ cs last, ProcessByWorkers.chunks input p = .ok (cs ++ [last]) ∧
      (cs ++ [last]).flatten = input ∧
      (∀ c ∈ cs, c.length = input.length / p) ∧ last.length ≤ input.length / p := by
  have hk : 1 ≤ input.length / p := (Nat.le_div_iff_mul_le (by omega)).2 (by omega)
  obtain ⟨cs, last, hloop, hcat, hlen, hlast, -⟩ :=
    ProcessByWorkers_loop_spec (input.length / p) hk (input.length + 1) input [] (by omega)
  refine ⟨cs, last, ?_, by simpa using hcat, hlen, by omega⟩
  unfold ProcessByWorkers.chunks
  rw [if_neg (by omega)]
  simpa using hloop

/-- C12 at an input of ten bytes and parallelism 3. -/
theorem C12_chunks_partition_input_witness :
    1 ≤ 3 ∧ 3 ≤ [0, 1, 2, 3, 4, 5, 6, 7, 8, 9].length ∧
    ∃ cs last, ProcessByWorkers.chunks [0, 1, 2, 3, 4, 5, 6, 7, 8, 9] 3 = .ok (cs ++ [last]) ∧
      (cs ++ [last]).flatten = [0, 1, 2, 3, 4, 5, 6, 7, 8, 9] ∧
      (∀ c ∈ cs, c.length = [0, 1, 2, 3, 4, 5, 6, 7, 8, 9].length / 3) ∧
      last.length ≤ [0, 1, 2, 3, 4, 5, 6, 7, 8, 9].length / 3 :=
  ⟨by decide, by decide, C12_chunks_partition_input _ 3 (by decide) (by decide)⟩

/-- C13 at failing inputs: ten bytes with parallelism 2 give three tasks
(5, 5 and 0 bytes), and ten bytes with parallelism 3 give four (3, 3, 3 and
1 bytes). -/
theorem C13_more_tasks_than_threads :
    ProcessByWorkers.chunks (List.replicate 10 97) 2 =
      .ok [List.replicate 5 97, List.replicate 5 97, []] ∧
    (ProcessByWorkers (List.replicate 10 97) 2 [] false).map List.length = .ok 3 ∧
    ProcessByWorkers.chunks (List.replicate 10 97) 3 =
      .ok [List.replicate 3 97, List.replicate 3 97, List.replicate 3 97, [97]] ∧
    (ProcessByWorkers (List.replicate 10 97) 3 [] false).map List.length = .ok 4 :=
  ⟨rfl, rfl, rfl, rfl⟩

/-- C16: for every byte value at any window position the class stored by
`GetStartPoint` is 0 below `0xC2`, 2 from `0xC2` to `0xDF`, 3 from `0xE0` to
`0xEF` and 4 from `0xF0`; each signed comparison of `threshold - 1 - 0x80`
against the byte plus `0x80` modulo 256 holds exactly when the byte is at
least the threshold. -/
theorem C16_signed_thresholds (chunk : Bytes) (i : Nat) (hi : i < chunk.length)
    (hb : chunk[i] < 256) :
    (GetStartPoint chunk).getD i 0 =
      (if chunk[i] < 0xC2 then 0 else if chunk[i] ≤ 0xDF then 2
       else if chunk[i] ≤ 0xEF then 3 else 4) ∧
    (toSigned8 (0xc2 - 1 - 0x80) < toSigned8 ((chunk[i] + 0x80) % 256) ↔ 0xC2 ≤ chunk[i]) ∧
    (toSigned8 (0xe0 - 1 - 0x80) < toSigned8 ((chunk[i] + 0x80) % 256) ↔ 0xE0 ≤ chunk[i]) ∧
    (toSigned8 (0xf0 - 1 - 0x80) < toSigned8 ((chunk[i] + 0x80) % 256) ↔ 0xF0 ≤ chunk[i]) := by
  refine ⟨?_, signed_compare_table _ hb⟩
  rw [GetStartPoint_getD, List.getD_eq_getElem chunk 0 hi, GetStartPointByte_table _ hb]
  split_ifs <;> first | rfl | omega

/-- C16 at the byte `0xE2` in position 1 of a window. -/
theorem C16_signed_thresholds_witness :
    1 < [97, 0xE2, 0x82, 0xAC].length ∧ [97, 0xE2, 0x82, 0xAC][1] < 256 ∧
    (GetStartPoint [97, 0xE2, 0x82, 0xAC]).getD 1 0 = 3 :=
  ⟨by decide, by decide,
    (C16_signed_thresholds [97, 0xE2, 0x82, 0xAC] 1 (by decide) (by decide)).1.trans
      (by decide)⟩

/-- C17, as stated, fails: `LeftmostBlockSize` returns 5 for `0xF8`, outside
the range from 2 to 4. -/
theorem C17_block_size_five : LeftmostBlockSize 0xF8 = 5 ∧ ¬ LeftmostBlockSize 0xF8 ≤ 4 := by
  decide

/-- C17, amended: for every byte value `LeftmostBlockSize` lies in the range
from 2 to 5, and is 5 for the bytes from `0xF8`; for every byte with exactly
2, 3 or 4 leading 1-bits it returns that count (`11010100` gives 2,
`11110011` gives 4). -/
theorem C17_block_size_range (b : Nat) (hb : b < 256) :
    (2 ≤ LeftmostBlockSize b ∧ LeftmostBlockSize b ≤ 5) ∧
    (0xF8 ≤ b → LeftmostBlockSize b = 5) ∧
    (2 ≤ leadingOnes b → leadingOnes b ≤ 4 → LeftmostBlockSize b = leadingOnes b) ∧
    LeftmostBlockSize 0xD4 = 2 ∧ LeftmostBlockSize 0xF3 = 4 := by
  refine ⟨LeftmostBlockSize_bounds b, fun h => ?_, fun h1 h2 => ?_, by decide, by decide⟩
  · rw [LeftmostBlockSize_table b hb (by omega)]
    split_ifs <;> first | rfl | omega
  · rw [leadingOnes_table b hb] at h1 h2 ⊢
    have h3 : 0xC0 ≤ b := by
      by_contra hlt
      split_ifs at h1 <;> omega
    rw [LeftmostBlockSize_table b hb h3]
    split_ifs at h2 ⊢ <;> first | rfl | omega

/-- C17, amended, at the byte `0xE2`. -/
theorem C17_block_size_range_witness :
    0xE2 < 256 ∧ LeftmostBlockSize 0xE2 = leadingOnes 0xE2 :=
  ⟨by decide, (C17_block_size_range 0xE2 (by decide)).2.2.1 (by decide) (by decide)⟩

/-- C18: for every valid lead byte of a multi-byte codepoint (`0xC2` to
`0xF4`), at any window position, the class `GetStartPoint` stores equals
`LeftmostBlockSize` of the byte. -/
theorem C18_classes_agree_on_lead_bytes (chunk : Bytes) (i : Nat)
    (h1 : 0xC2 ≤ chunk.getD i 0) (h2 : chunk.getD i 0 ≤ 0xF4) :
    (GetStartPoint chunk).getD i 0 = LeftmostBlockSize (chunk.getD i 0) := by
  rw [GetStartPoint_getD, GetStartPointByte_table _ (by omega),
    LeftmostBlockSize_table _ (by omega) (by omega)]
  split_ifs <;> first | rfl | omega

/-- C18 at the lead byte `0xF0` in position 13 of a window. -/
theorem C18_classes_agree_on_lead_bytes_witness :
    0xC2 ≤ [97, 98, 99, 100, 101, 102, 103, 104, 105, 106, 107, 108, 109, 0xF0, 0x9F,
      0x98].getD 13 0 ∧
    [97, 98, 99, 100, 101, 102, 103, 104, 105, 106, 107, 108, 109, 0xF0, 0x9F,
      0x98].getD 13 0 ≤ 0xF4 ∧
    (GetStartPoint [97, 98, 99, 100, 101, 102, 103, 104, 105, 106, 107, 108, 109, 0xF0, 0x9F,
      0x98]).getD 13 0 = LeftmostBlockSize ([97, 98, 99, 100, 101, 102, 103, 104, 105, 106,
        107, 108, 109, 0xF0, 0x9F, 0x98].getD 13 0) :=
  ⟨by decide, by decide, C18_classes_agree_on_lead_bytes _ 13 (by decide) (by decide)⟩

/-- C19 at failing inputs: the empty file, and a file of three bytes with
parallelism 8.  The chunk size is 0, every read of 0 bytes leaves the
stream good, and after any number of iterations the loop is still running:
it never ends and never takes a byte from the input. -/
theorem C19_reading_loop_never_ends (fuel : Nat) (workers : List Bytes) :
    ([] : Bytes).length / 4 = 0 ∧
    ProcessByWorkers.loop 0 fuel { rest := [], eofbit := false, failbit := false } workers =
      .error .fuel ∧
    [97, 98, 99].length / 8 = 0 ∧
    ProcessByWorkers.loop 0 fuel { rest := [97, 98, 99], eofbit := false, failbit := false }
      workers = .error .fuel ∧
    ProcessByWorkers.chunks [] 4 = .error .fuel ∧
    ProcessByWorkers.chunks [97, 98, 99] 8 = .error .fuel :=
  ⟨rfl, ProcessByWorkers_loop_zero fuel [] workers, rfl,
    ProcessByWorkers_loop_zero fuel _ workers, rfl, rfl⟩

/-- C20: for every input made of ASCII bytes only and every dictionary,
`Replace` with either value of `search_ascii` returns the input unchanged,
and so does `ReplaceCharByChar` when the input has at most 255 bytes; every
byte of the input has class 0 in `GetStartPoint`. -/
theorem C20_ascii_never_looked_up (s : Bytes) (d : StringDictionary)
    (h : ∀ b ∈ s, b < 0x80) :
    Replace s s.length d false = .ok s ∧ Replace s s.length d true = .ok s ∧
    (s.length ≤ 255 → ReplaceCharByChar s d = .ok s) ∧
    (∀ b ∈ s, GetStartPointByte b = 0) := by
  have hwf := WellFormed_ascii s h
  have hfit := Fits_singletons d s
  refine ⟨?_, ?_, fun hlen => ?_, fun b hb => ?_⟩
  · have := Replace_spec d (s.map fun b => [b]) false hwf hfit
    rwa [flatten_singletons, mapText_singletons] at this
  · have := Replace_spec d (s.map fun b => [b]) true hwf hfit
    rwa [flatten_singletons, mapText_singletons] at this
  · have := ReplaceCharByChar_spec d (s.map fun b => [b]) hwf
      (by rw [flatten_singletons]; exact hlen)
      (by rw [mapText_singletons]; exact hlen)
      (by rw [mapText_singletons, flatten_singletons]; omega)
    rwa [flatten_singletons, mapText_singletons] at this
  · have hb1 := h b hb
    rw [GetStartPointByte_table b (by omega), if_pos (by omega)]

/-- C20 at the input `axbxcxaxbxcxaxbxcxax` with the dictionary `x` to
`yyy`. -/
theorem C20_ascii_never_looked_up_witness :
    (∀ b ∈ [97, 120, 98, 120, 99, 120, 97, 120, 98, 120, 99, 120, 97, 120, 98, 120, 99, 120,
      97, 120], b < 0x80) ∧
    Replace [97, 120, 98, 120, 99, 120, 97, 120, 98, 120, 99, 120, 97, 120, 98, 120, 99, 120,
        97, 120] 20 [([120], [121, 121, 121])] true =
      .ok [97, 120, 98, 120, 99, 120, 97, 120, 98, 120, 99, 120, 97, 120, 98, 120, 99, 120,
        97, 120] :=
  ⟨by decide, (C20_ascii_never_looked_up _ [([120], [121, 121, 121])] (by decide)).2.1⟩

/-! ## The count of the resizes -/

/-- Dropping the count from a counted run of the inner loop gives the run
of `Replace.window`. -/
theorem windowCounted_erase (src : Bytes) (src_len : Nat) (d : StringDictionary) (cp : Nat)
    (sp : List Nat) :
    ∀ (fuel pic : Nat) (st : Cursors) (n : Nat),
      (Replace.windowCounted src src_len d cp sp fuel pic st n).map (fun r => (r.1, r.2.1)) =
        Replace.window src src_len d cp sp fuel pic st := by
  intro fuel
  induction fuel with
  | zero =>
    intro pic st n
    rw [Replace.windowCounted, Replace.window]
    split <;> rfl
  | succ fuel ih =>
    intro pic st n
    rw [Replace.windowCounted, Replace.window]
    by_cases hpic : pic < 16
    · simp only [hpic, if_true]
      by_cases hcl : sp.getD pic 0 = 0
      · simp only [hcl, ne_eq, not_true_eq_false, if_false, ih]
      · simp only [hcl, ne_eq, not_false_eq_true, if_true]
        cases hr : readBytes src (cp + pic) (sp.getD pic 0) with
        | error e => rfl
        | ok seek =>
          simp only
          cases hf : d.find seek with
          | none => simp only [ih]
          | some result =>
            simp only
            cases hfl : (if st.unwritten_bytes = 0 then Except.ok st
                else copySkipped src
                  { st with
                    dest := ReallocateIfNotEnough st.dest st.dst_cursor_position
                              (sub64 (st.unwritten_bytes + src_len) st.src_cursor_position) })
              with
            | error e => simp only [ite_not, hfl]; rfl
            | ok st1 =>
              simp only [ite_not, hfl]
              cases hm : memcpy st1.dest st1.dst_cursor_position result with
              | error e => rfl
              | ok dest2 => simp only [ih]
    · simp only [hpic, if_false]
      rfl

/-- Dropping the count from a counted run of the outer loop gives the run
of `Replace.loop`. -/
theorem loopCounted_erase (src : Bytes) (src_len : Nat) (d : StringDictionary) (flag : Bool) :
    ∀ (fuel cp : Nat) (st : Cursors) (n : Nat),
      (Replace.loopCounted src src_len d flag fuel cp st n).map (fun r => (r.1, r.2.1)) =
        Replace.loop src src_len d flag fuel cp st := by
  intro fuel
  induction fuel with
  | zero =>
    intro cp st n
    rw [Replace.loopCounted, Replace.loop]
    split
    · cases readBytes src cp 16 <;> rfl
    · rfl
  | succ fuel ih =>
    intro cp st n
    rw [Replace.loopCounted, Replace.loop]
    by_cases hc : 16 ≤ sub64 src_len cp
    · simp only [hc, if_true]
      cases hr : readBytes src cp 16 with
      | error e => rfl
      | ok chunk =>
        simp only
        by_cases hm : movemask_epi8 chunk = 0 ∧ flag = false
        · obtain ⟨hm1, hm2⟩ := hm
          subst hm2
          simp only [hm1, and_self, if_true]
          exact ih _ _ _
        · simp only [hm, if_false]
          have he := windowCounted_erase src src_len d cp (GetStartPoint chunk) 16 0 st n
          cases hw : Replace.windowCounted src src_len d cp (GetStartPoint chunk) 16 0 st n with
          | error e =>
            rw [hw] at he
            simp only [Except.map] at he
            simp only [← he]
            rfl
          | ok r =>
            obtain ⟨pic1, st1, n1⟩ := r
            rw [hw] at he
            simp only [Except.map] at he
            simp only [← he, ih]
    · simp only [hc, if_false]
      rfl

/-- On a window whose start points are all 0 the counted inner loop only
counts the bytes as unwritten; the count of the resizes stays. -/
theorem windowCounted_all_zero (src : Bytes) (src_len : Nat) (d : StringDictionary) (cp : Nat)
    (sp : List Nat) (hsp : ∀ i, sp.getD i 0 = 0) :
    ∀ (k fuel pic : Nat) (st : Cursors) (n : Nat), pic + k = 16 → k ≤ fuel →
      Replace.windowCounted src src_len d cp sp fuel pic st n =
        .ok (16, { st with unwritten_bytes := st.unwritten_bytes + k }, n) := by
  intro k
  induction k with
  | zero =>
    intro fuel pic st n hp _
    have : pic = 16 := by omega
    subst this
    cases fuel <;> simp [Replace.windowCounted]
  | succ k ih =>
    intro fuel pic st n hp hf
    obtain ⟨fuel, rfl⟩ : ∃ f, fuel = f + 1 := ⟨fuel - 1, by omega⟩
    have hlt : pic < 16 := by omega
    rw [Replace.windowCounted]
    simp only [hlt, if_true, hsp pic, ne_eq, not_true_eq_false, if_false]
    rw [ih fuel (pic + 1) _ n (by omega) (by omega)]
    simp only [Nat.add_assoc, Nat.add_comm 1 k]

/-- The flag does not change what the counted outer loop computes. -/
theorem loopCounted_flag (src : Bytes) (src_len : Nat) (d : StringDictionary) :
    ∀ (fuel cp : Nat) (st : Cursors) (n : Nat),
      Replace.loopCounted src src_len d false fuel cp st n =
        Replace.loopCounted src src_len d true fuel cp st n := by
  intro fuel
  induction fuel with
  | zero => intro cp st n; simp only [Replace.loopCounted]
  | succ fuel ih =>
    intro cp st n
    rw [Replace.loopCounted, Replace.loopCounted]
    by_cases hc : 16 ≤ sub64 src_len cp
    · simp only [hc, if_true]
      cases hr : readBytes src cp 16 with
      | error e => rfl
      | ok chunk =>
        simp only
        by_cases hm : movemask_epi8 chunk = 0
        · have hw := windowCounted_all_zero src src_len d cp (GetStartPoint chunk)
            (movemask_zero_start_points chunk hm) 16 16 0 st n (by omega) (by omega)
          simp only [hm, true_and, if_true, hw, Bool.true_eq_false, and_false, if_false, ih]
        · simp only [hm, false_and, if_false, ih]
    · simp only [hc, if_false]

/-- Under the invariant the test of `ReallocateIfNotEnough` fails: the
buffer has room for the pending bytes and the rest of the source. -/
theorem no_resize_of_inv (src : Bytes) (d : StringDictionary) (done : List Bytes)
    (st : Cursors) (post : Bytes) (hs : src = done.flatten ++ post)
    (hinv : ReplaceInv src d done st) :
    ¬ sub64 st.dest.length st.dst_cursor_position <
      sub64 (st.unwritten_bytes + src.length) st.src_cursor_position := by
  obtain ⟨hpos, -, hcap⟩ := hinv
  have hsl : src.length = done.flatten.length + post.length := by rw [hs, List.length_append]
  rw [sub64_of_le _ _ (by omega), sub64_of_le _ _ (by omega)]
  omega

/-- One iteration of the counted inner loop at the start of a well-formed
codepoint `u`: as `window_step`, and neither the count of the resizes nor
the length of the buffer changes. -/
theorem windowCounted_step (src : Bytes) (d : StringDictionary) (cp : Nat) (sp : List Nat)
    (done : List Bytes) (u post : Bytes) (fuel pic : Nat) (st : Cursors) (n : Nat)
    (hs : src = done.flatten ++ u ++ post) (hu : isCodepoint u = true)
    (hfit : (codeRule d u).length ≤ 2 * u.length)
    (hpos : cp + pic = done.flatten.length) (hpic : pic < 16)
    (hsp : sp.getD pic 0 = GetStartPointByte (src.getD (cp + pic) 0))
    (hinv : ReplaceInv src d done st) :
    ∃ st1, Replace.windowCounted src src.length d cp sp (fuel + 1) pic st n =
        Replace.windowCounted src src.length d cp sp fuel (pic + u.length) st1 n ∧
      ReplaceInv src d (done ++ [u]) st1 ∧ st1.dest.length = st.dest.length := by
  have hsl : src.length = done.flatten.length + u.length + post.length := by
    rw [hs]; simp only [List.length_append]
  have hdone : (done ++ [u]).flatten.length = done.flatten.length + u.length := by
    simp
  have hmt : mapText (codeRule d) (done ++ [u]) = mapText (codeRule d) done ++ codeRule d u := by
    rw [mapText_append, mapText_cons, mapText_nil, List.append_nil]
  have hnr := no_resize_of_inv src d done st (u ++ post) (by rw [hs, List.append_assoc]) hinv
  obtain ⟨hp, hout, hcap⟩ := hinv
  have hext := take_extend src done.flatten u post st.src_cursor_position st.unwritten_bytes hs hp
  obtain ⟨b, tl, rfl, hshape⟩ := isCodepoint_shape hu
  have hget : src.getD (cp + pic) 0 = b := by
    rw [hs, hpos]; simp only [List.cons_append, List.append_assoc]; exact getD_mid _ b _
  have hread : readBytes src (cp + pic) (b :: tl).length = .ok (b :: tl) :=
    readBytes_at src done.flatten (b :: tl) post _ _ hs hpos rfl
  rw [hget] at hsp
  rw [Replace.windowCounted]
  rcases hshape with ⟨rfl, hb⟩ | ⟨hb1, hb2, hl2, hl4, hgsp, -⟩
  · have hcls : GetStartPointByte b = 0 := by
      rw [GetStartPointByte_table b (by omega), if_pos (by omega)]
    rw [hcls] at hsp
    refine ⟨{ st with unwritten_bytes := st.unwritten_bytes + 1 }, ?_, ⟨?_, ?_, ?_⟩, rfl⟩
    · simp only [hpic, if_true, hsp, ne_eq, not_true_eq_false, if_false, List.length_singleton]
    · simp only [hdone, List.length_singleton]; omega
    · simp only [hmt, codeRule_single]
      rw [← hout, List.append_assoc]
      congr 1
    · exact hcap
  · rw [hgsp] at hsp
    have hne : (b :: tl).length ≠ 0 := by omega
    simp only [hpic, if_true, hsp, hne, ne_eq, not_false_eq_true, hread]
    cases hf : d.find (b :: tl) with
    | none =>
      refine ⟨{ st with unwritten_bytes := st.unwritten_bytes + (b :: tl).length }, rfl,
        ⟨?_, ?_, ?_⟩, rfl⟩
      · simp only [hdone]; omega
      · simp only [hmt, codeRule_miss d _ hf]
        rw [← hout, List.append_assoc]
        congr 1
      · exact hcap
    | some v =>
      rw [codeRule_hit d _ v hl2 hf] at hfit hmt
      obtain ⟨st1, hfl, hsc1, hdc1, hdl1, hdt1⟩ := flush_on_hit src d done st ((b :: tl) ++ post)
        (by rw [hs, List.append_assoc]) ⟨hp, hout, hcap⟩
      obtain ⟨dest2, hm, hl, ht⟩ := memcpy_ok st1.dest st1.dst_cursor_position v (by omega)
      refine ⟨{ src_cursor_position := st1.src_cursor_position + (b :: tl).length,
                dst_cursor_position := st1.dst_cursor_position + v.length,
                unwritten_bytes := 0, dest := dest2 }, ?_, ⟨?_, ?_, ?_⟩, ?_⟩
      · simp only [ne_eq] at hfl
        simp only [hfl, hm, hnr, and_false, if_false]
      · simp only [hdone]; omega
      · simp only [hmt, ht, hdt1, List.take_zero, List.append_nil]
      · simp only [hl, hdl1, hsc1, hdc1]; omega
      · simp only [hl, hdl1]

/-- The counted inner loop under the hypotheses of `window_spec`: it ends
with the invariant kept, the count of the resizes unchanged and the buffer
as long as before. -/
theorem windowCounted_spec (src : Bytes) (d : StringDictionary) (cp : Nat) (sp : List Nat)
    (hcp : cp + 16 ≤ src.length)
    (hsp : ∀ i, i < 16 → sp.getD i 0 = GetStartPointByte (src.getD (cp + i) 0)) :
    ∀ (fuel pic : Nat) (st : Cursors) (n : Nat) (done rest : List Bytes),
      src = done.flatten ++ rest.flatten → WellFormed rest → Fits d rest →
      cp + pic = done.flatten.length → ReplaceInv src d done st → 16 ≤ fuel + pic →
      ∃ pic1 st1 mid rest1, rest = mid ++ rest1 ∧
        Replace.windowCounted src src.length d cp sp fuel pic st n = .ok (pic1, st1, n) ∧
        cp + pic1 = (done ++ mid).flatten.length ∧ 16 ≤ pic1 ∧
        ReplaceInv src d (done ++ mid) st1 ∧ st1.dest.length = st.dest.length := by
  intro fuel
  induction fuel with
  | zero =>
    intro pic st n done rest _ _ _ hpos hinv hf
    refine ⟨pic, st, [], rest, rfl, ?_, by simpa using hpos, by omega, by simpa using hinv, rfl⟩
    have : ¬ pic < 16 := by omega
    simp [Replace.windowCounted, this]
  | succ fuel ih =>
    intro pic st n done rest hs hwf hfit hpos hinv hf
    by_cases hpic : pic < 16
    · have hsl : src.length = done.flatten.length + rest.flatten.length := by
        rw [hs, List.length_append]
      match rest, hs, hwf, hfit, hsl with
      | [], _, _, _, hsl =>
        simp only [List.flatten_nil, List.length_nil] at hsl; omega
      | u :: rest1, hs, hwf, hfit, _ =>
        have hu : isCodepoint u = true := hwf u (List.mem_cons_self _ _)
        have hwf1 : WellFormed rest1 := fun w hw => hwf w (List.mem_cons_of_mem _ hw)
        have hfit1 : Fits d rest1 := fun w hw => hfit w (List.mem_cons_of_mem _ hw)
        have hs1 : src = done.flatten ++ u ++ rest1.flatten := by
          rw [hs]; simp
        obtain ⟨st1, hstep, hinv1, hlen1⟩ := windowCounted_step src d cp sp done u
          rest1.flatten fuel pic st n hs1 hu (hfit u (List.mem_cons_self _ _)) hpos hpic
          (hsp pic hpic) hinv
        have hupos := isCodepoint_length_pos hu
        obtain ⟨pic2, st2, mid, rest2, hrest, hw, hpos2, hge, hinv2, hlen2⟩ :=
          ih (pic + u.length) st1 n (done ++ [u]) rest1 (by rw [hs]; simp) hwf1 hfit1
            (by rw [List.flatten_append, List.length_append]
                simp only [List.flatten_cons, List.flatten_nil, List.append_nil]; omega)
            hinv1 (by omega)
        refine ⟨pic2, st2, u :: mid, rest2, by rw [hrest]; rfl, by rw [hstep, hw], ?_, hge, ?_,
          by rw [hlen2, hlen1]⟩
        · simpa using hpos2
        · simpa using hinv2
    · refine ⟨pic, st, [], rest, rfl, ?_, by simpa using hpos, by omega, by simpa using hinv,
        rfl⟩
      simp [Replace.windowCounted, hpic]

/-- The counted outer loop under the hypotheses of `loop_spec`, with the
flag set: it ends with the invariant kept, the count of the resizes
unchanged and the buffer as long as before. -/
theorem loopCounted_spec (src : Bytes) (d : StringDictionary) :
    ∀ (fuel cp : Nat) (st : Cursors) (n : Nat) (done rest : List Bytes),
      src = done.flatten ++ rest.flatten → WellFormed rest → Fits d rest →
      cp = done.flatten.length → ReplaceInv src d done st →
      rest.flatten.length ≤ 16 * fuel + 15 →
      ∃ cp1 st1, Replace.loopCounted src src.length d true fuel cp st n = .ok (cp1, st1, n) ∧
        st1.dest.length = st.dest.length := by
  intro fuel
  induction fuel with
  | zero =>
    intro cp st n done rest hs _ _ hcp hinv hf
    have hsl : src.length = done.flatten.length + rest.flatten.length := by
      rw [hs, List.length_append]
    refine ⟨cp, st, ?_, rfl⟩
    rw [Replace.loopCounted, sub64_of_le _ _ (by omega), if_neg (by omega)]
  | succ fuel ih =>
    intro cp st n done rest hs hwf hfit hcp hinv hf
    have hsl : src.length = done.flatten.length + rest.flatten.length := by
      rw [hs, List.length_append]
    by_cases hc : 16 ≤ rest.flatten.length
    · have hread := readBytes_inside src cp 16 (by omega)
      obtain ⟨pic1, st1, mid, rest1, hrest, hw, hpos1, hge, hinv1, hlen1⟩ :=
        windowCounted_spec src d cp (GetStartPoint ((src.drop cp).take 16)) (by omega)
          (fun i hi => start_points_window src cp i hi) 16 0 st n done rest hs hwf hfit
          (by omega) hinv (by omega)
      have hwf1 : WellFormed rest1 := fun w hw1 =>
        hwf w (by rw [hrest]; exact List.mem_append_right _ hw1)
      have hfit1 : Fits d rest1 := fun w hw1 =>
        hfit w (by rw [hrest]; exact List.mem_append_right _ hw1)
      have hlen : rest.flatten.length = mid.flatten.length + rest1.flatten.length := by
        rw [hrest, List.flatten_append, List.length_append]
      have hdm : (done ++ mid).flatten.length = done.flatten.length + mid.flatten.length := by
        rw [List.flatten_append, List.length_append]
      obtain ⟨cp2, st2, hl2, hlen2⟩ :=
        ih (cp + pic1) st1 n (done ++ mid) rest1
          (by rw [hs, hrest]; simp only [List.flatten_append, List.append_assoc])
          hwf1 hfit1 hpos1 hinv1 (by omega)
      refine ⟨cp2, st2, ?_, by rw [hlen2, hlen1]⟩
      rw [Replace.loopCounted, sub64_of_le _ _ (by omega), if_pos (by omega), hread]
      simp only [Bool.true_eq_false, and_false, if_false, hw, hl2]
    · refine ⟨cp, st, ?_, rfl⟩
      rw [Replace.loopCounted, sub64_of_le _ _ (by omega), if_neg (by omega)]

theorem codeRule_eq_specRule (d : StringDictionary) (hd : NoAsciiKey d) (u : Bytes)
    (hu : isCodepoint u = true) : codeRule d u = specRule d u := by
  unfold codeRule
  split
  · next h1 =>
    obtain ⟨b, tl, rfl, hshape⟩ := isCodepoint_shape hu
    rcases hshape with ⟨rfl, hb⟩ | ⟨-, -, hl2, -⟩
    · unfold specRule
      rw [hd b hb]
    · omega
  · rfl

theorem mapText_code_eq_spec (d : StringDictionary) (hd : NoAsciiKey d) (us : List Bytes)
    (hwf : WellFormed us) : mapText (codeRule d) us = mapText (specRule d) us :=
  mapText_congr _ _ us fun u hu => codeRule_eq_specRule d hd u (hwf u hu)

theorem Fits_of_ValuesShort (d : StringDictionary) (us : List Bytes) (h : ValuesShort d) :
    Fits d us :=
  Fits_of_ValuesFit d us fun k v hf => by have := h k v hf; omega

/-- A check of `NoAsciiKey` key by key. -/
theorem NoAsciiKey_of_keys (d : StringDictionary) (h : ∀ k ∈ d.keys, k.length ≠ 1) :
    NoAsciiKey d := by
  intro b _
  apply find_none_of_not_mem
  intro hmem
  exact h [b] hmem rfl

/-- A check of `ValuesShort` entry by entry. -/
theorem ValuesShort_of_entries (d : StringDictionary)
    (h : ∀ p ∈ d, p.2.length ≤ p.1.length) : ValuesShort d := by
  induction d with
  | nil => intro k v hf; simp [StringDictionary.find] at hf
  | cons p t ih =>
    intro k v hf
    obtain ⟨k0, v0⟩ := p
    rw [find_cons] at hf
    by_cases hk : k = k0
    · rw [if_pos hk] at hf
      injection hf with hf
      subst hf; subst hk
      exact h (k, v0) (List.mem_cons_self _ _)
    · rw [if_neg hk] at hf
      exact ih (fun q hq => h q (List.mem_cons_of_mem _ hq)) k v hf

/-! ## The claims on the run of `Replace` -/

/-- C14: for every well-formed UTF-8 input `u1 ... un` and every dictionary
in which no key is a single ASCII byte and no value is longer than its key,
`Replace` with either value of the flag returns `g(u1) ++ ... ++ g(un)`,
where `g(u)` is the dictionary value when `u` is a key and `u` otherwise;
the run stays inside its buffer of `2 * |s|` bytes: the loop ends without a
fault, with no resize counted and the buffer still `2 * |s|` bytes long. -/
theorem C14_replace_within_initial_buffer (d : StringDictionary) (us : List Bytes)
    (flag : Bool) (hwf : WellFormed us) (hk : NoAsciiKey d) (hv : ValuesShort d) :
    Replace us.flatten us.flatten.length d flag = .ok (mapText (specRule d) us) ∧
    ∃ cp st,
      Replace.loopCounted us.flatten us.flatten.length d flag (us.flatten.length + 1) 0
        { src_cursor_position := 0, dst_cursor_position := 0, unwritten_bytes := 0,
          dest := List.replicate (us.flatten.length * 2) 0 } 0 = .ok (cp, st, 0) ∧
      st.dest.length = 2 * us.flatten.length := by
  have hfit := Fits_of_ValuesShort d us hv
  constructor
  · rw [Replace_spec d us flag hwf hfit, mapText_code_eq_spec d hk us hwf]
  · have hinv0 : ReplaceInv us.flatten d []
        { src_cursor_position := 0, dst_cursor_position := 0, unwritten_bytes := 0,
          dest := List.replicate (us.flatten.length * 2) 0 } :=
      ⟨rfl, by simp [mapText_nil], by simp only [List.length_replicate]; omega⟩
    obtain ⟨cp1, st1, hloop, hlen⟩ :=
      loopCounted_spec us.flatten d (us.flatten.length + 1) 0 _ 0 [] us (by simp) hwf hfit rfl
        hinv0 (by omega)
    refine ⟨cp1, st1, ?_, by rw [hlen, List.length_replicate]; omega⟩
    cases flag
    · rw [loopCounted_flag]; exact hloop
    · exact hloop

/-- C14 at the Persian dictionary of the spec and a text of twenty
codepoints, with the ASCII skip enabled. -/
theorem C14_replace_within_initial_buffer_witness :
    WellFormed (List.replicate 5 [0xD8, 0xA2] ++ List.replicate 10 [97] ++
      List.replicate 5 [0xD9, 0x8A]) ∧
    NoAsciiKey [([0xD8, 0xA2], [0xD8, 0xA7]), ([0xD9, 0x8A], [0xDB, 0x8C])] ∧
    ValuesShort [([0xD8, 0xA2], [0xD8, 0xA7]), ([0xD9, 0x8A], [0xDB, 0x8C])] ∧
    Replace (List.replicate 5 [0xD8, 0xA2] ++ List.replicate 10 [97] ++
        List.replicate 5 [0xD9, 0x8A]).flatten
      (List.replicate 5 [0xD8, 0xA2] ++ List.replicate 10 [97] ++
        List.replicate 5 [0xD9, 0x8A]).flatten.length
      [([0xD8, 0xA2], [0xD8, 0xA7]), ([0xD9, 0x8A], [0xDB, 0x8C])] false =
      .ok (List.replicate 5 [0xD8, 0xA7] ++ List.replicate 10 [97] ++
        List.replicate 5 [0xDB, 0x8C]).flatten :=
  ⟨by unfold WellFormed; decide, NoAsciiKey_of_keys _ (by decide),
    ValuesShort_of_entries _ (by decide),
    (C14_replace_within_initial_buffer _ _ false (by unfold WellFormed; decide)
      (NoAsciiKey_of_keys _ (by decide)) (ValuesShort_of_entries _ (by decide))).1.trans rfl⟩

/-! ## Positions of the windows -/

/-- The state in which `Replace.loop` is left is the last of the heads. -/
theorem loop_ok_getLast (src : Bytes) (src_len : Nat) (d : StringDictionary) (flag : Bool) :
    ∀ (fuel cp : Nat) (st : Cursors) (r : Nat × Cursors),
      Replace.loop src src_len d flag fuel cp st = .ok r →
      r ∈ Replace.heads src src_len d flag fuel cp st := by
  intro fuel
  induction fuel with
  | zero =>
    intro cp st r h
    rw [Replace.loop] at h
    split at h
    · split at h <;> cases h
    · injection h with h
      rw [← h, Replace.heads]
      exact List.mem_singleton_self _
  | succ fuel ih =>
    intro cp st r h
    rw [Replace.loop] at h
    rw [Replace.heads]
    by_cases hc : 16 ≤ sub64 src_len cp
    · rw [if_pos hc] at h ⊢
      apply List.mem_cons_of_mem
      cases hr : readBytes src cp 16 with
      | error e => rw [hr] at h; cases h
      | ok chunk =>
        rw [hr] at h
        simp only at h ⊢
        by_cases hm : movemask_epi8 chunk = 0 ∧ flag = false
        · rw [if_pos hm] at h ⊢
          exact ih _ _ _ h
        · rw [if_neg hm] at h ⊢
          cases hw : Replace.window src src_len d cp (GetStartPoint chunk) 16 0 st with
          | error e => rw [hw] at h; cases h
          | ok p =>
            rw [hw] at h
            exact ih _ _ _ h
    · rw [if_neg hc] at h ⊢
      injection h with h
      rw [← h]
      exact List.mem_cons_self _ _

/-- One iteration of the inner loop at the start of a well-formed codepoint
`u`, for any dictionary: if the loop returns, it has moved past `u`, and
the cursors still add up to the position. -/
theorem window_step_position (src : Bytes) (d : StringDictionary) (cp : Nat) (sp : List Nat)
    (pre u post : Bytes) (fuel pic : Nat) (st : Cursors) (r : Nat × Cursors)
    (hs : src = pre ++ u ++ post) (hu : isCodepoint u = true)
    (hpos : cp + pic = pre.length) (hpic : pic < 16)
    (hsp : sp.getD pic 0 = GetStartPointByte (src.getD (cp + pic) 0))
    (hsum : st.src_cursor_position + st.unwritten_bytes = cp + pic)
    (h : Replace.window src src.length d cp sp (fuel + 1) pic st = .ok r) :
    ∃ st1, Replace.window src src.length d cp sp fuel (pic + u.length) st1 = .ok r ∧
      st1.src_cursor_position + st1.unwritten_bytes = cp + (pic + u.length) := by
  obtain ⟨b, tl, rfl, hshape⟩ := isCodepoint_shape hu
  have hget : src.getD (cp + pic) 0 = b := by
    rw [hs, hpos]; simp only [List.cons_append, List.append_assoc]; exact getD_mid _ b _
  have hread : readBytes src (cp + pic) (b :: tl).length = .ok (b :: tl) :=
    readBytes_at src pre (b :: tl) post _ _ hs hpos rfl
  rw [hget] at hsp
  rw [Replace.window] at h
  rcases hshape with ⟨rfl, hb⟩ | ⟨hb1, hb2, hl2, hl4, hgsp, -⟩
  · have hcls : GetStartPointByte b = 0 := by
      rw [GetStartPointByte_table b (by omega), if_pos (by omega)]
    rw [hcls] at hsp
    simp only [hpic, if_true, hsp, ne_eq, not_true_eq_false, if_false] at h
    exact ⟨_, h, by simp only [List.length_singleton]; omega⟩
  · rw [hgsp] at hsp
    have hne : (b :: tl).length ≠ 0 := by omega
    simp only [hpic, if_true, hsp, hne, ne_eq, not_false_eq_true, hread] at h
    cases hf : d.find (b :: tl) with
    | none =>
      simp only [hf] at h
      exact ⟨_, h, by simp only; omega⟩
    | some v =>
      simp only [hf] at h
      by_cases hz : st.unwritten_bytes = 0
      · simp only [hz, not_true_eq_false, if_false] at h
        split at h
        · cases h
        · exact ⟨_, h, by simp only; omega⟩
      · simp only [hz, not_false_eq_true, if_true] at h
        split at h
        · cases h
        · next st1 hfl =>
          have hst1 : st1.src_cursor_position =
              st.src_cursor_position + st.unwritten_bytes := by
            unfold copySkipped at hfl
            split at hfl
            · cases hfl
            · split at hfl
              · cases hfl
              · injection hfl with hfl
                rw [← hfl]
          split at h
          · cases h
          · exact ⟨_, h, by simp only; omega⟩

/-- The inner loop started at a codepoint boundary inside the window, for
any dictionary: if it returns, it has stopped right after the last
codepoint that starts inside the window. -/
theorem window_position (src : Bytes) (d : StringDictionary) (cp : Nat) (sp : List Nat)
    (hcp : cp + 16 ≤ src.length)
    (hsp : ∀ i, i < 16 → sp.getD i 0 = GetStartPointByte (src.getD (cp + i) 0)) :
    ∀ (fuel pic : Nat) (st : Cursors) (pre : Bytes) (rest : List Bytes) (pic1 : Nat)
      (st1 : Cursors),
      src = pre ++ rest.flatten → WellFormed rest → cp + pic = pre.length →
      st.src_cursor_position + st.unwritten_bytes = cp + pic → pic < 16 →
      Replace.window src src.length d cp sp fuel pic st = .ok (pic1, st1) →
      ∃ mid u rest1, rest = mid ++ u :: rest1 ∧ pic + mid.flatten.length < 16 ∧
        16 ≤ pic + mid.flatten.length + u.length ∧
        pic1 = pic + mid.flatten.length + u.length ∧
        st1.src_cursor_position + st1.unwritten_bytes = cp + pic1 := by
  intro fuel
  induction fuel with
  | zero =>
    intro pic st pre rest pic1 st1 _ _ _ _ hpic h
    rw [Replace.window, if_pos hpic] at h
    cases h
  | succ fuel ih =>
    intro pic st pre rest pic1 st1 hs hwf hpos hsum hpic h
    have hsl : src.length = pre.length + rest.flatten.length := by
      rw [hs, List.length_append]
    match rest, hs, hwf, hsl with
    | [], _, _, hsl =>
      simp only [List.flatten_nil, List.length_nil] at hsl; omega
    | u :: rest0, hs, hwf, _ =>
      have hu : isCodepoint u = true := hwf u (List.mem_cons_self _ _)
      have hwf0 : WellFormed rest0 := fun w hw => hwf w (List.mem_cons_of_mem _ hw)
      have hs1 : src = pre ++ u ++ rest0.flatten := by
        rw [hs]; simp
      obtain ⟨st2, hw2, hsum2⟩ := window_step_position src d cp sp pre u rest0.flatten fuel
        pic st (pic1, st1) hs1 hu hpos hpic (hsp pic hpic) hsum h
      by_cases hnext : pic + u.length < 16
      · obtain ⟨mid, v, rest1, hrest, hlt, hge, hp1, hs1f⟩ :=
          ih (pic + u.length) st2 (pre ++ u) rest0 pic1 st1 (by rw [hs1])
            hwf0 (by rw [List.length_append]; omega) hsum2 hnext hw2
        refine ⟨u :: mid, v, rest1, by rw [hrest]; rfl, ?_, ?_, ?_, hs1f⟩
        · rw [List.flatten_cons, List.length_append]; omega
        · rw [List.flatten_cons, List.length_append]; omega
        · rw [List.flatten_cons, List.length_append]; omega
      · have hdone : Replace.window src src.length d cp sp fuel (pic + u.length) st2 =
            .ok (pic + u.length, st2) := by
          cases fuel <;> simp [Replace.window, hnext]
        rw [hdone] at hw2
        injection hw2 with hw2
        injection hw2 with hp hst
        subst hst
        refine ⟨[], u, rest0, rfl, by simpa using hpic, by simp; omega, by simp; omega, ?_⟩
        rw [← hp]; exact hsum2

theorem heads_head (src : Bytes) (src_len : Nat) (d : StringDictionary) (flag : Bool)
    (fuel cp : Nat) (st : Cursors) :
    (Replace.heads src src_len d flag fuel cp st).head? = some (cp, st) := by
  cases fuel <;> rw [Replace.heads] <;> rfl

/-- The relation `NextWindow` from the decomposition of the text. -/
theorem nextWindow_intro (us done mid : List Bytes) (u : Bytes) (rest : List Bytes)
    (hwf : WellFormed us) (hus : us = done ++ mid ++ u :: rest)
    (hlt : mid.flatten.length < 16) (hge : 16 ≤ mid.flatten.length + u.length) :
    NextWindow us done.flatten.length (done.flatten.length + mid.flatten.length + u.length) := by
  refine ⟨done, mid, u, rest, hus, rfl, hlt, hge, rfl, fun h2 => ?_⟩
  have hu : isCodepoint u = true := hwf u (by rw [hus]; simp)
  have hs : us.flatten = (done.flatten ++ mid.flatten) ++ u ++ rest.flatten := by
    rw [hus]; simp
  have hread : readBytes us.flatten (done.flatten.length + mid.flatten.length) u.length =
      .ok u :=
    readBytes_at us.flatten (done.flatten ++ mid.flatten) u rest.flatten _ _ hs
      (by rw [List.length_append]) rfl
  refine ⟨?_, hread⟩
  rw [start_points_window us.flatten _ _ hlt]
  obtain ⟨b, tl, rfl, hshape⟩ := isCodepoint_shape hu
  have hget : us.flatten.getD (done.flatten.length + mid.flatten.length) 0 = b := by
    have hs2 : us.flatten = (done.flatten ++ mid.flatten) ++ b :: (tl ++ rest.flatten) := by
      rw [hs]; simp
    rw [hs2, ← List.length_append]
    exact getD_mid _ b _
  rw [hget]
  rcases hshape with ⟨rfl, -⟩ | ⟨-, -, -, -, hgsp, -⟩
  · simp at h2
  · exact hgsp

/-- The heads of the outer loop on a well-formed text, for any dictionary
and either value of the flag: every head is at a codepoint boundary inside
the source with the cursors adding up to it, and consecutive heads are
related by `NextWindow`. -/
theorem heads_spec (us : List Bytes) (d : StringDictionary) (flag : Bool)
    (hwf : WellFormed us) :
    ∀ (fuel cp : Nat) (st : Cursors) (done rest : List Bytes),
      us = done ++ rest → cp = done.flatten.length →
      st.src_cursor_position + st.unwritten_bytes = cp →
      (∀ x ∈ Replace.heads us.flatten us.flatten.length d flag fuel cp st,
        Boundary us x.1 ∧ x.1 ≤ us.flatten.length ∧
        x.2.src_cursor_position + x.2.unwritten_bytes = x.1) ∧
      List.Chain' (fun x y => NextWindow us x.1 y.1)
        (Replace.heads us.flatten us.flatten.length d flag fuel cp st) := by
  intro fuel
  induction fuel with
  | zero =>
    intro cp st done rest hus hcp hsum
    have hsl : us.flatten.length = done.flatten.length + rest.flatten.length := by
      rw [hus, List.flatten_append, List.length_append]
    rw [Replace.heads]
    refine ⟨fun x hx => ?_, List.chain'_singleton _⟩
    rw [List.mem_singleton.mp hx]
    exact ⟨⟨done, rest, hus, hcp⟩, by simp only; omega, hsum⟩
  | succ fuel ih =>
    intro cp st done rest hus hcp hsum
    have hsl : us.flatten.length = done.flatten.length + rest.flatten.length := by
      rw [hus, List.flatten_append, List.length_append]
    have hhere : Boundary us cp ∧ cp ≤ us.flatten.length ∧
        st.src_cursor_position + st.unwritten_bytes = cp :=
      ⟨⟨done, rest, hus, hcp⟩, by omega, hsum⟩
    -- what follows the first head: nothing, or the heads from the next window on
    have htail : ∀ T : List (Nat × Cursors),
        (T = [] ∨ ∃ pic1 st1, 16 ≤ us.flatten.length - cp ∧
          Replace.window us.flatten us.flatten.length d cp
            (GetStartPoint ((us.flatten.drop cp).take 16)) 16 0 st = .ok (pic1, st1) ∧
          T = Replace.heads us.flatten us.flatten.length d flag fuel (cp + pic1) st1) →
        (∀ x ∈ (cp, st) :: T, Boundary us x.1 ∧ x.1 ≤ us.flatten.length ∧
          x.2.src_cursor_position + x.2.unwritten_bytes = x.1) ∧
        List.Chain' (fun x y => NextWindow us x.1 y.1) ((cp, st) :: T) := by
      intro T hT
      rcases hT with rfl | ⟨pic1, st1, hroom, hw, rfl⟩
      · refine ⟨fun x hx => ?_, List.chain'_singleton _⟩
        rw [List.mem_singleton.mp hx]
        exact hhere
      · obtain ⟨mid, u, rest1, hrest, hlt, hge, hp1, hsum1⟩ :=
          window_position us.flatten d cp _ (by omega)
            (fun i hi => start_points_window us.flatten cp i hi) 16 0 st done.flatten rest
            pic1 st1 (by rw [hus, List.flatten_append]) (fun w hw1 => hwf w
              (by rw [hus]; exact List.mem_append_right _ hw1)) (by omega) (by omega)
            (by omega) hw
        simp only [Nat.zero_add] at hlt hge hp1
        have hus1 : us = done ++ mid ++ u :: rest1 := by
          rw [hus, hrest, List.append_assoc]
        have hus2 : us = (done ++ mid ++ [u]) ++ rest1 := by
          rw [hus1]; simp
        have hlen2 : (done ++ mid ++ [u]).flatten.length =
            done.flatten.length + mid.flatten.length + u.length := by
          simp [Nat.add_assoc]
        obtain ⟨hmem, hchain⟩ := ih (cp + pic1) st1 (done ++ mid ++ [u]) rest1 hus2
          (by rw [hlen2]; omega) hsum1
        refine ⟨fun x hx => ?_, ?_⟩
        · rcases List.mem_cons.mp hx with rfl | hx
          · exact hhere
          · exact hmem x hx
        · rw [List.chain'_cons']
          refine ⟨fun y hy => ?_, hchain⟩
          rw [heads_head] at hy
          injection hy with hy
          rw [← hy]
          have := nextWindow_intro us done mid u rest1 hwf hus1 hlt hge
          rw [hcp, hp1, ← Nat.add_assoc]
          exact this
    rw [Replace.heads]
    apply htail
    by_cases hc : 16 ≤ rest.flatten.length
    · rw [sub64_of_le _ _ (by omega), if_pos (by omega),
        readBytes_inside us.flatten cp 16 (by omega)]
      simp only
      by_cases hm : movemask_epi8 ((us.flatten.drop cp).take 16) = 0 ∧ flag = false
      · rw [if_pos hm]
        have hw := window_all_zero us.flatten us.flatten.length d cp
          (GetStartPoint ((us.flatten.drop cp).take 16))
          (movemask_zero_start_points _ hm.1) 16 16 0 st (by omega) (by omega)
        exact Or.inr ⟨16, _, by omega, hw, rfl⟩
      · rw [if_neg hm]
        cases hw : Replace.window us.flatten us.flatten.length d cp
            (GetStartPoint ((us.flatten.drop cp).take 16)) 16 0 st with
        | error e => exact Or.inl rfl
        | ok p => exact Or.inr ⟨p.1, p.2, by omega, rfl, rfl⟩
    · rw [sub64_of_le _ _ (by omega), if_neg (by omega)]
      exact Or.inl rfl

/-! ## The lookups of the windows -/

/-- Dropping the lookups from a logged run of the inner loop gives the run
of `Replace.window`. -/
theorem windowLogged_erase (src : Bytes) (src_len : Nat) (d : StringDictionary) (cp : Nat)
    (sp : List Nat) :
    ∀ (fuel pic : Nat) (st : Cursors),
      (Replace.windowLogged src src_len d cp sp fuel pic st).2 =
        Replace.window src src_len d cp sp fuel pic st := by
  intro fuel
  induction fuel with
  | zero =>
    intro pic st
    rw [Replace.windowLogged, Replace.window]
  | succ fuel ih =>
    intro pic st
    rw [Replace.windowLogged, Replace.window]
    by_cases hpic : pic < 16
    · simp only [hpic, if_true]
      by_cases hcl : sp.getD pic 0 = 0
      · simp only [hcl, ne_eq, not_true_eq_false, if_false, ih]
      · simp only [hcl, ne_eq, not_false_eq_true, if_true]
        cases hr : readBytes src (cp + pic) (sp.getD pic 0) with
        | error e => rfl
        | ok seek =>
          simp only
          cases hf : d.find seek with
          | none => simp only [ih]
          | some result =>
            simp only
            cases hfl : (if st.unwritten_bytes = 0 then Except.ok st
                else copySkipped src
                  { st with
                    dest := ReallocateIfNotEnough st.dest st.dst_cursor_position
                              (sub64 (st.unwritten_bytes + src_len) st.src_cursor_position) })
              with
            | error e => simp only [ite_not, hfl]
            | ok st1 =>
              simp only [ite_not, hfl]
              cases hm : memcpy st1.dest st1.dst_cursor_position result with
              | error e => rfl
              | ok dest2 => simp only [ih]
    · simp only [hpic, if_false]

/-- On a window whose start points are all 0 the logged inner loop makes no
lookup. -/
theorem windowLogged_all_zero (src : Bytes) (src_len : Nat) (d : StringDictionary) (cp : Nat)
    (sp : List Nat) (hsp : ∀ i, sp.getD i 0 = 0) :
    ∀ (k fuel pic : Nat) (st : Cursors), pic + k = 16 → k ≤ fuel →
      Replace.windowLogged src src_len d cp sp fuel pic st =
        ([], .ok (16, { st with unwritten_bytes := st.unwritten_bytes + k })) := by
  intro k
  induction k with
  | zero =>
    intro fuel pic st hp _
    have : pic = 16 := by omega
    subst this
    cases fuel <;> simp [Replace.windowLogged]
  | succ k ih =>
    intro fuel pic st hp hf
    obtain ⟨fuel, rfl⟩ : ∃ f, fuel = f + 1 := ⟨fuel - 1, by omega⟩
    have hlt : pic < 16 := by omega
    rw [Replace.windowLogged]
    simp only [hlt, if_true, hsp pic, ne_eq, not_true_eq_false, if_false]
    rw [ih fuel (pic + 1) _ (by omega) (by omega)]
    simp only [Nat.add_assoc, Nat.add_comm 1 k]

theorem copySkipped_ok_cursor {src : Bytes} {st st1 : Cursors}
    (h : copySkipped src st = .ok st1) :
    st1.src_cursor_position = st.src_cursor_position + st.unwritten_bytes := by
  unfold copySkipped at h
  split at h
  · cases h
  · split at h
    · cases h
    · injection h with h
      rw [← h]

/-- One iteration of the logged inner loop at the start of a well-formed
codepoint `u`, for any dictionary: a codepoint of more than one byte is
looked up with all its bytes as the key, a one-byte codepoint is not looked
up; then the loop goes on right after `u`, or it faults. -/
theorem windowLogged_step (src : Bytes) (d : StringDictionary) (cp : Nat) (sp : List Nat)
    (pre u post : Bytes) (fuel pic : Nat) (st : Cursors)
    (hs : src = pre ++ u ++ post) (hu : isCodepoint u = true)
    (hpos : cp + pic = pre.length) (hpic : pic < 16)
    (hsp : sp.getD pic 0 = GetStartPointByte (src.getD (cp + pic) 0))
    (hsum : st.src_cursor_position + st.unwritten_bytes = cp + pic) :
    (∃ st1, st1.src_cursor_position + st1.unwritten_bytes = cp + (pic + u.length) ∧
      Replace.windowLogged src src.length d cp sp (fuel + 1) pic st =
        ((if u.length = 1 then [] else [(pic, u)]) ++
          (Replace.windowLogged src src.length d cp sp fuel (pic + u.length) st1).1,
         (Replace.windowLogged src src.length d cp sp fuel (pic + u.length) st1).2)) ∨
    (∃ e, Replace.windowLogged src src.length d cp sp (fuel + 1) pic st =
      ((if u.length = 1 then [] else [(pic, u)]), .error e)) := by
  obtain ⟨b, tl, rfl, hshape⟩ := isCodepoint_shape hu
  have hget : src.getD (cp + pic) 0 = b := by
    rw [hs, hpos]; simp only [List.cons_append, List.append_assoc]; exact getD_mid _ b _
  have hread : readBytes src (cp + pic) (b :: tl).length = .ok (b :: tl) :=
    readBytes_at src pre (b :: tl) post _ _ hs hpos rfl
  rw [hget] at hsp
  rw [Replace.windowLogged]
  rcases hshape with ⟨rfl, hb⟩ | ⟨hb1, hb2, hl2, hl4, hgsp, -⟩
  · have hcls : GetStartPointByte b = 0 := by
      rw [GetStartPointByte_table b (by omega), if_pos (by omega)]
    rw [hcls] at hsp
    refine Or.inl ⟨{ st with unwritten_bytes := st.unwritten_bytes + 1 }, ?_, ?_⟩
    · simp only [List.length_singleton]; omega
    · simp only [hpic, if_true, hsp, ne_eq, not_true_eq_false, if_false,
        List.length_singleton, List.nil_append]
  · rw [hgsp] at hsp
    have hne : (b :: tl).length ≠ 0 := by omega
    have hne1 : (b :: tl).length ≠ 1 := by omega
    simp only [hpic, if_true, hsp, hne, hne1, ne_eq, not_false_eq_true, hread, if_false]
    cases hf : d.find (b :: tl) with
    | none =>
      exact Or.inl ⟨{ st with unwritten_bytes := st.unwritten_bytes + (b :: tl).length },
        by simp only; omega, rfl⟩
    | some v =>
      simp only
      by_cases hz : st.unwritten_bytes = 0
      · simp only [hz, not_true_eq_false, if_false]
        cases hm : memcpy st.dest st.dst_cursor_position v with
        | error e => exact Or.inr ⟨e, rfl⟩
        | ok dest2 => exact Or.inl ⟨_, by simp only; omega, rfl⟩
      · simp only [hz, not_false_eq_true, if_true]
        cases hfl : copySkipped src
            { st with
              dest := ReallocateIfNotEnough st.dest st.dst_cursor_position
                        (sub64 (st.unwritten_bytes + src.length) st.src_cursor_position) } with
        | error e => exact Or.inr ⟨e, rfl⟩
        | ok st1 =>
          have hst1 := copySkipped_ok_cursor hfl
          simp only at hst1
          dsimp only
          cases hm : memcpy st1.dest st1.dst_cursor_position v with
          | error e => exact Or.inr ⟨e, rfl⟩
          | ok dest2 => exact Or.inl ⟨_, by simp only; omega, rfl⟩

theorem keysOf_cons (q : Nat) (u : Bytes) (us : List Bytes) :
    keysOf q (u :: us) = (if u.length = 1 then [] else [(q, u)]) ++ keysOf (q + u.length) us :=
  rfl

theorem keysOf_mem (v : Bytes) (q : Nat) :
    ∀ (mid : List Bytes) (p : Nat), (q, v) ∈ keysOf p mid →
      ∃ m1 m2, mid = m1 ++ v :: m2 ∧ q = p + m1.flatten.length ∧ v.length ≠ 1 := by
  intro mid
  induction mid with
  | nil => intro p h; simp [keysOf] at h
  | cons u us ih =>
    intro p h
    rw [keysOf_cons, List.mem_append] at h
    rcases h with h | h
    · by_cases h1 : u.length = 1
      · rw [if_pos h1] at h; cases h
      · rw [if_neg h1, List.mem_singleton] at h
        injection h with hq hv
        subst hv
        exact ⟨[], us, rfl, by simpa using hq, h1⟩
    · obtain ⟨m1, m2, hmid, hq, hv⟩ := ih _ h
      refine ⟨u :: m1, m2, by rw [hmid]; rfl, ?_, hv⟩
      rw [List.flatten_cons, List.length_append]; omega

/-- The logged inner loop started at a codepoint boundary, for any
dictionary: its lookups are the codepoints of more than one byte among the
codepoints `mid` it went through, each at its offset below 16 and with all
its bytes; when the loop returns it has stopped right after `mid`, whose
last codepoint starts inside the window. -/
theorem windowLogged_spec (src : Bytes) (d : StringDictionary) (cp : Nat) (sp : List Nat)
    (hcp : cp + 16 ≤ src.length)
    (hsp : ∀ i, i < 16 → sp.getD i 0 = GetStartPointByte (src.getD (cp + i) 0)) :
    ∀ (fuel pic : Nat) (st : Cursors) (pre : Bytes) (rest : List Bytes),
      src = pre ++ rest.flatten → WellFormed rest → cp + pic = pre.length →
      st.src_cursor_position + st.unwritten_bytes = cp + pic →
      ∃ mid rest1, rest = mid ++ rest1 ∧
        (Replace.windowLogged src src.length d cp sp fuel pic st).1 = keysOf pic mid ∧
        (∀ k ∈ (Replace.windowLogged src src.length d cp sp fuel pic st).1, k.1 < 16) ∧
        (16 ≤ pic → mid = []) ∧
        (∀ pic1 st1,
          (Replace.windowLogged src src.length d cp sp fuel pic st).2 = .ok (pic1, st1) →
          pic1 = pic + mid.flatten.length ∧ 16 ≤ pic1 ∧
          st1.src_cursor_position + st1.unwritten_bytes = cp + pic1 ∧
          (pic < 16 → ∃ mid0 u, mid = mid0 ++ [u] ∧ pic + mid0.flatten.length < 16)) := by
  intro fuel
  induction fuel with
  | zero =>
    intro pic st pre rest _ _ _ hsum
    refine ⟨[], rest, rfl, by rw [Replace.windowLogged]; rfl,
      by rw [Replace.windowLogged]; simp, fun _ => rfl, fun pic1 st1 h => ?_⟩
    rw [Replace.windowLogged] at h
    simp only at h
    split at h
    · cases h
    · next hpic =>
      injection h with h
      injection h with h1 h2
      subst h1 h2
      exact ⟨by simp, by omega, hsum, fun hlt => absurd hlt hpic⟩
  | succ fuel ih =>
    intro pic st pre rest hs hwf hpos hsum
    by_cases hpic : pic < 16
    · have hsl : src.length = pre.length + rest.flatten.length := by
        rw [hs, List.length_append]
      match rest, hs, hwf, hsl with
      | [], _, _, hsl =>
        simp only [List.flatten_nil, List.length_nil] at hsl; omega
      | u :: rest0, hs, hwf, _ =>
        have hu : isCodepoint u = true := hwf u (List.mem_cons_self _ _)
        have hwf0 : WellFormed rest0 := fun w hw => hwf w (List.mem_cons_of_mem _ hw)
        have hs1 : src = pre ++ u ++ rest0.flatten := by
          rw [hs]; simp
        have hupos := isCodepoint_length_pos hu
        rcases windowLogged_step src d cp sp pre u rest0.flatten fuel pic st hs1 hu hpos hpic
            (hsp pic hpic) hsum with ⟨st2, hsum2, heq⟩ | ⟨e, heq⟩
        · obtain ⟨mid, rest1, hrest, hlog, hlt, hnil, hok⟩ :=
            ih (pic + u.length) st2 (pre ++ u) rest0 (by rw [hs1]) hwf0
              (by rw [List.length_append]; omega) hsum2
          refine ⟨u :: mid, rest1, by rw [hrest]; rfl, ?_, ?_, fun h => by omega,
            fun pic1 st1 h => ?_⟩
          · rw [heq, keysOf_cons, hlog]
          · intro k hk
            rw [heq] at hk
            rcases List.mem_append.mp hk with hk | hk
            · by_cases h1 : u.length = 1
              · rw [if_pos h1] at hk; cases hk
              · rw [if_neg h1, List.mem_singleton] at hk
                rw [hk]; exact hpic
            · exact hlt k hk
          · rw [heq] at h
            obtain ⟨hp1, hge, hsum1, hlast⟩ := hok pic1 st1 h
            refine ⟨by rw [hp1, List.flatten_cons, List.length_append]; omega, hge, hsum1,
              fun _ => ?_⟩
            by_cases hnext : pic + u.length < 16
            · obtain ⟨mid0, v, hmid, hlt0⟩ := hlast hnext
              refine ⟨u :: mid0, v, by rw [hmid]; rfl, ?_⟩
              rw [List.flatten_cons, List.length_append]; omega
            · have := hnil (by omega)
              exact ⟨[], u, by rw [this]; rfl, by simpa using hpic⟩
        · refine ⟨[u], rest0, rfl, ?_, ?_, fun h => by omega, fun pic1 st1 h => ?_⟩
          · rw [heq, keysOf_cons]; simp [keysOf]
          · intro k hk
            rw [heq] at hk
            by_cases h1 : u.length = 1
            · simp only [h1, if_true] at hk; cases hk
            · simp only [h1, if_false, List.mem_singleton] at hk
              rw [hk]; exact hpic
          · rw [heq] at h
            cases h
    · refine ⟨[], rest, rfl, ?_, ?_, fun _ => rfl, fun pic1 st1 h => ?_⟩
      · rw [Replace.windowLogged, if_neg hpic]; rfl
      · rw [Replace.windowLogged, if_neg hpic]; simp
      · rw [Replace.windowLogged, if_neg hpic] at h
        injection h with h
        injection h with h1 h2
        subst h1 h2
        exact ⟨by simp, by omega, hsum, fun hlt => absurd hlt hpic⟩

/-- One head of the outer loop on a well-formed text, for any dictionary:
every lookup of its iteration has a whole codepoint of the text as the key,
and when the iteration ends, the next head and the lookups made are as
`WindowRun` says. -/
theorem keysRead_spec (us : List Bytes) (d : StringDictionary) (flag : Bool)
    (hwf : WellFormed us) (cp : Nat) (st : Cursors) (done rest : List Bytes)
    (hus : us = done ++ rest) (hcp : cp = done.flatten.length)
    (hsum : st.src_cursor_position + st.unwritten_bytes = cp) :
    (∀ k ∈ Replace.keysRead us.flatten us.flatten.length d flag cp st,
      ∃ m1 m2, rest = m1 ++ k.2 :: m2 ∧ k.1 = m1.flatten.length ∧ k.1 < 16 ∧
        k.2.length ≠ 1) ∧
    (∀ fuel, ∃ T,
      Replace.heads us.flatten us.flatten.length d flag (fuel + 1) cp st = (cp, st) :: T ∧
      (T = [] ∨ ∃ pic1 st1 mid u rest1, rest = mid ++ u :: rest1 ∧
        mid.flatten.length < 16 ∧ 16 ≤ mid.flatten.length + u.length ∧
        pic1 = mid.flatten.length + u.length ∧
        st1.src_cursor_position + st1.unwritten_bytes = cp + pic1 ∧
        T = Replace.heads us.flatten us.flatten.length d flag fuel (cp + pic1) st1 ∧
        Replace.keysRead us.flatten us.flatten.length d flag cp st =
          keysOf 0 (mid ++ [u]))) := by
  have hsl : us.flatten.length = done.flatten.length + rest.flatten.length := by
    rw [hus, List.flatten_append, List.length_append]
  by_cases hc : 16 ≤ rest.flatten.length
  · have hread := readBytes_inside us.flatten cp 16 (by omega)
    have hwfr : WellFormed rest := fun w hw1 =>
      hwf w (by rw [hus]; exact List.mem_append_right _ hw1)
    obtain ⟨mid, rest1, hrest, hlog, hlt, -, hok⟩ :=
      windowLogged_spec us.flatten d cp (GetStartPoint ((us.flatten.drop cp).take 16))
        (by omega) (fun i hi => start_points_window us.flatten cp i hi) 16 0 st done.flatten
        rest (by rw [hus, List.flatten_append]) hwfr (by omega) (by omega)
    by_cases hm : movemask_epi8 ((us.flatten.drop cp).take 16) = 0 ∧ flag = false
    · have hkeys : Replace.keysRead us.flatten us.flatten.length d flag cp st = [] := by
        unfold Replace.keysRead
        rw [sub64_of_le _ _ (by omega), if_pos (by omega), hread]
        simp only [hm, and_self, if_true]
      have hz := windowLogged_all_zero us.flatten us.flatten.length d cp
        (GetStartPoint ((us.flatten.drop cp).take 16))
        (movemask_zero_start_points _ hm.1) 16 16 0 st (by omega) (by omega)
      rw [hz] at hlog hok
      obtain ⟨hp1, -, hsum1, hlast⟩ := hok 16 _ rfl
      obtain ⟨mid0, u, hmid, hlt0⟩ := hlast (by omega)
      simp only [Nat.zero_add] at hp1 hlt0
      have hml : mid.flatten.length = mid0.flatten.length + u.length := by
        rw [hmid]; simp
      refine ⟨fun k hk => (by rw [hkeys] at hk; cases hk), fun fuel =>
        ⟨Replace.heads us.flatten us.flatten.length d flag fuel (cp + 16)
          { st with unwritten_bytes := st.unwritten_bytes + 16 }, ?_, Or.inr
          ⟨16, _, mid0, u, rest1, by rw [hrest, hmid]; simp, hlt0, by omega, by omega,
            hsum1, rfl, by rw [hkeys, ← hmid]; exact hlog⟩⟩⟩
      rw [Replace.heads, sub64_of_le _ _ (by omega), if_pos (by omega), hread]
      simp only [hm, and_self, if_true]
    · have hkeys : Replace.keysRead us.flatten us.flatten.length d flag cp st =
          (Replace.windowLogged us.flatten us.flatten.length d cp
            (GetStartPoint ((us.flatten.drop cp).take 16)) 16 0 st).1 := by
        unfold Replace.keysRead
        rw [sub64_of_le _ _ (by omega), if_pos (by omega), hread]
        simp only [hm, if_false]
      refine ⟨fun k hk => ?_, fun fuel => ?_⟩
      · rw [hkeys] at hk
        have hk16 := hlt k hk
        rw [hlog] at hk
        obtain ⟨m1, m2, hmid, hq, hv⟩ := keysOf_mem k.2 k.1 mid 0 hk
        exact ⟨m1, m2 ++ rest1, by rw [hrest, hmid]; simp, by omega, hk16, hv⟩
      · have hheads : Replace.heads us.flatten us.flatten.length d flag (fuel + 1) cp st =
            (cp, st) ::
              (match (Replace.windowLogged us.flatten us.flatten.length d cp
                  (GetStartPoint ((us.flatten.drop cp).take 16)) 16 0 st).2 with
              | .error _ => []
              | .ok (pic1, st1) =>
                Replace.heads us.flatten us.flatten.length d flag fuel (cp + pic1) st1) := by
          rw [Replace.heads, sub64_of_le _ _ (by omega), if_pos (by omega), hread,
            windowLogged_erase]
          simp only [hm, if_false]
        refine ⟨_, hheads, ?_⟩
        cases hr : (Replace.windowLogged us.flatten us.flatten.length d cp
            (GetStartPoint ((us.flatten.drop cp).take 16)) 16 0 st).2 with
        | error e => exact Or.inl rfl
        | ok p =>
          obtain ⟨pic1, st1⟩ := p
          obtain ⟨hp1, -, hsum1, hlast⟩ := hok pic1 st1 hr
          obtain ⟨mid0, u, hmid, hlt0⟩ := hlast (by omega)
          simp only [Nat.zero_add] at hp1 hlt0
          have hml : mid.flatten.length = mid0.flatten.length + u.length := by
            rw [hmid]; simp
          have hge : 16 ≤ pic1 := (hok pic1 st1 hr).2.1
          exact Or.inr ⟨pic1, st1, mid0, u, rest1, by rw [hrest, hmid]; simp, hlt0,
            by omega, by omega, hsum1, rfl, by rw [hkeys, hlog, hmid]⟩
  · have hkeys : Replace.keysRead us.flatten us.flatten.length d flag cp st = [] := by
      unfold Replace.keysRead
      rw [sub64_of_le _ _ (by omega), if_neg (by omega)]
    refine ⟨fun k hk => (by rw [hkeys] at hk; cases hk), fun fuel => ⟨[], ?_, Or.inl rfl⟩⟩
    rw [Replace.heads, sub64_of_le _ _ (by omega), if_neg (by omega)]

/-- The heads of the outer loop on a well-formed text, for any dictionary
and either value of the flag: consecutive heads, with the lookups made in
between, are related by `WindowRun`, and every lookup made from a head has
as its key a whole codepoint of more than one byte that starts inside the
window. -/
theorem heads_keys_spec (us : List Bytes) (d : StringDictionary) (flag : Bool)
    (hwf : WellFormed us) :
    ∀ (fuel cp : Nat) (st : Cursors) (done rest : List Bytes),
      us = done ++ rest → cp = done.flatten.length →
      st.src_cursor_position + st.unwritten_bytes = cp →
      List.Chain'
        (fun x y => WindowRun us x.1 y.1
          (Replace.keysRead us.flatten us.flatten.length d flag x.1 x.2))
        (Replace.heads us.flatten us.flatten.length d flag fuel cp st) ∧
      (∀ x ∈ Replace.heads us.flatten us.flatten.length d flag fuel cp st,
        ∀ k ∈ Replace.keysRead us.flatten us.flatten.length d flag x.1 x.2,
          ∃ done1 mid rest1, us = done1 ++ mid ++ k.2 :: rest1 ∧
            x.1 = done1.flatten.length ∧ k.1 = mid.flatten.length ∧ k.1 < 16 ∧
            2 ≤ k.2.length) := by
  have hkey : ∀ (cp : Nat) (st : Cursors) (done rest : List Bytes),
      us = done ++ rest → cp = done.flatten.length →
      st.src_cursor_position + st.unwritten_bytes = cp →
      ∀ k ∈ Replace.keysRead us.flatten us.flatten.length d flag cp st,
        ∃ done1 mid rest1, us = done1 ++ mid ++ k.2 :: rest1 ∧
          cp = done1.flatten.length ∧ k.1 = mid.flatten.length ∧ k.1 < 16 ∧
          2 ≤ k.2.length := by
    intro cp st done rest hus hcp hsum k hk
    obtain ⟨m1, m2, hrest, hq, hlt, hv⟩ :=
      (keysRead_spec us d flag hwf cp st done rest hus hcp hsum).1 k hk
    have hmem : k.2 ∈ us := by rw [hus, hrest]; simp
    have := isCodepoint_length_pos (hwf _ hmem)
    exact ⟨done, m1, m2, by rw [hus, hrest, List.append_assoc], hcp, hq, hlt, by omega⟩
  intro fuel
  induction fuel with
  | zero =>
    intro cp st done rest hus hcp hsum
    rw [Replace.heads]
    refine ⟨List.chain'_singleton _, fun x hx => ?_⟩
    rw [List.mem_singleton.mp hx]
    exact hkey cp st done rest hus hcp hsum
  | succ fuel ih =>
    intro cp st done rest hus hcp hsum
    obtain ⟨T, hT, hcase⟩ := (keysRead_spec us d flag hwf cp st done rest hus hcp hsum).2 fuel
    rw [hT]
    rcases hcase with rfl | ⟨pic1, st1, mid, u, rest1, hrest, hlt, hge, hp1, hsum1, rfl, hkeys⟩
    · refine ⟨List.chain'_singleton _, fun x hx => ?_⟩
      rw [List.mem_singleton.mp hx]
      exact hkey cp st done rest hus hcp hsum
    · have hus1 : us = done ++ mid ++ u :: rest1 := by
        rw [hus, hrest, List.append_assoc]
      have hus2 : us = (done ++ mid ++ [u]) ++ rest1 := by
        rw [hus1]; simp
      have hlen2 : (done ++ mid ++ [u]).flatten.length =
          done.flatten.length + mid.flatten.length + u.length := by
        simp [Nat.add_assoc]
      obtain ⟨hchain, hmem⟩ := ih (cp + pic1) st1 (done ++ mid ++ [u]) rest1 hus2
        (by rw [hlen2]; omega) hsum1
      refine ⟨?_, fun x hx => ?_⟩
      · rw [List.chain'_cons']
        refine ⟨fun y hy => ?_, hchain⟩
        rw [heads_head] at hy
        injection hy with hy
        rw [← hy]
        exact ⟨done, mid, u, rest1, hus1, hcp, hlt, hge, by simp only; omega, hkeys⟩
      · rcases List.mem_cons.mp hx with rfl | hx
        · exact hkey cp st done rest hus hcp hsum
        · exact hmem x hx

/-- C15: for every well-formed UTF-8 input, every dictionary and either
value of the flag, in every state in which the outer loop of `Replace`
tests its condition `current_position` is a codepoint boundary, is at most
`src_len`, and equals `src_cursor_position + unwritten_bytes`; the window
after a window at `cp` begins at `cp + q + L`, where the last codepoint
that starts in the window begins at offset `q < 16` and has `L` bytes with
`q + L >= 16`; the lookups the run makes in a window, as recorded from the
strings `seek` it builds, are the codepoints of more than one byte that
start in the window, each once, in order and with all its `L` bytes as the
key, also the one that ends after the window, and every lookup made before
a fault has such a codepoint as its key; the tail handed to
`ReplaceCharByChar` is what follows a boundary and is shorter than 16
bytes. -/
theorem C15_windows_start_at_boundaries (us : List Bytes) (d : StringDictionary)
    (flag : Bool) (hwf : WellFormed us) :
    (∀ x ∈ Replace.heads us.flatten us.flatten.length d flag (us.flatten.length + 1) 0
        { src_cursor_position := 0, dst_cursor_position := 0, unwritten_bytes := 0,
          dest := List.replicate (us.flatten.length * 2) 0 },
      Boundary us x.1 ∧ x.1 ≤ us.flatten.length ∧
      x.2.src_cursor_position + x.2.unwritten_bytes = x.1) ∧
    List.Chain' (fun x y => NextWindow us x.1 y.1)
      (Replace.heads us.flatten us.flatten.length d flag (us.flatten.length + 1) 0
        { src_cursor_position := 0, dst_cursor_position := 0, unwritten_bytes := 0,
          dest := List.replicate (us.flatten.length * 2) 0 }) ∧
    (∀ cp st,
      Replace.loop us.flatten us.flatten.length d flag (us.flatten.length + 1) 0
        { src_cursor_position := 0, dst_cursor_position := 0, unwritten_bytes := 0,
          dest := List.replicate (us.flatten.length * 2) 0 } = .ok (cp, st) →
      ∃ done rest, us = done ++ rest ∧ cp = done.flatten.length ∧
        rest.flatten.length < 16 ∧
        substr us.flatten cp (us.flatten.length - cp) = .ok rest.flatten) ∧
    List.Chain'
      (fun x y => WindowRun us x.1 y.1
        (Replace.keysRead us.flatten us.flatten.length d flag x.1 x.2))
      (Replace.heads us.flatten us.flatten.length d flag (us.flatten.length + 1) 0
        { src_cursor_position := 0, dst_cursor_position := 0, unwritten_bytes := 0,
          dest := List.replicate (us.flatten.length * 2) 0 }) ∧
    (∀ x ∈ Replace.heads us.flatten us.flatten.length d flag (us.flatten.length + 1) 0
        { src_cursor_position := 0, dst_cursor_position := 0, unwritten_bytes := 0,
          dest := List.replicate (us.flatten.length * 2) 0 },
      ∀ k ∈ Replace.keysRead us.flatten us.flatten.length d flag x.1 x.2,
        ∃ done mid rest, us = done ++ mid ++ k.2 :: rest ∧ x.1 = done.flatten.length ∧
          k.1 = mid.flatten.length ∧ k.1 < 16 ∧ 2 ≤ k.2.length) := by
  obtain ⟨hmem, hchain⟩ := heads_spec us d flag hwf (us.flatten.length + 1) 0
    { src_cursor_position := 0, dst_cursor_position := 0, unwritten_bytes := 0,
      dest := List.replicate (us.flatten.length * 2) 0 } [] us rfl rfl rfl
  obtain ⟨hrun, hkeys⟩ := heads_keys_spec us d flag hwf (us.flatten.length + 1) 0
    { src_cursor_position := 0, dst_cursor_position := 0, unwritten_bytes := 0,
      dest := List.replicate (us.flatten.length * 2) 0 } [] us rfl rfl rfl
  refine ⟨hmem, hchain, fun cp st hloop => ?_, hrun, hkeys⟩
  obtain ⟨⟨done, rest, hus, hcp⟩, hle, -⟩ :=
    hmem (cp, st) (loop_ok_getLast _ _ d flag _ _ _ _ hloop)
  simp only at hcp hle
  have hexit := loop_ok_exit _ _ d flag _ _ _ _ _ hloop
  rw [sub64_of_le _ _ hle] at hexit
  have hsl : us.flatten.length = done.flatten.length + rest.flatten.length := by
    rw [hus, List.flatten_append, List.length_append]
  refine ⟨done, rest, hus, hcp, by omega, ?_⟩
  unfold substr
  rw [if_pos hle]
  congr 1
  have hs : us.flatten = done.flatten ++ rest.flatten := by rw [hus, List.flatten_append]
  rw [hs, hcp, List.drop_left]
  exact List.take_of_length_le (by rw [← hs]; omega)

/-- C15 at thirteen `a`, the four-byte codepoint U+1F600 at offset 13 of
the first window, and twenty `b`, with U+1F600 mapped to `!`: the windows
begin at 0, 17 and 33, the one lookup of the first window is at offset 13
with the four bytes of the codepoint as the key, and the codepoint is
replaced as a whole. -/
theorem C15_windows_start_at_boundaries_witness :
    WellFormed (List.replicate 13 [97] ++ [[0xF0, 0x9F, 0x98, 0x80]] ++
      List.replicate 20 [98]) ∧
    (Replace.heads (List.replicate 13 [97] ++ [[0xF0, 0x9F, 0x98, 0x80]] ++
        List.replicate 20 [98]).flatten 37 [([0xF0, 0x9F, 0x98, 0x80], [33])] false 38 0
      { src_cursor_position := 0, dst_cursor_position := 0, unwritten_bytes := 0,
        dest := List.replicate 74 0 }).map Prod.fst = [0, 17, 33] ∧
    Replace.keysRead (List.replicate 13 [97] ++ [[0xF0, 0x9F, 0x98, 0x80]] ++
        List.replicate 20 [98]).flatten 37 [([0xF0, 0x9F, 0x98, 0x80], [33])] false 0
      { src_cursor_position := 0, dst_cursor_position := 0, unwritten_bytes := 0,
        dest := List.replicate 74 0 } = [(13, [0xF0, 0x9F, 0x98, 0x80])] ∧
    Replace (List.replicate 13 [97] ++ [[0xF0, 0x9F, 0x98, 0x80]] ++
        List.replicate 20 [98]).flatten 37 [([0xF0, 0x9F, 0x98, 0x80], [33])] false =
      .ok (List.replicate 13 97 ++ [33] ++ List.replicate 20 98) ∧
    List.Chain'
      (fun x y => WindowRun (List.replicate 13 [97] ++ [[0xF0, 0x9F, 0x98, 0x80]] ++
          List.replicate 20 [98]) x.1 y.1
        (Replace.keysRead (List.replicate 13 [97] ++ [[0xF0, 0x9F, 0x98, 0x80]] ++
            List.replicate 20 [98]).flatten
          (List.replicate 13 [97] ++ [[0xF0, 0x9F, 0x98, 0x80]] ++
            List.replicate 20 [98]).flatten.length
          [([0xF0, 0x9F, 0x98, 0x80], [33])] false x.1 x.2))
      (Replace.heads (List.replicate 13 [97] ++ [[0xF0, 0x9F, 0x98, 0x80]] ++
          List.replicate 20 [98]).flatten
        (List.replicate 13 [97] ++ [[0xF0, 0x9F, 0x98, 0x80]] ++
          List.replicate 20 [98]).flatten.length
        [([0xF0, 0x9F, 0x98, 0x80], [33])] false
        ((List.replicate 13 [97] ++ [[0xF0, 0x9F, 0x98, 0x80]] ++
          List.replicate 20 [98]).flatten.length + 1) 0
        { src_cursor_position := 0, dst_cursor_position := 0, unwritten_bytes := 0,
          dest := List.replicate ((List.replicate 13 [97] ++ [[0xF0, 0x9F, 0x98, 0x80]] ++
            List.replicate 20 [98]).flatten.length * 2) 0 }) :=
  ⟨by unfold WellFormed; decide, rfl, rfl, rfl,
    (C15_windows_start_at_boundaries _ [([0xF0, 0x9F, 0x98, 0x80], [33])] false
      (by unfold WellFormed; decide)).2.2.2.1⟩

end utf8mr
